import Mathlib

/-!
The program `neural-net-tutorial.cpp`: a fully connected feed-forward net trained by
back-propagation with momentum.

The classes `Connection`, `Neuron` and `Net` of the program, as pure functions over explicit
state.

* `double` is an arbitrary type `α` carrying the operations the program uses
  (`+ - * /`, the literals, the conversion from an unsigned count); no law of arithmetic is
  assumed by the definitions, and the two libm calls (`tanh`, `sqrt`) are the fields of `Libm`.
  A statement that holds for every such `α` holds in particular over the reals, and over
  `Double`, which has the infinities and NaN of a `double` (rounding left out).
* `std::vector` is `List`.  An index outside a vector has no defined behaviour in the
  program; here the call stops with `Fault.outOfRange`.  A failed `assert` stops it with
  `Fault.assertion`.  A stopped call reports the state it had reached.
* Sizes and counters are natural numbers.  The two places where unsigned subtraction can wrap
  (`size() - 1` on an empty vector, `size() - 2` on a net of one layer) are spelled out where
  they occur, and so is the constructor's loop test `neuronNum <= topology[layerNum]`, which an
  `unsigned` counter can never fail when the entry is `UINT_MAX`.
-/

namespace NeuralNet

/-- How a call ends when it does not run to completion. -/
inductive Fault where
  /-- An `assert` did not hold. -/
  | assertion
  /-- A vector was indexed outside its bounds (or `back()` taken of an empty one). -/
  | outOfRange
  /-- A loop whose test can never fail. -/
  | nonTermination
  deriving DecidableEq, Repr

/-- The two functions of `<cmath>` the program calls. -/
structure Libm (α : Type) where
  tanh : α → α
  sqrt : α → α

/-- What the constructor takes from its surroundings: the C random source and the contents
of the fields it leaves uninitialised. `rand layerNum neuronNum c` is the value `rand()`
returned while connection `c` of neuron `neuronNum` of layer `layerNum` was being made. -/
structure Host (α : Type) where
  RAND_MAX : Nat
  rand : Nat → Nat → Nat → Nat
  outputVal : Nat → Nat → α
  gradient : Nat → Nat → α
  error : α
  recentAverageError : α
  recentAverageSmoothingFactor : α

/-- Largest value of the type `unsigned`. -/
def UINT_MAX : Nat := 4294967295

/-- The source's `struct Connection`. -/
structure Connection (α : Type) where
  weight : α
  deltaWeight : α
  deriving DecidableEq, Repr

/-- Data members of the source's `class Neuron`. -/
structure Neuron (α : Type) where
  m_outputVal : α
  m_outputWeights : List (Connection α)
  m_myIndex : Nat
  m_gradient : α
  deriving DecidableEq, Repr

/-- The source's `typedef vector<Neuron> Layer`. -/
abbrev Layer (α : Type) := List (Neuron α)

/-- Data members of the source's `class Net`. -/
structure Net (α : Type) where
  m_layers : List (Layer α)
  m_error : α
  m_recentAverageError : α
  m_recentAverageSmoothingFactor : α
  deriving DecidableEq, Repr

/-- The loop `for (unsigned n = 0; n < count; ++n) v[n].op(...)`, where the call changes
element `n` only: `op n x` is what the call turns `x` into, `none` when the call indexes a
vector out of range. -/
def updateEach {β : Type} (count : Nat) (op : Nat → β → Option β) (v : List β) :
    Except (Fault × List β) (List β) :=
  (List.range count).foldlM (fun v n =>
    match v[n]? with
    | none => .error (.outOfRange, v)
    | some x =>
      match op n x with
      | none => .error (.outOfRange, v)
      | some y => .ok (v.set n y)) v

variable {α : Type} [Add α] [Sub α] [Mul α] [Div α] [Zero α] [One α] [NatCast α]
  [OfScientific α]

namespace Neuron

/-- `void setOutputVal(double val) { m_outputVal = val; }` -/
def setOutputVal (self : Neuron α) (val : α) : Neuron α :=
  { self with m_outputVal := val }

/-- `double getOutputVal(void) const { return m_outputVal; }` -/
def getOutputVal (self : Neuron α) : α := self.m_outputVal

/-- `double Neuron::eta = 0.15;` -/
def eta : α := 0.15

/-- `double Neuron::alpha = 0.5;` -/
def alpha : α := 0.5

/-- `Neuron::transferFunction`: `return tanh(x);` -/
def transferFunction (m : Libm α) (x : α) : α := m.tanh x

/-- `Neuron::transferFunctionDerivative`: `return 1 - x*x;` -/
def transferFunctionDerivative (x : α) : α := 1 - x * x

/-- `Neuron::randomWeight`: `return rand() / double(RAND_MAX);`, `r` being what `rand()`
returned. -/
def randomWeight (RAND_MAX : Nat) (r : Nat) : α := (r : α) / (RAND_MAX : α)

/-- `Neuron::updateInputWeights(Layer &prevLayer)`: the state is `prevLayer`. -/
def updateInputWeights (self : Neuron α) (prevLayer : Layer α) :
    Except (Fault × Layer α) (Layer α) :=
  updateEach prevLayer.length (fun _ neuron =>
    match neuron.m_outputWeights[self.m_myIndex]? with
    | none => none
    | some c =>
      let oldDeltaWeight := c.deltaWeight
      let newDeltaWeight :=
        eta * neuron.getOutputVal * self.m_gradient + alpha * oldDeltaWeight
      some { neuron with
        m_outputWeights := neuron.m_outputWeights.set self.m_myIndex
          { weight := c.weight + newDeltaWeight, deltaWeight := newDeltaWeight } })
    prevLayer

/-- `Neuron::sumDOW(const Layer &nextLayer) const`. The bound `nextLayer.size() - 1` is
unsigned: on an empty `nextLayer` it wraps and the first round reads `nextLayer[0]`. -/
def sumDOW (self : Neuron α) (nextLayer : Layer α) : Option α :=
  if nextLayer.length = 0 then none
  else
    (List.range (nextLayer.length - 1)).foldlM (fun sum n =>
      match self.m_outputWeights[n]?, nextLayer[n]? with
      | some c, some next => some (sum + c.weight * next.m_gradient)
      | _, _ => none) 0

/-- `Neuron::calcOutputGradients(double targetVal)` -/
def calcOutputGradients (self : Neuron α) (targetVal : α) : Neuron α :=
  let delta := targetVal - self.m_outputVal
  { self with m_gradient := delta * transferFunctionDerivative self.m_outputVal }

/-- `Neuron::calcHiddenGradients(const Layer &nextLayer)` -/
def calcHiddenGradients (self : Neuron α) (nextLayer : Layer α) : Option (Neuron α) :=
  match self.sumDOW nextLayer with
  | none => none
  | some dow =>
    some { self with m_gradient := dow * transferFunctionDerivative self.m_outputVal }

/-- `Neuron::feedForward(const Layer &prevLayer)` -/
def feedForward (m : Libm α) (self : Neuron α) (prevLayer : Layer α) : Option (Neuron α) :=
  match prevLayer.foldlM (fun sum neuron =>
      match neuron.m_outputWeights[self.m_myIndex]? with
      | none => none
      | some c => some (sum + neuron.getOutputVal * c.weight)) 0 with
  | none => none
  | some sum => some { self with m_outputVal := transferFunction m sum }

/-- `Neuron::Neuron(unsigned numOutputs, unsigned myIndex)`, for the neuron made at place
`neuronNum` of layer `layerNum`. `Connection()` is value-initialised, so `deltaWeight` starts
at zero; `m_outputVal` and `m_gradient` are left as found. -/
def new (host : Host α) (layerNum neuronNum : Nat) (numOutputs myIndex : Nat) : Neuron α :=
  { m_outputVal := host.outputVal layerNum neuronNum
    m_outputWeights := (List.range numOutputs).map fun c =>
      { weight := randomWeight host.RAND_MAX (host.rand layerNum neuronNum c)
        deltaWeight := 0 }
    m_myIndex := myIndex
    m_gradient := host.gradient layerNum neuronNum }

end Neuron

namespace Net

/-- Write back a layer that was changed through a reference `Layer &layer = m_layers[i]`;
a stopped call reports the net with the layer as far as it got. -/
def withLayer (net : Net α) (i : Nat) (r : Except (Fault × Layer α) (Layer α)) :
    Except (Fault × Net α) (Net α) :=
  match r with
  | .ok layer => .ok { net with m_layers := net.m_layers.set i layer }
  | .error (f, layer) => .error (f, { net with m_layers := net.m_layers.set i layer })

/-- One round of the loop of `Net::getResults`:
`resultVals.push_back(m_layers.back()[n].getOutputVal());` -/
def getResults.pushBack (back : Layer α) (resultVals : List α) (n : Nat) :
    Except (Fault × List α) (List α) :=
  match back[n]? with
  | none => .error (.outOfRange, resultVals)
  | some neuron => .ok (resultVals ++ [neuron.getOutputVal])

/-- `Net::getResults(vector<double> &resultVals) const`; the state is `resultVals`, cleared
first. The bound `m_layers.back().size() - 1` is unsigned: on an empty layer it wraps and
the first round reads `m_layers.back()[0]`. -/
def getResults (net : Net α) (_resultVals : List α) : Except (Fault × List α) (List α) :=
  let resultVals : List α := []
  match net.m_layers.getLast? with
  | none => .error (.outOfRange, resultVals)
  | some back =>
    if back.length = 0 then .error (.outOfRange, resultVals)
    else (List.range (back.length - 1)).foldlM (getResults.pushBack back) resultVals

/-- One round of the first loop of `Net::backProp`:
`double delta = targetVals[n] - outputLayer[n].getOutputVal(); m_error += delta * delta;` -/
def backProp.addSquare (outputLayer : Layer α) (targetVals : List α) (net : Net α)
    (n : Nat) : Except (Fault × Net α) (Net α) :=
  match targetVals[n]?, outputLayer[n]? with
  | some t, some neuron =>
    let delta := t - neuron.getOutputVal
    .ok { net with m_error := net.m_error + delta * delta }
  | _, _ => .error (.outOfRange, net)

/-- First part of `Net::backProp`, up to the update of `m_recentAverageError`. The bound
`outputLayer.size() - 1` is unsigned: on an empty layer it wraps and the first round reads
`outputLayer[0]`. -/
def backProp.rmsError (m : Libm α) (net : Net α) (outputLayer : Layer α)
    (targetVals : List α) : Except (Fault × Net α) (Net α) :=
  let net := { net with m_error := 0 }
  if outputLayer.length = 0 then .error (.outOfRange, net)
  else
    (List.range (outputLayer.length - 1)).foldlM
      (backProp.addSquare outputLayer targetVals) net >>= fun net =>
    let net := { net with m_error := net.m_error / ((outputLayer.length - 1 : Nat) : α) }
    let net := { net with m_error := m.sqrt net.m_error }
    Except.ok { net with
      m_recentAverageError :=
        (net.m_recentAverageError * net.m_recentAverageSmoothingFactor + net.m_error)
          / (net.m_recentAverageSmoothingFactor + 1) }

/-- Second part of `Net::backProp`: "Calculate output layer gradients". -/
def backProp.outputGradients (net : Net α) (outputLayer : Layer α) (targetVals : List α) :
    Except (Fault × Net α) (Net α) :=
  net.withLayer (net.m_layers.length - 1)
    (updateEach (outputLayer.length - 1)
      (fun n neuron => (targetVals[n]?).map neuron.calcOutputGradients) outputLayer)

/-- One round of the loop "Calculate hidden layer gradients" of `Net::backProp`:
`hiddenLayer[n].calcHiddenGradients(nextLayer)` for every `n < hiddenLayer.size()`. -/
def backProp.hiddenLayer (net : Net α) (layerNum : Nat) : Except (Fault × Net α) (Net α) :=
  match net.m_layers[layerNum]?, net.m_layers[layerNum + 1]? with
  | some hiddenLayer, some nextLayer =>
    net.withLayer layerNum
      (updateEach hiddenLayer.length
        (fun _ neuron => neuron.calcHiddenGradients nextLayer) hiddenLayer)
  | _, _ => .error (.outOfRange, net)

/-- Third part of `Net::backProp`: "Calculate hidden layer gradients", `layerNum` going down
from `m_layers.size() - 2` to 1. The start value wraps on a net of one layer; the first round
then reads `m_layers[layerNum]` far outside the vector. -/
def backProp.hiddenGradients (net : Net α) : Except (Fault × Net α) (Net α) :=
  if net.m_layers.length < 2 then .error (.outOfRange, net)
  else (List.iota (net.m_layers.length - 2)).foldlM backProp.hiddenLayer net

/-- The call `layer[n].updateInputWeights(prevLayer)` of the last loop of `Net::backProp`;
the state is `prevLayer`. -/
def backProp.updateFrom (layer : Layer α) (prevLayer : Layer α) (n : Nat) :
    Except (Fault × Layer α) (Layer α) :=
  match layer[n]? with
  | none => .error (.outOfRange, prevLayer)
  | some neuron => neuron.updateInputWeights prevLayer

/-- One round of the last loop of `Net::backProp`: `layer[n].updateInputWeights(prevLayer)`
for every `n < layer.size() - 1`. The bound is unsigned: on an empty `layer` it wraps and
the first round reads `layer[0]`. -/
def backProp.updateLayer (net : Net α) (layerNum : Nat) : Except (Fault × Net α) (Net α) :=
  match net.m_layers[layerNum]?, net.m_layers[layerNum - 1]? with
  | some layer, some prevLayer =>
    if layer.length = 0 then .error (.outOfRange, net)
    else
      net.withLayer (layerNum - 1)
        ((List.range (layer.length - 1)).foldlM (backProp.updateFrom layer) prevLayer)
  | _, _ => .error (.outOfRange, net)

/-- Last part of `Net::backProp`: "For all layers from outputs to first hidden layer, update
connection weights", `layerNum` going down from `m_layers.size() - 1` to 1. -/
def backProp.updateWeights (net : Net α) : Except (Fault × Net α) (Net α) :=
  (List.iota (net.m_layers.length - 1)).foldlM backProp.updateLayer net

/-- `Net::backProp(const vector<double> &targetVals)` -/
def backProp (m : Libm α) (net : Net α) (targetVals : List α) :
    Except (Fault × Net α) (Net α) :=
  match net.m_layers.getLast? with
  | none => .error (.outOfRange, net)
  | some outputLayer =>
    backProp.rmsError m net outputLayer targetVals >>= fun net =>
    backProp.outputGradients net outputLayer targetVals >>= fun net =>
    backProp.hiddenGradients net >>= fun net =>
    backProp.updateWeights net

/-- One round of the loop "Forward propagate" of `Net::feedForward`:
`m_layers[layerNum][n].feedForward(prevLayer)` for every `n < m_layers[layerNum].size() - 1`.
The bound is unsigned: on an empty layer it wraps and the first round reads
`m_layers[layerNum][0]`. -/
def feedForward.layer (m : Libm α) (net : Net α) (layerNum : Nat) :
    Except (Fault × Net α) (Net α) :=
  match net.m_layers[layerNum - 1]?, net.m_layers[layerNum]? with
  | some prevLayer, some layer =>
    if layer.length = 0 then .error (.outOfRange, net)
    else
      net.withLayer layerNum
        (updateEach (layer.length - 1)
          (fun _ neuron => neuron.feedForward m prevLayer) layer)
  | _, _ => .error (.outOfRange, net)

/-- The loop "Forward propagate" of `Net::feedForward`, `layerNum` going up from 1 to
`m_layers.size() - 1`. -/
def feedForward.propagate (m : Libm α) (net : Net α) : Except (Fault × Net α) (Net α) :=
  (List.range' 1 (net.m_layers.length - 1)).foldlM (feedForward.layer m) net

/-- `Net::feedForward(const vector<double> &inputVals)`. The `assert` compares
`inputVals.size()` with the unsigned `m_layers[0].size() - 1`; on an empty layer 0 the
latter wraps to a value no vector length reaches, so the test is
`inputVals.size() + 1 == m_layers[0].size()`. -/
def feedForward (m : Libm α) (net : Net α) (inputVals : List α) :
    Except (Fault × Net α) (Net α) :=
  match net.m_layers[0]? with
  | none => .error (.outOfRange, net)
  | some layer0 =>
    if inputVals.length + 1 ≠ layer0.length then .error (.assertion, net)
    else
      net.withLayer 0
        (updateEach inputVals.length
          (fun i neuron => (inputVals[i]?).map neuron.setOutputVal) layer0) >>= fun net =>
      feedForward.propagate m net

/-- `m_layers.back().back().setOutputVal(1.0);` on the layer just filled. -/
def new.forceBias (layer : Layer α) : Layer α :=
  match layer.getLast? with
  | none => layer
  | some neuron => layer.set (layer.length - 1) (neuron.setOutputVal 1)

/-- One round of the outer loop of `Net::Net`: a new layer, filled with
`topology[layerNum] + 1` neurons, its last neuron then forced to output 1. The inner loop
runs while `neuronNum <= topology[layerNum]`; with the entry at `UINT_MAX` the `unsigned`
counter never gets past it. -/
def new.addLayer (host : Host α) (topology : List Nat) (net : Net α) (layerNum : Nat) :
    Except Fault (Net α) :=
  let numOutputs :=
    if layerNum = topology.length - 1 then 0 else topology.getD (layerNum + 1) 0
  if UINT_MAX ≤ topology.getD layerNum 0 then .error .nonTermination
  else
    let layer := (List.range (topology.getD layerNum 0 + 1)).map fun neuronNum =>
      Neuron.new host layerNum neuronNum numOutputs neuronNum
    .ok { net with m_layers := net.m_layers ++ [new.forceBias layer] }

/-- `Net::Net(const vector<unsigned> &topology)`. The three scalar members are not
initialised. -/
def new (host : Host α) (topology : List Nat) : Except Fault (Net α) :=
  let numLayers := topology.length
  (List.range numLayers).foldlM (new.addLayer host topology)
    { m_layers := []
      m_error := host.error
      m_recentAverageError := host.recentAverageError
      m_recentAverageSmoothingFactor := host.recentAverageSmoothingFactor }

end Net

/-! ## Reading a net

What the statements below use to speak about a net: the shape a topology prescribes, the
fields of the neuron at a place, sums in the order the loops add, and sequences of calls. -/

/-- Index and number of outgoing connections of a neuron. -/
def Neuron.shape (self : Neuron α) : Nat × Nat :=
  (self.m_myIndex, self.m_outputWeights.length)

/-- Shapes of all neurons, layer by layer. -/
def Net.shape (net : Net α) : List (List (Nat × Nat)) :=
  net.m_layers.map (List.map Neuron.shape)

/-- The net has one layer per entry of `topology`; layer `i` has `topology[i] + 1` neurons;
the neuron at place `n` has index `n` and as many outgoing connections as layer `i + 1` has
neurons besides its bias neuron (none for the last layer). -/
def WellShaped (topology : List Nat) (net : Net α) : Prop :=
  net.shape.length = topology.length ∧
  ∀ i, i < topology.length →
    (net.shape.getD i []).length = topology.getD i 0 + 1 ∧
    ∀ n, n < topology.getD i 0 + 1 →
      (net.shape.getD i [])[n]? = some (n, topology.getD (i + 1) 0)

instance WellShaped.decidable (topology : List Nat) (net : Net α) :
    Decidable (WellShaped topology net) := by
  unfold WellShaped
  infer_instance

/-- The neuron `m_layers[layerNum][n]`, when there is one. -/
def Net.neuronAt (net : Net α) (layerNum n : Nat) : Option (Neuron α) :=
  (net.m_layers[layerNum]?).bind (fun layer => layer[n]?)

/-- The connection `m_layers[layerNum][n].m_outputWeights[c]`, when there is one. -/
def Net.connectionAt (net : Net α) (layerNum n c : Nat) : Option (Connection α) :=
  (net.neuronAt layerNum n).bind (fun neuron => neuron.m_outputWeights[c]?)

/-- Output value of `m_layers[layerNum][n]` (zero where the net has no such neuron). -/
def Net.outputVal (net : Net α) (layerNum n : Nat) : α :=
  match net.neuronAt layerNum n with
  | some neuron => neuron.m_outputVal
  | none => 0

/-- Gradient of `m_layers[layerNum][n]` (zero where the net has no such neuron). -/
def Net.gradient (net : Net α) (layerNum n : Nat) : α :=
  match net.neuronAt layerNum n with
  | some neuron => neuron.m_gradient
  | none => 0

/-- Weight of the connection from `m_layers[layerNum][n]` to neuron `c` of the next layer
(zero where the net has no such connection). -/
def Net.weight (net : Net α) (layerNum n c : Nat) : α :=
  match net.connectionAt layerNum n c with
  | some k => k.weight
  | none => 0

/-- Last change of the weight of the connection from `m_layers[layerNum][n]` to neuron `c`
of the next layer (zero where the net has no such connection). -/
def Net.deltaWeight (net : Net α) (layerNum n c : Nat) : α :=
  match net.connectionAt layerNum n c with
  | some k => k.deltaWeight
  | none => 0

/-- The sum `f 0 + f 1 + ... + f (n - 1)`, added up from zero in this order, as the loops
of the program do. -/
def sumUpTo (n : Nat) (f : Nat → α) : α :=
  (List.range n).foldl (fun s k => s + f k) 0

/-- One call on a net from outside. -/
inductive Call (α : Type) where
  | feedForward (inputVals : List α)
  | backProp (targetVals : List α)

/-- Effect of one call. -/
def Net.call (m : Libm α) (net : Net α) : Call α → Except (Fault × Net α) (Net α)
  | .feedForward inputVals => net.feedForward m inputVals
  | .backProp targetVals => net.backProp m targetVals

/-- A sequence of calls, each on the state the one before left; it ends at the first call
that does not complete. -/
def Net.run (m : Libm α) (net : Net α) (calls : List (Call α)) :
    Except (Fault × Net α) (Net α) :=
  calls.foldlM (Net.call m) net

/-- The net of the concrete scenario of the specification: topology `[1, 1]`, the input
neuron's connection at weight 0.5, the bias neuron's at weight 0, both `deltaWeight`s 0.
The fields the scenario leaves open are put to 0. -/
def scenarioNet : Net α :=
  { m_layers :=
      [[{ m_outputVal := 0, m_outputWeights := [{ weight := 0.5, deltaWeight := 0 }],
          m_myIndex := 0, m_gradient := 0 },
        { m_outputVal := 1, m_outputWeights := [{ weight := 0, deltaWeight := 0 }],
          m_myIndex := 1, m_gradient := 0 }],
       [{ m_outputVal := 0, m_outputWeights := [], m_myIndex := 0, m_gradient := 0 },
        { m_outputVal := 1, m_outputWeights := [], m_myIndex := 1, m_gradient := 0 }]]
    m_error := 0
    m_recentAverageError := 0
    m_recentAverageSmoothingFactor := 0 }

/-- Stand-ins for `tanh` and `sqrt` over the rationals, to run the definitions on concrete
numbers. -/
def sampleLibm : Libm ℚ :=
  { tanh := fun x => x / (1 + |x|)
    sqrt := fun x => x }

/-- A random source and memory contents to run the constructor on concrete numbers. -/
def sampleHost : Host ℚ :=
  { RAND_MAX := 32767
    rand := fun layerNum neuronNum c => 1000 * (layerNum + neuronNum + c + 1)
    outputVal := fun _ _ => 2
    gradient := fun _ _ => 3
    error := 5
    recentAverageError := 7
    recentAverageSmoothingFactor := 100 }

/-- A host whose random source returns 0 at every call, so that every initial weight is 0;
`m_error` is found at 5 and the smoothing factor at 100. -/
def quietHost : Host ℚ :=
  { RAND_MAX := 32767
    rand := fun _ _ _ => 0
    outputVal := fun _ _ => 0
    gradient := fun _ _ => 0
    error := 5
    recentAverageError := 0
    recentAverageSmoothingFactor := 100 }

/-- What the forward pass assigns to neuron `j` of layer `L`, from layer `L - 1` of `net`. -/
def forwardVal (m : Libm α) (topology : List Nat) (net : Net α) (L j : Nat) : α :=
  m.tanh (sumUpTo (topology.getD (L - 1) 0 + 1)
    (fun k => net.outputVal (L - 1) k * net.weight (L - 1) k j))

/-- The layer the constructor makes at place `layerNum`. -/
def Net.new.layerAt (host : Host α) (topology : List Nat) (layerNum : Nat) : Layer α :=
  Net.new.forceBias ((List.range (topology.getD layerNum 0 + 1)).map fun neuronNum =>
    Neuron.new host layerNum neuronNum
      (if layerNum = topology.length - 1 then 0 else topology.getD (layerNum + 1) 0)
      neuronNum)

/-- Output values of the last neuron of each layer. -/
def Net.biasOutputs (net : Net α) : List (Option α) :=
  net.m_layers.map (fun layer => (layer.getLast?).map Neuron.getOutputVal)

/-- Output value and shape of a neuron: what `Net::backProp` never writes. -/
def Neuron.fixed (self : Neuron α) : α × Nat × Nat :=
  (self.m_outputVal, self.m_myIndex, self.m_outputWeights.length)

/-- The neuron with its gradient replaced. -/
def Neuron.setGradient (self : Neuron α) (g : α) : Neuron α :=
  { self with m_gradient := g }

/-- The neuron with its outgoing connections replaced. -/
def Neuron.setOutputWeights (self : Neuron α) (ws : List (Connection α)) : Neuron α :=
  { self with m_outputWeights := ws }

/-- A connection after one round of `Neuron::updateInputWeights`, `out` being the output of
the neuron it leaves and `grad` the gradient of the neuron it enters. -/
def Connection.updated (c : Connection α) (out grad : α) : Connection α :=
  { weight := c.weight + (Neuron.eta * out * grad + Neuron.alpha * c.deltaWeight)
    deltaWeight := Neuron.eta * out * grad + Neuron.alpha * c.deltaWeight }

/-- What the backward pass assigns as gradient to neuron `n` of the hidden layer `L`:
weights and output taken from `netW`, gradients of layer `L + 1` from `netG`. -/
def hiddenVal (topology : List Nat) (netW netG : Net α) (L n : Nat) : α :=
  sumUpTo (topology.getD (L + 1) 0) (fun k => netW.weight L n k * netG.gradient (L + 1) k)
    * Neuron.transferFunctionDerivative (netW.outputVal L n)

/-- A neuron after the first `c` rounds of the loop that calls
`layer[n].updateInputWeights(prevLayer)`: its connections to the neurons `j < c` of the next
layer are updated, `g j` being the gradient of neuron `j` there. -/
def updatedUpTo (c : Nat) (g : Nat → α) (p : Neuron α) : Neuron α :=
  p.setOutputWeights (p.m_outputWeights.mapIdx
    (fun j k => if j < c then k.updated p.m_outputVal (g j) else k))

/-- A call whose argument has the length the topology asks for: `topology[0]` input values,
`topology[last]` target values. -/
def Call.RightSized (topology : List Nat) : Call α → Prop
  | .feedForward inputVals => inputVals.length = topology.getD 0 0
  | .backProp targetVals => targetVals.length = topology.getD (topology.length - 1) 0

instance Call.RightSized.decidable (topology : List Nat) (c : Call α) :
    Decidable (c.RightSized topology) := by
  cases c <;> unfold Call.RightSized <;> infer_instance

/-! ## The special values of `double`

The values of a `double` with the results IEEE 754 gives at an infinity and at NaN, to run
the definitions where a quotient is `0.0 / 0` or a product is `inf * 0`. -/

/-- The values of a `double`, rounding and the sign of zero left out: a finite value, an
infinity (`inf true` is the negative one), or NaN. -/
inductive Double where
  | fin (q : ℚ)
  | inf (negative : Bool)
  | nan
  deriving DecidableEq

/-- `-x`. -/
def Double.neg : Double → Double
  | .fin q => .fin (-q)
  | .inf s => .inf (!s)
  | .nan => .nan

/-- `x + y`: infinities of opposite sign add up to NaN. -/
def Double.add : Double → Double → Double
  | .fin a, .fin b => .fin (a + b)
  | .fin _, .inf s => .inf s
  | .inf s, .fin _ => .inf s
  | .inf s, .inf t => if s = t then .inf s else .nan
  | .nan, _ => .nan
  | _, .nan => .nan

/-- `x - y`. -/
def Double.sub (x y : Double) : Double := x.add y.neg

/-- `x * y`: zero times an infinity is NaN. -/
def Double.mul : Double → Double → Double
  | .fin a, .fin b => .fin (a * b)
  | .fin a, .inf s => if a = 0 then .nan else .inf (s != decide (a < 0))
  | .inf s, .fin b => if b = 0 then .nan else .inf (s != decide (b < 0))
  | .inf s, .inf t => .inf (s != t)
  | .nan, _ => .nan
  | _, .nan => .nan

/-- `x / y`: zero by zero and infinity by infinity are NaN, another finite value by zero is
an infinity. -/
def Double.div : Double → Double → Double
  | .fin a, .fin b =>
    if b = 0 then (if a = 0 then .nan else .inf (decide (a < 0))) else .fin (a / b)
  | .fin _, .inf _ => .fin 0
  | .inf s, .fin b => .inf (s != decide (b < 0))
  | .inf _, .inf _ => .nan
  | .nan, _ => .nan
  | _, .nan => .nan

instance : Add Double := ⟨Double.add⟩

instance : Sub Double := ⟨Double.sub⟩

instance : Mul Double := ⟨Double.mul⟩

instance : Div Double := ⟨Double.div⟩

instance : Zero Double := ⟨.fin 0⟩

instance : One Double := ⟨.fin 1⟩

instance : NatCast Double := ⟨fun n => .fin n⟩

instance : OfScientific Double := ⟨fun mantissa exponentSign decimalExponent =>
  .fin (OfScientific.ofScientific mantissa exponentSign decimalExponent)⟩

/-- `tanh` and `sqrt` on `Double`: at an infinity and at NaN what `<cmath>` returns, at a
finite value the stand-ins of `sampleLibm` (`sqrt` of a negative value is NaN). -/
def doubleLibm : Libm Double :=
  { tanh := fun x =>
      match x with
      | .fin q => .fin (sampleLibm.tanh q)
      | .inf s => .fin (if s then -1 else 1)
      | .nan => .nan
    sqrt := fun x =>
      match x with
      | .fin q => if q < 0 then .nan else .fin (sampleLibm.sqrt q)
      | .inf s => if s then .nan else .inf false
      | .nan => .nan }

/-- The host `sampleHost` with its numbers as `Double`s. -/
def doubleHost : Host Double :=
  { RAND_MAX := sampleHost.RAND_MAX
    rand := sampleHost.rand
    outputVal := fun layerNum n => .fin (sampleHost.outputVal layerNum n)
    gradient := fun layerNum n => .fin (sampleHost.gradient layerNum n)
    error := .fin sampleHost.error
    recentAverageError := .fin sampleHost.recentAverageError
    recentAverageSmoothingFactor := .fin sampleHost.recentAverageSmoothingFactor }

/-- A net of topology `[1, 1, 1]` in which the weight from the hidden neuron to the output
neuron is `+inf`; every `deltaWeight` is 0, every gradient 0, the output neuron has
output 1. -/
def infWeightNet : Net Double :=
  { m_layers :=
      [[{ m_outputVal := 1, m_outputWeights := [{ weight := 0.5, deltaWeight := 0 }],
          m_myIndex := 0, m_gradient := 0 },
        { m_outputVal := 1, m_outputWeights := [{ weight := 0, deltaWeight := 0 }],
          m_myIndex := 1, m_gradient := 0 }],
       [{ m_outputVal := 0.5, m_outputWeights := [{ weight := .inf false, deltaWeight := 0 }],
          m_myIndex := 0, m_gradient := 0 },
        { m_outputVal := 1, m_outputWeights := [{ weight := 0, deltaWeight := 0 }],
          m_myIndex := 1, m_gradient := 0 }],
       [{ m_outputVal := 1, m_outputWeights := [], m_myIndex := 0, m_gradient := 0 },
        { m_outputVal := 1, m_outputWeights := [], m_myIndex := 1, m_gradient := 0 }]]
    m_error := 0
    m_recentAverageError := 0
    m_recentAverageSmoothingFactor := 0 }

end NeuralNet

namespace NeuralNet

set_option linter.unusedSectionVars false

variable {α : Type} [Add α] [Sub α] [Mul α] [Div α] [Zero α] [One α] [NatCast α]
  [OfScientific α]

/-! ## Loops -/

/-- Where addition is associative and commutative, `sumUpTo n f` is the sum of `f k` over
`k < n`. -/
theorem sumUpTo_eq_sum {β : Type} [AddCommMonoid β] (n : Nat) (f : Nat → β) :
    sumUpTo n f = ∑ k ∈ Finset.range n, f k := by
  unfold sumUpTo
  induction n with
  | zero => simp
  | succ n ih =>
    rw [List.range_succ, List.foldl_append, ih, Finset.sum_range_succ]
    rfl


theorem ok_bind {ε σ τ : Type} (a : σ) (f : σ → Except ε τ) : (Except.ok a >>= f) = f a := rfl

theorem foldlM_ok_inv {σ ι ε : Type} (I : σ → Prop) (step : σ → ι → Except ε σ)
    (hstep : ∀ s i s', I s → step s i = .ok s' → I s') :
    ∀ (l : List ι) (s s' : σ), I s → l.foldlM step s = .ok s' → I s' := by
  intro l
  induction l with
  | nil =>
    intro s s' hs h
    simp only [List.foldlM_nil, pure, Except.pure] at h
    cases h
    exact hs
  | cons i l ih =>
    intro s s' hs h
    rw [List.foldlM_cons] at h
    cases hi : step s i with
    | error e => rw [hi] at h; cases h
    | ok s1 =>
      rw [hi] at h
      exact ih s1 s' (hstep s i s1 hs hi) h

theorem updateEach_ok_spec {β : Type} (op : Nat → β → Option β) (v : List β) :
    ∀ (count : Nat) (v' : List β), updateEach count op v = .ok v' →
      count ≤ v.length ∧ v'.length = v.length ∧
      ∀ n, v'[n]? = if n < count then (v[n]?).bind (op n) else v[n]? := by
  intro count
  induction count with
  | zero =>
    intro v' h
    simp only [updateEach, List.range_zero, List.foldlM_nil, pure, Except.pure] at h
    cases h
    simp
  | succ k ih =>
    intro v' h
    unfold updateEach at h
    rw [List.range_succ, List.foldlM_append] at h
    cases hk : updateEach k op v with
    | error e =>
      unfold updateEach at hk
      rw [hk] at h
      cases h
    | ok v1 =>
      obtain ⟨hle, hlen, hget⟩ := ih v1 hk
      unfold updateEach at hk
      rw [hk] at h
      simp only [List.foldlM_cons, List.foldlM_nil] at h
      have h1 : v1[k]? = v[k]? := by rw [hget k]; simp
      simp only [bind_pure, ok_bind] at h
      split at h
      · cases h
      · rename_i x hx
        split at h
        · cases h
        · rename_i y hy
          cases h
          have hklt : k < v1.length := by
            by_contra hc
            have := List.getElem?_eq_none (Nat.le_of_not_lt hc)
            rw [this] at hx; cases hx
          refine ⟨by omega, by simp [hlen], ?_⟩
          intro n
          rw [List.getElem?_set]
          by_cases hn : k = n
          · subst hn
            simp [hklt, ← h1, hx, hy]
          · simp only [hn, if_false]
            rw [hget n]
            by_cases hn2 : n < k
            · simp [hn2, Nat.lt_succ_of_lt hn2]
            · have : ¬ n < k + 1 := by omega
              simp [hn2, this]



theorem updateEach_ok_of {β : Type} (op : Nat → β → Option β) (v : List β) :
    ∀ (count : Nat), count ≤ v.length →
      (∀ n x, n < count → v[n]? = some x → ∃ y, op n x = some y) →
      ∃ v', updateEach count op v = .ok v' := by
  intro count
  induction count with
  | zero =>
    intro _ _
    exact ⟨v, by simp [updateEach, pure, Except.pure]⟩
  | succ k ih =>
    intro hle hop
    obtain ⟨v1, hv1⟩ := ih (by omega) (fun n x hn hx => hop n x (by omega) hx)
    obtain ⟨_, hlen, hget⟩ := updateEach_ok_spec op v k v1 hv1
    have hk : k < v.length := by omega
    have h1 : v1[k]? = some v[k] := by
      rw [hget k]; simp [List.getElem?_eq_getElem hk]
    obtain ⟨y, hy⟩ := hop k v[k] (by omega) (List.getElem?_eq_getElem hk)
    refine ⟨v1.set k y, ?_⟩
    unfold updateEach at hv1 ⊢
    rw [List.range_succ, List.foldlM_append, hv1]
    simp only [ok_bind, List.foldlM_cons, List.foldlM_nil, h1, hy, bind_pure]

theorem foldlM_range_some {β : Type} (step : β → Nat → Option β) (g : β → Nat → β) :
    ∀ (k : Nat), (∀ n s, n < k → step s n = some (g s n)) → ∀ init,
      (List.range k).foldlM step init = some ((List.range k).foldl g init) := by
  intro k
  induction k with
  | zero => intro _ init; simp
  | succ k ih =>
    intro h init
    rw [List.range_succ, List.foldlM_append, ih (fun n s hn => h n s (by omega)) init]
    simp [h k _ (Nat.lt_succ_self k)]

theorem map_getD_range {γ : Type} (l : List γ) (d : γ) :
    (List.range l.length).map (fun i => l.getD i d) = l := by
  apply List.ext_getElem?
  intro i
  by_cases hi : i < l.length
  · simp [hi, List.getElem?_eq_getElem hi, List.getD_eq_getElem?_getD]
  · simp [hi, List.getElem?_eq_none (Nat.le_of_not_lt hi)]
    omega

theorem updateEach_ok_lt {β : Type} {op : Nat → β → Option β} {v v' : List β} {count : Nat}
    (h : updateEach count op v = .ok v') {n : Nat} (hn : n < count) :
    ∃ x y, v[n]? = some x ∧ op n x = some y ∧ v'[n]? = some y := by
  obtain ⟨hle, hlen, hget⟩ := updateEach_ok_spec op v count v' h
  have hnv : n < v.length := by omega
  have h1 := hget n
  rw [if_pos hn, List.getElem?_eq_getElem hnv, Option.some_bind] at h1
  have hnv' : n < v'.length := by omega
  rw [List.getElem?_eq_getElem hnv'] at h1
  exact ⟨v[n], v'[n], List.getElem?_eq_getElem hnv, h1.symm, List.getElem?_eq_getElem hnv'⟩

theorem updateEach_ok_ge {β : Type} {op : Nat → β → Option β} {v v' : List β} {count : Nat}
    (h : updateEach count op v = .ok v') {n : Nat} (hn : count ≤ n) : v'[n]? = v[n]? := by
  obtain ⟨_, _, hget⟩ := updateEach_ok_spec op v count v' h
  rw [hget n, if_neg (by omega)]

theorem updateEach_ok_length {β : Type} {op : Nat → β → Option β} {v v' : List β}
    {count : Nat} (h : updateEach count op v = .ok v') : v'.length = v.length :=
  (updateEach_ok_spec op v count v' h).2.1

theorem updateEach_map_eq {β γ : Type} (f : β → γ) {op : Nat → β → Option β}
    (hop : ∀ n x y, op n x = some y → f y = f x) {v v' : List β} {count : Nat}
    (h : updateEach count op v = .ok v') : v'.map f = v.map f := by
  apply List.ext_getElem?
  intro n
  rw [List.getElem?_map, List.getElem?_map]
  by_cases hn : n < count
  · obtain ⟨x, y, hx, hy, hy'⟩ := updateEach_ok_lt h hn
    rw [hx, hy', Option.map_some', Option.map_some', hop n x y hy]
  · rw [updateEach_ok_ge h (Nat.le_of_not_lt hn)]

/-! ## Shapes -/

theorem shape_length (net : Net α) : net.shape.length = net.m_layers.length := by
  simp [Net.shape]

theorem shape_getD (net : Net α) (i : Nat) :
    net.shape.getD i [] = (net.m_layers.getD i []).map Neuron.shape := by
  simp only [Net.shape, List.getD_eq_getElem?_getD, List.getElem?_map]
  cases net.m_layers[i]? <;> simp

theorem WellShaped.length_eq {topology : List Nat} {net : Net α}
    (h : WellShaped topology net) : net.m_layers.length = topology.length := by
  rw [← shape_length]; exact h.1

theorem WellShaped.layer {topology : List Nat} {net : Net α} (h : WellShaped topology net)
    {i : Nat} (hi : i < topology.length) :
    ∃ layer, net.m_layers[i]? = some layer ∧ layer.length = topology.getD i 0 + 1 ∧
      ∀ n, n < topology.getD i 0 + 1 →
        ∃ x, layer[n]? = some x ∧ x.m_myIndex = n ∧
          x.m_outputWeights.length = topology.getD (i + 1) 0 := by
  have hi' : i < net.m_layers.length := by rw [h.length_eq]; exact hi
  obtain ⟨h1, h2⟩ := h.2 i hi
  have hsh : net.shape.getD i [] = (net.m_layers[i]).map Neuron.shape := by
    rw [shape_getD]; simp [List.getD_eq_getElem?_getD, List.getElem?_eq_getElem hi']
  rw [hsh] at h1 h2
  refine ⟨net.m_layers[i], List.getElem?_eq_getElem hi', by simpa using h1, ?_⟩
  intro n hn
  have h3 := h2 n hn
  rw [List.getElem?_map] at h3
  cases hx : (net.m_layers[i])[n]? with
  | none => rw [hx] at h3; simp at h3
  | some x =>
    rw [hx] at h3
    simp only [Option.map_some', Option.some.injEq, Neuron.shape, Prod.mk.injEq] at h3
    exact ⟨x, rfl, h3.1, h3.2⟩

/-- `WellShaped` read on the layers themselves. -/
theorem wellShaped_iff (topology : List Nat) (net : Net α) :
    WellShaped topology net ↔
      net.m_layers.length = topology.length ∧
      ∀ i, i < topology.length →
        ∃ layer, net.m_layers[i]? = some layer ∧ layer.length = topology.getD i 0 + 1 ∧
          ∀ n, n < layer.length →
            ∃ neuron, layer[n]? = some neuron ∧ neuron.m_myIndex = n ∧
              neuron.m_outputWeights.length = topology.getD (i + 1) 0 := by
  constructor
  · intro h
    refine ⟨h.length_eq, ?_⟩
    intro i hi
    obtain ⟨layer, hl, hlen, hn⟩ := h.layer hi
    exact ⟨layer, hl, hlen, fun n hnlt => hn n (by omega)⟩
  · rintro ⟨hlen, hl⟩
    refine ⟨by rw [shape_length]; exact hlen, ?_⟩
    intro i hi
    obtain ⟨layer, hlayer, hllen, hn⟩ := hl i hi
    have hsh : net.shape.getD i [] = layer.map Neuron.shape := by
      rw [shape_getD, List.getD_eq_getElem?_getD, hlayer]
      rfl
    rw [hsh]
    refine ⟨by rw [List.length_map]; exact hllen, ?_⟩
    intro n hnlt
    obtain ⟨x, hx, hidx, hw⟩ := hn n (by omega)
    rw [List.getElem?_map, hx]
    simp [Neuron.shape, hidx, hw]

theorem wellShaped_of_shape_eq {topology : List Nat} {net net' : Net α}
    (h : net'.shape = net.shape) (hs : WellShaped topology net) : WellShaped topology net' := by
  unfold WellShaped
  rw [h]
  exact hs

theorem shape_eq_of_set {net net' : Net α} {i : Nat} {layer layer' : Layer α}
    (hi : net.m_layers[i]? = some layer) (hl : layer'.map Neuron.shape = layer.map Neuron.shape)
    (h : net'.m_layers = net.m_layers.set i layer') : net'.shape = net.shape := by
  unfold Net.shape
  rw [h, List.map_set, hl]
  apply List.ext_getElem?
  intro j
  rw [List.getElem?_set]
  split
  · rename_i hij
    subst hij
    simp only [List.length_map, List.getElem?_map, hi, Option.map_some']
    have : i < net.m_layers.length := by
      by_contra hc
      rw [List.getElem?_eq_none (Nat.le_of_not_lt hc)] at hi
      cases hi
    simp [this]
  · rfl

/-! ## Reading a net: how the accessors follow the layers -/

theorem neuronAt_of_layer {net : Net α} {L : Nat} {layer : Layer α}
    (h : net.m_layers[L]? = some layer) (n : Nat) : net.neuronAt L n = layer[n]? := by
  simp [Net.neuronAt, h]

theorem outputVal_of_neuronAt {net : Net α} {L n : Nat} {x : Neuron α}
    (h : net.neuronAt L n = some x) : net.outputVal L n = x.m_outputVal := by
  simp [Net.outputVal, h]

theorem gradient_of_neuronAt {net : Net α} {L n : Nat} {x : Neuron α}
    (h : net.neuronAt L n = some x) : net.gradient L n = x.m_gradient := by
  simp [Net.gradient, h]

theorem weight_of_connection {net : Net α} {L n c : Nat} {x : Neuron α} {k : Connection α}
    (h : net.neuronAt L n = some x) (hk : x.m_outputWeights[c]? = some k) :
    net.weight L n c = k.weight := by
  simp [Net.weight, Net.connectionAt, h, hk]

theorem deltaWeight_of_connection {net : Net α} {L n c : Nat} {x : Neuron α}
    {k : Connection α} (h : net.neuronAt L n = some x) (hk : x.m_outputWeights[c]? = some k) :
    net.deltaWeight L n c = k.deltaWeight := by
  simp [Net.deltaWeight, Net.connectionAt, h, hk]

theorem WellShaped.neuronAt {topology : List Nat} {net : Net α} (h : WellShaped topology net)
    {L n : Nat} (hL : L < topology.length) (hn : n < topology.getD L 0 + 1) :
    ∃ x, net.neuronAt L n = some x ∧ x.m_myIndex = n ∧
      x.m_outputWeights.length = topology.getD (L + 1) 0 := by
  obtain ⟨layer, hl, _, hx⟩ := h.layer hL
  obtain ⟨x, hx1, hx2, hx3⟩ := hx n hn
  exact ⟨x, by rw [neuronAt_of_layer hl, hx1], hx2, hx3⟩

/-! ## Forward pass -/

theorem Neuron.feedForward_eq (m : Libm α) (self : Neuron α) (prev : Layer α)
    (o w : Nat → α)
    (h : ∀ k, k < prev.length → ∃ p c, prev[k]? = some p ∧
      p.m_outputWeights[self.m_myIndex]? = some c ∧ p.m_outputVal = o k ∧ c.weight = w k) :
    self.feedForward m prev =
      some { self with m_outputVal := m.tanh (sumUpTo prev.length (fun k => o k * w k)) } := by
  have key : prev.foldlM (fun sum (neuron : Neuron α) =>
      match neuron.m_outputWeights[self.m_myIndex]? with
      | none => none
      | some c => some (sum + neuron.getOutputVal * c.weight)) (0 : α)
      = some (sumUpTo prev.length (fun k => o k * w k)) := by
    conv_lhs => rw [← map_getD_range prev self]
    rw [List.foldlM_map]
    unfold sumUpTo
    apply foldlM_range_some
    intro n s hn
    obtain ⟨p, c, hp, hc, ho, hw⟩ := h n hn
    simp only [List.getD_eq_getElem?_getD, hp, Option.getD_some, hc, Neuron.getOutputVal, ho, hw]
  unfold Neuron.feedForward
  rw [key]
  rfl

theorem Neuron.feedForward_shape (m : Libm α) (self y : Neuron α) (prev : Layer α)
    (h : self.feedForward m prev = some y) :
    y.m_outputWeights = self.m_outputWeights ∧ y.m_myIndex = self.m_myIndex ∧
      y.m_gradient = self.m_gradient := by
  unfold Neuron.feedForward at h
  split at h
  · cases h
  · cases h
    exact ⟨rfl, rfl, rfl⟩

theorem getElem?_set_self_of_some {β : Type} {l : List β} {i : Nat} {a b : β}
    (h : l[i]? = some a) : (l.set i b)[i]? = some b := by
  have : i < l.length := by
    by_contra hc
    rw [List.getElem?_eq_none (Nat.le_of_not_lt hc)] at h
    cases h
  rw [List.getElem?_set]
  simp [this]

theorem lt_length_of_getElem? {β : Type} {l : List β} {i : Nat} {a : β}
    (h : l[i]? = some a) : i < l.length := by
  by_contra hc
  rw [List.getElem?_eq_none (Nat.le_of_not_lt hc)] at h
  cases h

theorem WellShaped.feedForward_neuron (m : Libm α) {topology : List Nat} {net : Net α}
    (hs : WellShaped topology net) {L : Nat} (h1 : 1 ≤ L) (hL : L < topology.length)
    {prev layer : Layer α} (hprev : net.m_layers[L - 1]? = some prev)
    (hlayer : net.m_layers[L]? = some layer) {n : Nat} (hn : n < topology.getD L 0)
    {x : Neuron α} (hx : layer[n]? = some x) :
    x.feedForward m prev = some (x.setOutputVal (forwardVal m topology net L n)) := by
  obtain ⟨prev', hprev', hplen, hp⟩ := hs.layer (show L - 1 < topology.length by omega)
  rw [hprev] at hprev'
  cases hprev'
  obtain ⟨layer', hlayer', _, hl⟩ := hs.layer hL
  rw [hlayer] at hlayer'
  cases hlayer'
  obtain ⟨x', hx', hidx, _⟩ := hl n (by omega)
  rw [hx] at hx'
  cases hx'
  have := Neuron.feedForward_eq m x prev (fun k => net.outputVal (L - 1) k)
    (fun k => net.weight (L - 1) k n) (by
      intro k hk
      obtain ⟨p, hpk, _, hpw⟩ := hp k (by omega)
      have hLL : L - 1 + 1 = L := by omega
      rw [hLL] at hpw
      have hc : n < p.m_outputWeights.length := by omega
      have hpa : net.neuronAt (L - 1) k = some p := by rw [neuronAt_of_layer hprev, hpk]
      refine ⟨p, p.m_outputWeights[n], hpk, ?_, ?_, ?_⟩
      · rw [hidx]; exact List.getElem?_eq_getElem hc
      · exact (outputVal_of_neuronAt hpa).symm
      · exact (weight_of_connection hpa (List.getElem?_eq_getElem hc)).symm)
  rw [this, hplen]
  rfl

theorem feedForward.layer_ok (m : Libm α) {topology : List Nat} {net : Net α}
    (hs : WellShaped topology net) {L : Nat} (h1 : 1 ≤ L) (hL : L < topology.length) :
    ∃ net1, Net.feedForward.layer m net L = .ok net1 ∧
      net1.m_error = net.m_error ∧
      net1.m_recentAverageError = net.m_recentAverageError ∧
      net1.m_recentAverageSmoothingFactor = net.m_recentAverageSmoothingFactor ∧
      net1.shape = net.shape ∧
      (∀ L', L' ≠ L → net1.m_layers[L']? = net.m_layers[L']?) ∧
      (∀ L' n x, net.neuronAt L' n = some x →
        net1.neuronAt L' n = some (x.setOutputVal (net1.outputVal L' n))) ∧
      (∀ j, j < topology.getD L 0 → net1.outputVal L j = forwardVal m topology net L j) ∧
      net1.outputVal L (topology.getD L 0) = net.outputVal L (topology.getD L 0) := by
  obtain ⟨prev, hprev, hplen, hp⟩ := hs.layer (show L - 1 < topology.length by omega)
  obtain ⟨layer, hlayer, hllen, hl⟩ := hs.layer hL
  have hne : ¬ layer.length = 0 := by omega
  obtain ⟨layer', hlayer'⟩ := updateEach_ok_of (fun _ neuron => neuron.feedForward m prev)
    layer (layer.length - 1) (by omega) (by
      intro n x hn hx
      exact ⟨_, hs.feedForward_neuron m h1 hL hprev hlayer (by omega) hx⟩)
  have hstep : Net.feedForward.layer m net L =
      .ok { net with m_layers := net.m_layers.set L layer' } := by
    unfold Net.feedForward.layer
    simp only [hprev, hlayer, hne, if_false, hlayer', Net.withLayer]
  have hL1 : ({ net with m_layers := net.m_layers.set L layer' } : Net α).m_layers[L]?
      = some layer' := getElem?_set_self_of_some hlayer
  have hother : ∀ L', L' ≠ L →
      ({ net with m_layers := net.m_layers.set L layer' } : Net α).m_layers[L']?
        = net.m_layers[L']? := by
    intro L' hne'
    exact List.getElem?_set_ne (Ne.symm hne')
  have hlt : ∀ n, n < topology.getD L 0 → ∀ x, layer[n]? = some x →
      layer'[n]? = some (x.setOutputVal (forwardVal m topology net L n)) := by
    intro n hn x hx
    obtain ⟨x', y, hx', hy, hy'⟩ := updateEach_ok_lt hlayer' (show n < layer.length - 1 by omega)
    rw [hx] at hx'
    cases hx'
    rw [hs.feedForward_neuron m h1 hL hprev hlayer hn hx] at hy
    rw [hy', ← hy]
  have hbias : layer'[topology.getD L 0]? = layer[topology.getD L 0]? :=
    updateEach_ok_ge hlayer' (by omega)
  refine ⟨_, hstep, rfl, rfl, rfl, ?_, hother, ?_, ?_, ?_⟩
  · refine shape_eq_of_set hlayer ?_ rfl
    apply updateEach_map_eq Neuron.shape _ hlayer'
    intro n x y hy
    obtain ⟨hw, hi, _⟩ := Neuron.feedForward_shape m x y prev hy
    simp [Neuron.shape, hw, hi]
  · intro L' n x hx
    by_cases hLL : L' = L
    · subst hLL
      rw [neuronAt_of_layer hlayer] at hx
      have hnl := lt_length_of_getElem? hx
      by_cases hn : n < topology.getD L' 0
      · have h3 : Net.neuronAt { net with m_layers := net.m_layers.set L' layer' } L' n
            = some (x.setOutputVal (forwardVal m topology net L' n)) := by
          rw [neuronAt_of_layer hL1, hlt n hn x hx]
        rw [outputVal_of_neuronAt h3, h3]
        rfl
      · have hn' : n = topology.getD L' 0 := by omega
        subst hn'
        have h3 : Net.neuronAt { net with m_layers := net.m_layers.set L' layer' } L'
            (topology.getD L' 0) = some x := by
          rw [neuronAt_of_layer hL1, hbias, hx]
        rw [outputVal_of_neuronAt h3, h3]
        rfl
    · have h3 : Net.neuronAt { net with m_layers := net.m_layers.set L layer' } L' n
          = some x := by
        unfold Net.neuronAt at hx ⊢
        rw [hother L' hLL]
        exact hx
      rw [outputVal_of_neuronAt h3, h3]
      rfl
  · intro j hj
    obtain ⟨x, hx, _, _⟩ := hl j (by omega)
    have h3 : Net.neuronAt { net with m_layers := net.m_layers.set L layer' } L j
        = some (x.setOutputVal (forwardVal m topology net L j)) := by
      rw [neuronAt_of_layer hL1, hlt j hj x hx]
    rw [outputVal_of_neuronAt h3]
    rfl
  · simp only [Net.outputVal]
    rw [neuronAt_of_layer hL1, neuronAt_of_layer hlayer, hbias]

theorem neuronAt_congr {net net' : Net α} {L : Nat}
    (h : net'.m_layers[L]? = net.m_layers[L]?) (n : Nat) :
    net'.neuronAt L n = net.neuronAt L n := by
  unfold Net.neuronAt; rw [h]

theorem outputVal_congr {net net' : Net α} {L : Nat}
    (h : net'.m_layers[L]? = net.m_layers[L]?) (n : Nat) :
    net'.outputVal L n = net.outputVal L n := by
  unfold Net.outputVal; rw [neuronAt_congr h]

theorem gradient_congr {net net' : Net α} {L : Nat}
    (h : net'.m_layers[L]? = net.m_layers[L]?) (n : Nat) :
    net'.gradient L n = net.gradient L n := by
  unfold Net.gradient; rw [neuronAt_congr h]

theorem weight_congr {net net' : Net α} {L : Nat}
    (h : net'.m_layers[L]? = net.m_layers[L]?) (n c : Nat) :
    net'.weight L n c = net.weight L n c := by
  unfold Net.weight Net.connectionAt; rw [neuronAt_congr h]

theorem deltaWeight_congr {net net' : Net α} {L : Nat}
    (h : net'.m_layers[L]? = net.m_layers[L]?) (n c : Nat) :
    net'.deltaWeight L n c = net.deltaWeight L n c := by
  unfold Net.deltaWeight Net.connectionAt; rw [neuronAt_congr h]

theorem forwardVal_congr (m : Libm α) (topology : List Nat) {net net' : Net α} {L : Nat}
    (h : net'.m_layers[L - 1]? = net.m_layers[L - 1]?) (j : Nat) :
    forwardVal m topology net' L j = forwardVal m topology net L j := by
  unfold forwardVal
  congr 2
  funext k
  rw [outputVal_congr h, weight_congr h]

theorem feedForward.propagate_from (m : Libm α) {topology : List Nat} :
    ∀ (cnt start : Nat) (net : Net α), WellShaped topology net → 1 ≤ start →
      start + cnt = topology.length →
      ∃ net', (List.range' start cnt).foldlM (Net.feedForward.layer m) net = .ok net' ∧
        net'.m_error = net.m_error ∧
        net'.m_recentAverageError = net.m_recentAverageError ∧
        net'.m_recentAverageSmoothingFactor = net.m_recentAverageSmoothingFactor ∧
        net'.shape = net.shape ∧
        (∀ L, L < start → net'.m_layers[L]? = net.m_layers[L]?) ∧
        (∀ L n x, net.neuronAt L n = some x →
          net'.neuronAt L n = some (x.setOutputVal (net'.outputVal L n))) ∧
        (∀ L j, start ≤ L → L < topology.length → j < topology.getD L 0 →
          net'.outputVal L j = forwardVal m topology net' L j) ∧
        (∀ L, start ≤ L → L < topology.length →
          net'.outputVal L (topology.getD L 0) = net.outputVal L (topology.getD L 0)) := by
  intro cnt
  induction cnt with
  | zero =>
    intro start net _ _ hsum
    refine ⟨net, rfl, rfl, rfl, rfl, rfl, fun _ _ => rfl, ?_, ?_, ?_⟩
    · intro L n x hx
      rw [hx, outputVal_of_neuronAt hx]
      rfl
    · intro L j h1 h2; omega
    · intro L h1 h2; omega
  | succ cnt ih =>
    intro start net hs h1 hsum
    obtain ⟨net1, hstep, he1, hr1, hf1, hsh1, hother1, hc1, hd1, hb1⟩ :=
      feedForward.layer_ok m hs h1 (show start < topology.length by omega)
    obtain ⟨net', hfold, he, hr, hf, hsh, hlow, hc, hd, hb⟩ :=
      ih (start + 1) net1 (wellShaped_of_shape_eq hsh1 hs) (by omega) (by omega)
    have hlow' : ∀ L, L < start → net'.m_layers[L]? = net.m_layers[L]? := by
      intro L hL
      rw [hlow L (by omega), hother1 L (by omega)]
    refine ⟨net', ?_, he.trans he1, hr.trans hr1, hf.trans hf1, hsh.trans hsh1, hlow',
      ?_, ?_, ?_⟩
    · rw [List.range'_succ, List.foldlM_cons, hstep]
      exact hfold
    · intro L n x hx
      rw [hc L n _ (hc1 L n x hx)]
      rfl
    · intro L j hL1 hL2 hj
      by_cases hLs : L = start
      · subst hLs
        rw [outputVal_congr (hlow L (by omega)), hd1 j hj]
        exact (forwardVal_congr m topology (hlow' (L - 1) (by omega)) j).symm
      · exact hd L j (by omega) hL2 hj
    · intro L hL1 hL2
      by_cases hLs : L = start
      · subst hLs
        rw [outputVal_congr (hlow L (by omega)), hb1]
      · rw [hb L (by omega) hL2, outputVal_congr (hother1 L hLs)]

theorem feedForward.latch_ok {topology : List Nat} {net : Net α}
    (hs : WellShaped topology net) {inputVals : List α}
    (hlen : topology[0]? = some inputVals.length) :
    ∃ layer0 net0, net.m_layers[0]? = some layer0 ∧ inputVals.length + 1 = layer0.length ∧
      net.withLayer 0 (updateEach inputVals.length
        (fun i neuron => (inputVals[i]?).map neuron.setOutputVal) layer0) = .ok net0 ∧
      net0.m_error = net.m_error ∧
      net0.m_recentAverageError = net.m_recentAverageError ∧
      net0.m_recentAverageSmoothingFactor = net.m_recentAverageSmoothingFactor ∧
      net0.shape = net.shape ∧
      (∀ L, L ≠ 0 → net0.m_layers[L]? = net.m_layers[L]?) ∧
      (∀ L n x, net.neuronAt L n = some x →
        net0.neuronAt L n = some (x.setOutputVal (net0.outputVal L n))) ∧
      (∀ i, i < inputVals.length → inputVals[i]? = some (net0.outputVal 0 i)) ∧
      net0.outputVal 0 (topology.getD 0 0) = net.outputVal 0 (topology.getD 0 0) := by
  have h0 : 0 < topology.length := lt_length_of_getElem? hlen
  have ht0 : topology.getD 0 0 = inputVals.length := by
    simp [List.getD_eq_getElem?_getD, hlen]
  obtain ⟨layer, hlayer, hllen, hl⟩ := hs.layer h0
  rw [ht0] at hllen hl
  obtain ⟨layer', hlayer'⟩ := updateEach_ok_of
    (fun i (neuron : Neuron α) => (inputVals[i]?).map neuron.setOutputVal)
    layer inputVals.length (by omega) (by
      intro n x hn _
      exact ⟨x.setOutputVal inputVals[n], by simp [List.getElem?_eq_getElem hn]⟩)
  have hL1 : ({ net with m_layers := net.m_layers.set 0 layer' } : Net α).m_layers[0]?
      = some layer' := getElem?_set_self_of_some hlayer
  have hother : ∀ L', L' ≠ 0 →
      ({ net with m_layers := net.m_layers.set 0 layer' } : Net α).m_layers[L']?
        = net.m_layers[L']? := by
    intro L' hne'
    exact List.getElem?_set_ne (Ne.symm hne')
  have hlt : ∀ n, n < inputVals.length → ∀ x, layer[n]? = some x →
      ∃ v, inputVals[n]? = some v ∧ layer'[n]? = some (x.setOutputVal v) := by
    intro n hn x hx
    obtain ⟨x', y, hx', hy, hy'⟩ := updateEach_ok_lt hlayer' hn
    rw [hx] at hx'
    cases hx'
    rw [List.getElem?_eq_getElem hn, Option.map_some'] at hy
    exact ⟨inputVals[n], List.getElem?_eq_getElem hn, by rw [hy', ← hy]⟩
  have hbias : layer'[inputVals.length]? = layer[inputVals.length]? :=
    updateEach_ok_ge hlayer' (Nat.le_refl _)
  refine ⟨layer, { net with m_layers := net.m_layers.set 0 layer' }, hlayer, hllen.symm, ?_,
    rfl, rfl, rfl, ?_, hother, ?_, ?_, ?_⟩
  · rw [hlayer']; rfl
  · refine shape_eq_of_set hlayer ?_ rfl
    apply updateEach_map_eq Neuron.shape _ hlayer'
    intro n x y hy
    cases hv : inputVals[n]? with
    | none => rw [hv] at hy; cases hy
    | some v => rw [hv] at hy; cases hy; rfl
  · intro L' n x hx
    by_cases hLL : L' = 0
    · subst hLL
      rw [neuronAt_of_layer hlayer] at hx
      have hnl := lt_length_of_getElem? hx
      by_cases hn : n < inputVals.length
      · obtain ⟨v, _, hv⟩ := hlt n hn x hx
        have h3 : Net.neuronAt { net with m_layers := net.m_layers.set 0 layer' } 0 n
            = some (x.setOutputVal v) := by
          rw [neuronAt_of_layer hL1, hv]
        rw [outputVal_of_neuronAt h3, h3]
        rfl
      · have hn' : n = inputVals.length := by omega
        subst hn'
        have h3 : Net.neuronAt { net with m_layers := net.m_layers.set 0 layer' } 0
            inputVals.length = some x := by
          rw [neuronAt_of_layer hL1, hbias, hx]
        rw [outputVal_of_neuronAt h3, h3]
        rfl
    · have h3 : Net.neuronAt { net with m_layers := net.m_layers.set 0 layer' } L' n
          = some x := by
        unfold Net.neuronAt at hx ⊢
        rw [hother L' hLL]
        exact hx
      rw [outputVal_of_neuronAt h3, h3]
      rfl
  · intro i hi
    obtain ⟨x, hx, _, _⟩ := hl i (by omega)
    obtain ⟨v, hv1, hv⟩ := hlt i hi x hx
    have h3 : Net.neuronAt { net with m_layers := net.m_layers.set 0 layer' } 0 i
        = some (x.setOutputVal v) := by
      rw [neuronAt_of_layer hL1, hv]
    rw [outputVal_of_neuronAt h3, hv1]
    rfl
  · rw [ht0]
    simp only [Net.outputVal]
    rw [neuronAt_of_layer hL1, neuronAt_of_layer hlayer, hbias]

theorem feedForward_ok (m : Libm α) {topology : List Nat} {net : Net α}
    (hs : WellShaped topology net) {inputVals : List α}
    (hlen : topology[0]? = some inputVals.length) :
    ∃ net', net.feedForward m inputVals = .ok net' ∧
      net'.m_error = net.m_error ∧
      net'.m_recentAverageError = net.m_recentAverageError ∧
      net'.m_recentAverageSmoothingFactor = net.m_recentAverageSmoothingFactor ∧
      net'.shape = net.shape ∧
      (∀ L n x, net.neuronAt L n = some x →
        net'.neuronAt L n = some (x.setOutputVal (net'.outputVal L n))) ∧
      (∀ i, i < inputVals.length → inputVals[i]? = some (net'.outputVal 0 i)) ∧
      (∀ L j, 1 ≤ L → L < topology.length → j < topology.getD L 0 →
        net'.outputVal L j = forwardVal m topology net' L j) ∧
      (∀ L, L < topology.length →
        net'.outputVal L (topology.getD L 0) = net.outputVal L (topology.getD L 0)) := by
  have h0 : 0 < topology.length := lt_length_of_getElem? hlen
  obtain ⟨layer0, net0, hlayer0, hsz, hlatch, he0, hr0, hf0, hsh0, hother0, hc0, hin0, hb0⟩ :=
    feedForward.latch_ok hs hlen
  have hs0 : WellShaped topology net0 := wellShaped_of_shape_eq hsh0 hs
  obtain ⟨net', hfold, he, hr, hf, hsh, hlow, hc, hd, hb⟩ :=
    feedForward.propagate_from m (topology.length - 1) 1 net0 hs0 (Nat.le_refl 1) (by omega)
  refine ⟨net', ?_, he.trans he0, hr.trans hr0, hf.trans hf0, hsh.trans hsh0, ?_, ?_, ?_, ?_⟩
  · unfold Net.feedForward
    simp only [hlayer0, hsz, ne_eq, not_true_eq_false, if_false, hlatch, ok_bind]
    unfold Net.feedForward.propagate
    rw [hs0.length_eq]
    exact hfold
  · intro L n x hx
    rw [hc L n _ (hc0 L n x hx)]
    rfl
  · intro i hi
    rw [outputVal_congr (hlow 0 (by omega)) i]
    exact hin0 i hi
  · intro L j h1 hL hj
    exact hd L j h1 hL hj
  · intro L hL
    by_cases hL0 : L = 0
    · subst hL0
      rw [outputVal_congr (hlow 0 (by omega)), hb0]
    · rw [hb L (by omega) hL, outputVal_congr (hother0 L hL0)]

theorem frame_of_setOutputVal {net net' : Net α} (hsh : net'.shape = net.shape)
    (hc : ∀ L n x, net.neuronAt L n = some x →
      net'.neuronAt L n = some (x.setOutputVal (net'.outputVal L n))) (L n : Nat) :
    net'.gradient L n = net.gradient L n ∧
      ∀ c, net'.weight L n c = net.weight L n c ∧
        net'.deltaWeight L n c = net.deltaWeight L n c := by
  cases hx : net.neuronAt L n with
  | some x =>
    have hx' := hc L n x hx
    refine ⟨by rw [gradient_of_neuronAt hx', gradient_of_neuronAt hx]; rfl, fun c => ?_⟩
    simp only [Net.weight, Net.deltaWeight, Net.connectionAt, hx, hx', Option.some_bind,
      Neuron.setOutputVal, and_self]
  | none =>
    have hx' : net'.neuronAt L n = none := by
      have h1 : (net'.neuronAt L n).map Neuron.shape = (net.neuronAt L n).map Neuron.shape := by
        have e : ∀ (k : Net α), (k.neuronAt L n).map Neuron.shape
            = (k.shape[L]?).bind (fun l => l[n]?) := by
          intro k
          simp only [Net.neuronAt, Net.shape, List.getElem?_map]
          cases k.m_layers[L]? <;> simp
        rw [e, e, hsh]
      rw [hx] at h1
      cases h2 : net'.neuronAt L n with
      | none => rfl
      | some y => rw [h2] at h1; cases h1
    simp [Net.gradient, Net.weight, Net.deltaWeight, Net.connectionAt, hx, hx']

/-! ## Construction -/

theorem Net.new_prefix_ok (host : Host α) (topology : List Nat) (init : Net α) :
    ∀ k, (∀ i, i < k → topology.getD i 0 < UINT_MAX) →
      (List.range k).foldlM (Net.new.addLayer host topology) init
      = .ok { init with
          m_layers := init.m_layers ++ (List.range k).map (Net.new.layerAt host topology) } := by
  intro k
  induction k with
  | zero => intro _; simp [pure, Except.pure]
  | succ k ih =>
    intro h
    rw [List.range_succ, List.foldlM_append, ih (fun i hi => h i (by omega))]
    have hk : ¬ UINT_MAX ≤ topology.getD k 0 := by have := h k (by omega); omega
    simp only [ok_bind, List.foldlM_cons, List.foldlM_nil, Net.new.addLayer, hk, if_false,
      bind_pure, List.map_append, List.map_cons, List.map_nil, List.append_assoc,
      Net.new.layerAt]

theorem foldlM_error_of_mem {σ ι ε : Type} (step : σ → ι → Except ε σ) (i : ι)
    (hi : ∀ s, ∃ e, step s i = .error e) :
    ∀ (l : List ι), i ∈ l → ∀ s, ∃ e, l.foldlM step s = .error e := by
  intro l
  induction l with
  | nil => intro h; cases h
  | cons a l ih =>
    intro h s
    rw [List.foldlM_cons]
    cases hs : step s a with
    | error e => exact ⟨e, rfl⟩
    | ok s1 =>
      rw [ok_bind]
      rcases List.mem_cons.mp h with h1 | h1
      · subst h1
        obtain ⟨e, he⟩ := hi s
        rw [he] at hs
        cases hs
      · exact ih h1 s1

theorem Net.new_ok_iff (host : Host α) (topology : List Nat) (net : Net α) :
    Net.new host topology = .ok net ↔
      (∀ i, i < topology.length → topology.getD i 0 < UINT_MAX) ∧
      net.m_layers = (List.range topology.length).map (Net.new.layerAt host topology) ∧
      net.m_error = host.error ∧
      net.m_recentAverageError = host.recentAverageError ∧
      net.m_recentAverageSmoothingFactor = host.recentAverageSmoothingFactor := by
  constructor
  · intro h
    by_cases hall : ∀ i, i < topology.length → topology.getD i 0 < UINT_MAX
    · refine ⟨hall, ?_⟩
      unfold Net.new at h
      rw [Net.new_prefix_ok host topology _ topology.length hall] at h
      cases h
      exact ⟨rfl, rfl, rfl, rfl⟩
    · exfalso
      simp only [not_forall] at hall
      obtain ⟨i, hi, hbig⟩ := hall
      unfold Net.new at h
      obtain ⟨e, he⟩ := foldlM_error_of_mem (Net.new.addLayer host topology) i (by
        intro s
        refine ⟨Fault.nonTermination, ?_⟩
        have : UINT_MAX ≤ topology.getD i 0 := by omega
        simp only [Net.new.addLayer, this, if_true]) (List.range topology.length)
        (List.mem_range.mpr hi) _
      rw [he] at h
      cases h
  · rintro ⟨hall, h1, h2, h3, h4⟩
    unfold Net.new
    rw [Net.new_prefix_ok host topology _ topology.length hall]
    cases net
    simp only at h1 h2 h3 h4
    subst h1 h2 h3 h4
    rfl

theorem Net.new.forceBias_shape (layer : Layer α) :
    (Net.new.forceBias layer).map Neuron.shape = layer.map Neuron.shape := by
  unfold Net.new.forceBias
  cases h : layer.getLast? with
  | none => rfl
  | some x =>
    simp only
    rw [List.getLast?_eq_getElem?] at h
    apply List.ext_getElem?
    intro n
    rw [List.map_set, List.getElem?_set]
    split
    · rename_i hn
      subst hn
      have hlt := lt_length_of_getElem? h
      rw [List.getElem?_eq_getElem hlt] at h
      cases h
      simp [hlt, Neuron.shape, Neuron.setOutputVal]
    · rfl

theorem Net.new.forceBias_last (layer : Layer α) (h : layer ≠ []) :
    ((Net.new.forceBias layer).getLast?).map Neuron.getOutputVal = some 1 := by
  unfold Net.new.forceBias
  cases hl : layer.getLast? with
  | none => simp [List.getLast?_eq_none_iff] at hl; exact absurd hl h
  | some x =>
    simp only
    rw [List.getLast?_eq_getElem?, List.length_set]
    rw [List.getLast?_eq_getElem?] at hl
    rw [getElem?_set_self_of_some hl]
    rfl

theorem Net.new_wellShaped (host : Host α) (topology : List Nat) (net : Net α)
    (h : Net.new host topology = .ok net) : WellShaped topology net := by
  obtain ⟨_, hl, _⟩ := (Net.new_ok_iff host topology net).mp h
  refine ⟨by simp [Net.shape, hl], ?_⟩
  intro i hi
  have hli : net.m_layers.getD i [] = Net.new.layerAt host topology i := by
    rw [hl, List.getD_eq_getElem?_getD, List.getElem?_map, List.getElem?_range hi]
    rfl
  have hsh : net.shape.getD i []
      = (List.range (topology.getD i 0 + 1)).map (fun n => (n, topology.getD (i + 1) 0)) := by
    rw [shape_getD, hli]
    unfold Net.new.layerAt
    rw [Net.new.forceBias_shape, List.map_map]
    apply List.map_congr_left
    intro n _
    simp only [Function.comp, Neuron.shape, Neuron.new, List.length_map, List.length_range,
      Prod.mk.injEq, true_and]
    split
    · rename_i hlast
      have hge : topology.length ≤ i + 1 := by omega
      rw [List.getD_eq_getElem?_getD, List.getElem?_eq_none hge]
      rfl
    · rfl
  rw [hsh]
  refine ⟨by rw [List.length_map, List.length_range], ?_⟩
  intro n hn
  rw [List.getElem?_map, List.getElem?_range hn]
  rfl

/-! ## What every completed call keeps -/

theorem map_set_eq {β γ : Type} (f : β → γ) {l : List β} {i : Nat} {a b : β}
    (hi : l[i]? = some a) (h : f b = f a) : (l.set i b).map f = l.map f := by
  apply List.ext_getElem?
  intro j
  rw [List.map_set, List.getElem?_set]
  split
  · rename_i hij
    subst hij
    have hlt := lt_length_of_getElem? hi
    rw [List.getElem?_eq_getElem hlt] at hi
    cases hi
    simp [hlt, h]
  · rfl

theorem withLayer_ok {net net' : Net α} {i : Nat} {r : Except (Fault × Layer α) (Layer α)}
    (h : net.withLayer i r = .ok net') :
    ∃ layer', r = .ok layer' ∧ net' = { net with m_layers := net.m_layers.set i layer' } := by
  unfold Net.withLayer at h
  split at h
  · cases h
    exact ⟨_, rfl, rfl⟩
  · cases h

theorem withLayer_ok_map {γ : Type} (f : Layer α → γ) {net net' : Net α} {i : Nat}
    {layer : Layer α} {r : Except (Fault × Layer α) (Layer α)}
    (hi : net.m_layers[i]? = some layer) (hf : ∀ layer', r = .ok layer' → f layer' = f layer)
    (h : net.withLayer i r = .ok net') :
    net'.m_layers.map f = net.m_layers.map f ∧ net'.m_error = net.m_error ∧
      net'.m_recentAverageError = net.m_recentAverageError ∧
      net'.m_recentAverageSmoothingFactor = net.m_recentAverageSmoothingFactor := by
  obtain ⟨layer', hr, rfl⟩ := withLayer_ok h
  exact ⟨map_set_eq f hi (hf layer' hr), rfl, rfl, rfl⟩

theorem updateEach_getLast {β : Type} {op : Nat → β → Option β} {v v' : List β}
    {count : Nat} (h : updateEach count op v = .ok v') (hc : count + 1 ≤ v.length) :
    v'.getLast? = v.getLast? := by
  rw [List.getLast?_eq_getElem?, List.getLast?_eq_getElem?, updateEach_ok_length h]
  exact updateEach_ok_ge h (by omega)

theorem feedForward.layer_keeps (m : Libm α) {net net' : Net α} {L : Nat}
    (h : Net.feedForward.layer m net L = .ok net') :
    net'.shape = net.shape ∧ net'.biasOutputs = net.biasOutputs ∧
      net'.m_error = net.m_error ∧
      net'.m_recentAverageError = net.m_recentAverageError ∧
      net'.m_recentAverageSmoothingFactor = net.m_recentAverageSmoothingFactor := by
  unfold Net.feedForward.layer at h
  split at h
  · rename_i prevLayer layer hprev hlayer
    split at h
    · cases h
    · rename_i hne
      have h1 := withLayer_ok_map (List.map Neuron.shape) hlayer (by
        intro layer' hl
        apply updateEach_map_eq Neuron.shape _ hl
        intro n x y hy
        obtain ⟨hw, hi, _⟩ := Neuron.feedForward_shape m x y prevLayer hy
        simp [Neuron.shape, hw, hi]) h
      have h2 := withLayer_ok_map (fun l => (l.getLast?).map Neuron.getOutputVal) hlayer (by
        intro layer' hl
        simp only
        rw [updateEach_getLast hl (by omega)]) h
      exact ⟨h1.1, h2.1, h1.2⟩
  · cases h

theorem feedForward_keeps (m : Libm α) {net net' : Net α} {inputVals : List α}
    (h : net.feedForward m inputVals = .ok net') :
    net'.shape = net.shape ∧ net'.biasOutputs = net.biasOutputs ∧
      net'.m_error = net.m_error ∧
      net'.m_recentAverageError = net.m_recentAverageError ∧
      net'.m_recentAverageSmoothingFactor = net.m_recentAverageSmoothingFactor := by
  unfold Net.feedForward at h
  split at h
  · cases h
  · rename_i layer0 hlayer0
    split at h
    · cases h
    · rename_i hsz
      simp only [ne_eq, Decidable.not_not] at hsz
      cases hl : net.withLayer 0 (updateEach inputVals.length
          (fun i neuron => (inputVals[i]?).map neuron.setOutputVal) layer0) with
      | error e => rw [hl] at h; cases h
      | ok net0 =>
        rw [hl, ok_bind] at h
        have h1 := withLayer_ok_map (List.map Neuron.shape) hlayer0 (by
          intro layer' hl'
          apply updateEach_map_eq Neuron.shape _ hl'
          intro n x y hy
          cases hv : inputVals[n]? with
          | none => rw [hv] at hy; cases hy
          | some v => rw [hv] at hy; cases hy; rfl) hl
        have h2 := withLayer_ok_map (fun l => (l.getLast?).map Neuron.getOutputVal) hlayer0 (by
          intro layer' hl'
          simp only
          rw [updateEach_getLast hl' (by omega)]) hl
        have key := foldlM_ok_inv
          (fun (k : Net α) => k.shape = net.shape ∧ k.biasOutputs = net.biasOutputs ∧
            k.m_error = net.m_error ∧
            k.m_recentAverageError = net.m_recentAverageError ∧
            k.m_recentAverageSmoothingFactor = net.m_recentAverageSmoothingFactor)
          (Net.feedForward.layer m)
          (by
            intro s i s' hs hstep
            obtain ⟨a, b, c, d, e⟩ := feedForward.layer_keeps m hstep
            exact ⟨a.trans hs.1, b.trans hs.2.1, c.trans hs.2.2.1, d.trans hs.2.2.2.1,
              e.trans hs.2.2.2.2⟩)
          _ net0 net' ⟨h1.1, h2.1, h1.2⟩ h
        exact key

theorem backProp.addSquare_keeps {net net' : Net α} {outputLayer : Layer α}
    {targetVals : List α} {n : Nat}
    (h : Net.backProp.addSquare outputLayer targetVals net n = .ok net') :
    net'.m_layers = net.m_layers ∧
      net'.m_recentAverageError = net.m_recentAverageError ∧
      net'.m_recentAverageSmoothingFactor = net.m_recentAverageSmoothingFactor := by
  unfold Net.backProp.addSquare at h
  split at h
  · cases h
    exact ⟨rfl, rfl, rfl⟩
  · cases h

theorem backProp.rmsError_keeps (m : Libm α) {net net' : Net α} {outputLayer : Layer α}
    {targetVals : List α} (h : Net.backProp.rmsError m net outputLayer targetVals = .ok net') :
    net'.m_layers = net.m_layers ∧
      net'.m_recentAverageSmoothingFactor = net.m_recentAverageSmoothingFactor := by
  unfold Net.backProp.rmsError at h
  simp only at h
  split at h
  · cases h
  · cases hfold : (List.range (outputLayer.length - 1)).foldlM
        (Net.backProp.addSquare outputLayer targetVals) { net with m_error := 0 } with
    | error e => rw [hfold] at h; cases h
    | ok net1 =>
      rw [hfold, ok_bind] at h
      cases h
      have key := foldlM_ok_inv
        (fun (k : Net α) => k.m_layers = net.m_layers ∧
          k.m_recentAverageSmoothingFactor = net.m_recentAverageSmoothingFactor)
        (Net.backProp.addSquare outputLayer targetVals)
        (by
          intro s i s' hs hstep
          obtain ⟨a, _, c⟩ := backProp.addSquare_keeps hstep
          exact ⟨a.trans hs.1, c.trans hs.2⟩)
        _ { net with m_error := 0 } net1 ⟨rfl, rfl⟩ hfold
      exact key

theorem Neuron.calcHiddenGradients_fixed {x y : Neuron α} {nextLayer : Layer α}
    (h : x.calcHiddenGradients nextLayer = some y) :
    y.m_outputVal = x.m_outputVal ∧ y.m_outputWeights = x.m_outputWeights ∧
      y.m_myIndex = x.m_myIndex := by
  unfold Neuron.calcHiddenGradients at h
  split at h
  · cases h
  · cases h
    exact ⟨rfl, rfl, rfl⟩

theorem Neuron.updateInputWeights_keeps {self : Neuron α} {prev prev' : Layer α}
    (h : self.updateInputWeights prev = .ok prev') :
    prev'.map Neuron.fixed = prev.map Neuron.fixed ∧
      prev'.map Neuron.m_gradient = prev.map Neuron.m_gradient := by
  unfold Neuron.updateInputWeights at h
  constructor
  · apply updateEach_map_eq Neuron.fixed _ h
    intro n x y hy
    split at hy
    · cases hy
    · cases hy
      simp [Neuron.fixed]
  · apply updateEach_map_eq Neuron.m_gradient _ h
    intro n x y hy
    split at hy
    · cases hy
    · cases hy
      rfl

theorem backProp.outputGradients_keeps {net net' : Net α} {outputLayer : Layer α}
    {targetVals : List α} (hlast : net.m_layers.getLast? = some outputLayer)
    (h : Net.backProp.outputGradients net outputLayer targetVals = .ok net') :
    net'.m_layers.map (List.map Neuron.fixed) = net.m_layers.map (List.map Neuron.fixed) ∧
      net'.m_error = net.m_error ∧
      net'.m_recentAverageError = net.m_recentAverageError ∧
      net'.m_recentAverageSmoothingFactor = net.m_recentAverageSmoothingFactor := by
  unfold Net.backProp.outputGradients at h
  rw [List.getLast?_eq_getElem?] at hlast
  refine withLayer_ok_map (List.map Neuron.fixed) hlast ?_ h
  intro layer' hl
  apply updateEach_map_eq Neuron.fixed _ hl
  intro n x y hy
  cases hv : targetVals[n]? with
  | none => rw [hv] at hy; cases hy
  | some v => rw [hv] at hy; cases hy; rfl

theorem backProp.hiddenLayer_keeps {net net' : Net α} {L : Nat}
    (h : Net.backProp.hiddenLayer net L = .ok net') :
    net'.m_layers.map (List.map Neuron.fixed) = net.m_layers.map (List.map Neuron.fixed) ∧
      net'.m_error = net.m_error ∧
      net'.m_recentAverageError = net.m_recentAverageError ∧
      net'.m_recentAverageSmoothingFactor = net.m_recentAverageSmoothingFactor := by
  unfold Net.backProp.hiddenLayer at h
  split at h
  · rename_i hiddenLayer nextLayer hhid hnext
    refine withLayer_ok_map (List.map Neuron.fixed) hhid ?_ h
    intro layer' hl
    apply updateEach_map_eq Neuron.fixed _ hl
    intro n x y hy
    obtain ⟨a, b, c⟩ := Neuron.calcHiddenGradients_fixed hy
    simp [Neuron.fixed, a, b, c]
  · cases h

theorem backProp.updateLayer_keeps {net net' : Net α} {L : Nat}
    (h : Net.backProp.updateLayer net L = .ok net') :
    net'.m_layers.map (List.map Neuron.fixed) = net.m_layers.map (List.map Neuron.fixed) ∧
      net'.m_error = net.m_error ∧
      net'.m_recentAverageError = net.m_recentAverageError ∧
      net'.m_recentAverageSmoothingFactor = net.m_recentAverageSmoothingFactor := by
  unfold Net.backProp.updateLayer at h
  split at h
  · rename_i layer prevLayer hlayer hprev
    split at h
    · cases h
    · refine withLayer_ok_map (List.map Neuron.fixed) hprev ?_ h
      intro layer' hl
      exact foldlM_ok_inv (fun (p : Layer α) => p.map Neuron.fixed = prevLayer.map Neuron.fixed)
        (Net.backProp.updateFrom layer)
        (by
          intro s i s' hs hstep
          unfold Net.backProp.updateFrom at hstep
          split at hstep
          · cases hstep
          · exact (Neuron.updateInputWeights_keeps hstep).1.trans hs)
        _ prevLayer layer' rfl hl
  · cases h

theorem backProp_keeps (m : Libm α) {net net' : Net α} {targetVals : List α}
    (h : net.backProp m targetVals = .ok net') :
    net'.m_layers.map (List.map Neuron.fixed) = net.m_layers.map (List.map Neuron.fixed) ∧
      net'.m_recentAverageSmoothingFactor = net.m_recentAverageSmoothingFactor := by
  unfold Net.backProp at h
  split at h
  · cases h
  · rename_i outputLayer hlast
    cases h1 : Net.backProp.rmsError m net outputLayer targetVals with
    | error e => rw [h1] at h; cases h
    | ok net1 =>
      rw [h1, ok_bind] at h
      obtain ⟨hl1, hf1⟩ := backProp.rmsError_keeps m h1
      cases h2 : Net.backProp.outputGradients net1 outputLayer targetVals with
      | error e => rw [h2] at h; cases h
      | ok net2 =>
        rw [h2, ok_bind] at h
        obtain ⟨hl2, _, _, hf2⟩ := backProp.outputGradients_keeps (by rw [hl1]; exact hlast) h2
        cases h3 : Net.backProp.hiddenGradients net2 with
        | error e => rw [h3] at h; cases h
        | ok net3 =>
          rw [h3, ok_bind] at h
          have inv3 : net3.m_layers.map (List.map Neuron.fixed)
                = net2.m_layers.map (List.map Neuron.fixed) ∧
              net3.m_recentAverageSmoothingFactor = net2.m_recentAverageSmoothingFactor := by
            unfold Net.backProp.hiddenGradients at h3
            split at h3
            · cases h3
            · exact foldlM_ok_inv
                (fun (k : Net α) => k.m_layers.map (List.map Neuron.fixed)
                    = net2.m_layers.map (List.map Neuron.fixed) ∧
                  k.m_recentAverageSmoothingFactor = net2.m_recentAverageSmoothingFactor)
                Net.backProp.hiddenLayer
                (by
                  intro s i s' hs hstep
                  obtain ⟨a, _, _, d⟩ := backProp.hiddenLayer_keeps hstep
                  exact ⟨a.trans hs.1, d.trans hs.2⟩)
                _ net2 net3 ⟨rfl, rfl⟩ h3
          have inv4 : net'.m_layers.map (List.map Neuron.fixed)
                = net3.m_layers.map (List.map Neuron.fixed) ∧
              net'.m_recentAverageSmoothingFactor = net3.m_recentAverageSmoothingFactor := by
            unfold Net.backProp.updateWeights at h
            exact foldlM_ok_inv
              (fun (k : Net α) => k.m_layers.map (List.map Neuron.fixed)
                  = net3.m_layers.map (List.map Neuron.fixed) ∧
                k.m_recentAverageSmoothingFactor = net3.m_recentAverageSmoothingFactor)
              Net.backProp.updateLayer
              (by
                intro s i s' hs hstep
                obtain ⟨a, _, _, d⟩ := backProp.updateLayer_keeps hstep
                exact ⟨a.trans hs.1, d.trans hs.2⟩)
              _ net3 net' ⟨rfl, rfl⟩ h
          refine ⟨?_, ?_⟩
          · rw [inv4.1, inv3.1, hl2, hl1]
          · rw [inv4.2, inv3.2, hf2, hf1]

theorem shape_of_fixed {net net' : Net α}
    (h : net'.m_layers.map (List.map Neuron.fixed) = net.m_layers.map (List.map Neuron.fixed)) :
    net'.shape = net.shape := by
  have e : ∀ (k : Net α), k.shape
      = (k.m_layers.map (List.map Neuron.fixed)).map (List.map (fun t => t.2)) := by
    intro k
    simp only [Net.shape, List.map_map]
    apply List.map_congr_left
    intro l _
    simp only [Function.comp, List.map_map]
    rfl
  rw [e, e, h]

theorem biasOutputs_of_fixed {net net' : Net α}
    (h : net'.m_layers.map (List.map Neuron.fixed) = net.m_layers.map (List.map Neuron.fixed)) :
    net'.biasOutputs = net.biasOutputs := by
  have e : ∀ (k : Net α), k.biasOutputs
      = (k.m_layers.map (List.map Neuron.fixed)).map
          (fun l => (l.getLast?).map (fun t => t.1)) := by
    intro k
    simp only [Net.biasOutputs, List.map_map]
    apply List.map_congr_left
    intro l _
    simp only [Function.comp, List.getLast?_map, Option.map_map]
    rfl
  rw [e, e, h]

/-! ## Results -/

theorem getResults.loop_ok (back : Layer α) (g : Nat → α) :
    ∀ (k : Nat), (∀ n, n < k → ∃ x, back[n]? = some x ∧ x.m_outputVal = g n) →
      ∀ acc, (List.range k).foldlM (Net.getResults.pushBack back) acc
        = .ok (acc ++ (List.range k).map g) := by
  intro k
  induction k with
  | zero => intro _ acc; simp [pure, Except.pure]
  | succ k ih =>
    intro h acc
    rw [List.range_succ, List.foldlM_append, ih (fun n hn => h n (by omega)) acc]
    obtain ⟨x, hx, hg⟩ := h k (by omega)
    simp only [ok_bind, List.foldlM_cons, List.foldlM_nil, Net.getResults.pushBack, hx,
      Neuron.getOutputVal, hg, bind_pure, List.map_append, List.map_cons, List.map_nil,
      List.append_assoc]

theorem getResults_ok {topology : List Nat} {net : Net α} (hs : WellShaped topology net)
    (h0 : 0 < topology.length) (resultVals : List α) :
    net.getResults resultVals = .ok ((List.range (topology.getD (topology.length - 1) 0)).map
      (fun i => net.outputVal (topology.length - 1) i)) := by
  obtain ⟨back, hback, hblen, hb⟩ := hs.layer (show topology.length - 1 < topology.length by omega)
  have hlast : net.m_layers.getLast? = some back := by
    rw [List.getLast?_eq_getElem?, hs.length_eq, hback]
  have hne : ¬ back.length = 0 := by omega
  unfold Net.getResults
  simp only [hlast, hne, if_false]
  rw [hblen, Nat.add_sub_cancel]
  rw [getResults.loop_ok back (fun i => net.outputVal (topology.length - 1) i)]
  · rfl
  · intro n hn
    obtain ⟨x, hx, _, _⟩ := hb n (by omega)
    refine ⟨x, hx, ?_⟩
    have : net.neuronAt (topology.length - 1) n = some x := by
      rw [neuronAt_of_layer hback, hx]
    exact (outputVal_of_neuronAt this).symm

theorem Net.new_biasOutputs (host : Host α) (topology : List Nat) (net : Net α)
    (h : Net.new host topology = .ok net) : ∀ o, o ∈ net.biasOutputs → o = some 1 := by
  obtain ⟨_, hl, _⟩ := (Net.new_ok_iff host topology net).mp h
  intro o ho
  simp only [Net.biasOutputs, hl, List.map_map, List.mem_map, List.mem_range,
    Function.comp] at ho
  obtain ⟨i, _, rfl⟩ := ho
  unfold Net.new.layerAt
  apply Net.new.forceBias_last
  intro hnil
  have := congrArg List.length hnil
  simp at this

theorem call_keeps (m : Libm α) {net net' : Net α} {c : Call α}
    (h : net.call m c = .ok net') :
    net'.shape = net.shape ∧ net'.biasOutputs = net.biasOutputs := by
  cases c with
  | feedForward inputVals =>
    obtain ⟨a, b, _⟩ := feedForward_keeps m h
    exact ⟨a, b⟩
  | backProp targetVals =>
    obtain ⟨a, _⟩ := backProp_keeps m h
    exact ⟨shape_of_fixed a, biasOutputs_of_fixed a⟩

theorem run_keeps (m : Libm α) {net net' : Net α} {calls : List (Call α)}
    (h : net.run m calls = .ok net') :
    net'.shape = net.shape ∧ net'.biasOutputs = net.biasOutputs :=
  foldlM_ok_inv (fun (k : Net α) => k.shape = net.shape ∧ k.biasOutputs = net.biasOutputs)
    (Net.call m)
    (by
      intro s c s' hs hstep
      obtain ⟨a, b⟩ := call_keeps m hstep
      exact ⟨a.trans hs.1, b.trans hs.2⟩)
    calls net net' ⟨rfl, rfl⟩ h

/-! ## Backward pass -/

theorem withLayer_updateEach_ok {net : Net α} {L : Nat} {layer : Layer α}
    (hlayer : net.m_layers[L]? = some layer) {count : Nat} (hcount : count ≤ layer.length)
    (op : Nat → Neuron α → Option (Neuron α)) (upd : Nat → Neuron α → Neuron α)
    (hop : ∀ n x, n < count → layer[n]? = some x → op n x = some (upd n x)) :
    ∃ net1, net.withLayer L (updateEach count op layer) = .ok net1 ∧
      net1.m_error = net.m_error ∧
      net1.m_recentAverageError = net.m_recentAverageError ∧
      net1.m_recentAverageSmoothingFactor = net.m_recentAverageSmoothingFactor ∧
      (∀ L', L' ≠ L → net1.m_layers[L']? = net.m_layers[L']?) ∧
      (∀ n x, net.neuronAt L n = some x →
        net1.neuronAt L n = some (if n < count then upd n x else x)) ∧
      ((∀ n x, n < count → layer[n]? = some x → (upd n x).shape = x.shape) →
        net1.shape = net.shape) := by
  obtain ⟨layer', hlayer'⟩ := updateEach_ok_of op layer count hcount
    (fun n x hn hx => ⟨_, hop n x hn hx⟩)
  have hL1 : ({ net with m_layers := net.m_layers.set L layer' } : Net α).m_layers[L]?
      = some layer' := getElem?_set_self_of_some hlayer
  have hget : ∀ n x, layer[n]? = some x →
      layer'[n]? = some (if n < count then upd n x else x) := by
    intro n x hx
    by_cases hn : n < count
    · obtain ⟨x', y, hx', hy, hy'⟩ := updateEach_ok_lt hlayer' hn
      rw [hx] at hx'
      cases hx'
      rw [hop n x hn hx] at hy
      cases hy
      rw [hy', if_pos hn]
    · rw [updateEach_ok_ge hlayer' (Nat.le_of_not_lt hn), hx, if_neg hn]
  refine ⟨{ net with m_layers := net.m_layers.set L layer' }, by rw [hlayer']; rfl,
    rfl, rfl, rfl, fun L' hne => List.getElem?_set_ne (Ne.symm hne), ?_, ?_⟩
  · intro n x hx
    rw [neuronAt_of_layer hlayer] at hx
    rw [neuronAt_of_layer hL1]
    exact hget n x hx
  · intro hshape
    refine shape_eq_of_set hlayer ?_ rfl
    apply List.ext_getElem?
    intro n
    rw [List.getElem?_map, List.getElem?_map]
    cases hx : layer[n]? with
    | none =>
      have : layer'.length ≤ n := by
        rw [updateEach_ok_length hlayer']
        by_contra hc
        rw [List.getElem?_eq_getElem (Nat.lt_of_not_le hc)] at hx
        cases hx
      rw [List.getElem?_eq_none this]
    | some x =>
      rw [hget n x hx]
      by_cases hn : n < count
      · rw [if_pos hn, Option.map_some', Option.map_some', hshape n x hn hx]
      · rw [if_neg hn]

theorem backProp.addSquare_loop (outputLayer : Layer α) (targetVals : List α)
    (tgt out : Nat → α) :
    ∀ (k : Nat), (∀ n, n < k → ∃ x, targetVals[n]? = some (tgt n) ∧
        outputLayer[n]? = some x ∧ x.m_outputVal = out n) →
      ∀ (net0 : Net α), (List.range k).foldlM
          (Net.backProp.addSquare outputLayer targetVals) net0
        = .ok ⟨net0.m_layers,
            (List.range k).foldl (fun s n => s + (tgt n - out n) * (tgt n - out n)) net0.m_error,
            net0.m_recentAverageError, net0.m_recentAverageSmoothingFactor⟩ := by
  intro k
  induction k with
  | zero => intro _ net0; rfl
  | succ k ih =>
    intro h net0
    rw [List.range_succ, List.foldlM_append, ih (fun n hn => h n (by omega)) net0]
    obtain ⟨x, ht, hx, ho⟩ := h k (by omega)
    simp only [ok_bind, List.foldlM_cons, List.foldlM_nil, Net.backProp.addSquare, ht, hx,
      Neuron.getOutputVal, ho, bind_pure, List.foldl_append, List.foldl_cons, List.foldl_nil]

theorem getElem?_eq_some_getD {β : Type} {l : List β} {n : Nat} (h : n < l.length) (d : β) :
    l[n]? = some (l.getD n d) := by
  rw [List.getD_eq_getElem?_getD, List.getElem?_eq_getElem h]
  rfl

theorem backProp.output_ok (m : Libm α) {topology : List Nat} {net : Net α}
    (hs : WellShaped topology net) (h0 : 0 < topology.length) {targetVals : List α}
    (hlen : topology.getD (topology.length - 1) 0 ≤ targetVals.length) :
    ∃ outputLayer net1 net2, net.m_layers.getLast? = some outputLayer ∧
      Net.backProp.rmsError m net outputLayer targetVals = .ok net1 ∧
      Net.backProp.outputGradients net1 outputLayer targetVals = .ok net2 ∧
      net2.m_error = m.sqrt (sumUpTo (topology.getD (topology.length - 1) 0)
        (fun n => (targetVals.getD n 0 - net.outputVal (topology.length - 1) n)
          * (targetVals.getD n 0 - net.outputVal (topology.length - 1) n))
        / ((topology.getD (topology.length - 1) 0 : Nat) : α)) ∧
      net2.m_recentAverageError =
        (net.m_recentAverageError * net.m_recentAverageSmoothingFactor + net2.m_error)
          / (net.m_recentAverageSmoothingFactor + 1) ∧
      net2.m_recentAverageSmoothingFactor = net.m_recentAverageSmoothingFactor ∧
      net2.shape = net.shape ∧
      (∀ L, L ≠ topology.length - 1 → net2.m_layers[L]? = net.m_layers[L]?) ∧
      (∀ n x, net.neuronAt (topology.length - 1) n = some x →
        net2.neuronAt (topology.length - 1) n =
          some (if n < topology.getD (topology.length - 1) 0
            then x.calcOutputGradients (targetVals.getD n 0) else x)) := by
  obtain ⟨back, hback, hblen, hb⟩ := hs.layer (show topology.length - 1 < topology.length by omega)
  have hlast : net.m_layers.getLast? = some back := by
    rw [List.getLast?_eq_getElem?, hs.length_eq, hback]
  have hne : ¬ back.length = 0 := by omega
  have hcnt : back.length - 1 = topology.getD (topology.length - 1) 0 := by omega
  have hloop := backProp.addSquare_loop back targetVals (fun n => targetVals.getD n 0)
    (fun n => net.outputVal (topology.length - 1) n) (topology.getD (topology.length - 1) 0)
    (by
      intro n hn
      obtain ⟨x, hx, _, _⟩ := hb n (by omega)
      refine ⟨x, ?_, hx, ?_⟩
      · exact getElem?_eq_some_getD (by omega) 0
      · have : net.neuronAt (topology.length - 1) n = some x := by
          rw [neuronAt_of_layer hback, hx]
        exact (outputVal_of_neuronAt this).symm)
    { net with m_error := 0 }
  have h1 : ∃ net1, Net.backProp.rmsError m net back targetVals = .ok net1 ∧
      net1.m_layers = net.m_layers ∧
      net1.m_error = m.sqrt (sumUpTo (topology.getD (topology.length - 1) 0)
        (fun n => (targetVals.getD n 0 - net.outputVal (topology.length - 1) n)
          * (targetVals.getD n 0 - net.outputVal (topology.length - 1) n))
        / ((topology.getD (topology.length - 1) 0 : Nat) : α)) ∧
      net1.m_recentAverageError =
        (net.m_recentAverageError * net.m_recentAverageSmoothingFactor + net1.m_error)
          / (net.m_recentAverageSmoothingFactor + 1) ∧
      net1.m_recentAverageSmoothingFactor = net.m_recentAverageSmoothingFactor := by
    unfold Net.backProp.rmsError
    simp only [hne, if_false, hcnt, hloop, ok_bind]
    exact ⟨_, rfl, rfl, rfl, rfl, rfl⟩
  obtain ⟨net1, hr1, hl1, he1, hra1, hsf1⟩ := h1
  have hback1 : net1.m_layers[topology.length - 1]? = some back := by rw [hl1, hback]
  obtain ⟨net2, hr2, he2, hra2, hsf2, hother2, hc2, hsh2⟩ :=
    withLayer_updateEach_ok hback1 (show back.length - 1 ≤ back.length by omega)
      (fun n neuron => (targetVals[n]?).map neuron.calcOutputGradients)
      (fun n x => x.calcOutputGradients (targetVals.getD n 0))
      (by
        intro n x hn _
        show (targetVals[n]?).map x.calcOutputGradients = _
        rw [getElem?_eq_some_getD (show n < targetVals.length by omega) 0]
        rfl)
  have hlen1 : net1.m_layers.length - 1 = topology.length - 1 := by rw [hl1, hs.length_eq]
  refine ⟨back, net1, net2, hlast, hr1, ?_, ?_, ?_, ?_, ?_, ?_, ?_⟩
  · unfold Net.backProp.outputGradients
    rw [hlen1]
    exact hr2
  · rw [he2, he1]
  · rw [hra2, hra1, he2]
  · rw [hsf2, hsf1]
  · rw [hsh2 (fun _ _ _ _ => rfl)]
    unfold Net.shape
    rw [hl1]
  · intro L hL
    rw [hother2 L hL, hl1]
  · intro n x hx
    have hx1 : net1.neuronAt (topology.length - 1) n = some x := by
      unfold Net.neuronAt at hx ⊢
      rw [hl1]
      exact hx
    rw [hc2 n x hx1, hcnt]

theorem Neuron.sumDOW_eq (self : Neuron α) (nextLayer : Layer α) (w g : Nat → α)
    (hne : nextLayer.length ≠ 0)
    (h : ∀ k, k < nextLayer.length - 1 → ∃ c nx, self.m_outputWeights[k]? = some c ∧
      nextLayer[k]? = some nx ∧ c.weight = w k ∧ nx.m_gradient = g k) :
    self.sumDOW nextLayer = some (sumUpTo (nextLayer.length - 1) (fun k => w k * g k)) := by
  unfold Neuron.sumDOW sumUpTo
  rw [if_neg hne]
  apply foldlM_range_some
  intro n s hn
  obtain ⟨c, nx, hc, hnx, hw, hg⟩ := h n hn
  simp only [hc, hnx, hw, hg]

theorem hiddenVal_congr_W (topology : List Nat) {netW netW' : Net α} (netG : Net α) {L : Nat}
    (h : netW'.m_layers[L]? = netW.m_layers[L]?) (n : Nat) :
    hiddenVal topology netW' netG L n = hiddenVal topology netW netG L n := by
  unfold hiddenVal
  rw [outputVal_congr h]
  congr 2
  funext k
  rw [weight_congr h]

theorem hiddenVal_congr_G (topology : List Nat) (netW : Net α) {netG netG' : Net α} {L : Nat}
    (h : netG'.m_layers[L + 1]? = netG.m_layers[L + 1]?) (n : Nat) :
    hiddenVal topology netW netG' L n = hiddenVal topology netW netG L n := by
  unfold hiddenVal
  congr 2
  funext k
  rw [gradient_congr h]

theorem backProp.hiddenLayer_ok {topology : List Nat} {net : Net α}
    (hs : WellShaped topology net) {L : Nat} (hL : L + 1 < topology.length) :
    ∃ net1, Net.backProp.hiddenLayer net L = .ok net1 ∧
      net1.m_error = net.m_error ∧
      net1.m_recentAverageError = net.m_recentAverageError ∧
      net1.m_recentAverageSmoothingFactor = net.m_recentAverageSmoothingFactor ∧
      net1.shape = net.shape ∧
      (∀ L', L' ≠ L → net1.m_layers[L']? = net.m_layers[L']?) ∧
      (∀ n x, net.neuronAt L n = some x →
        net1.neuronAt L n = some (x.setGradient (hiddenVal topology net net L n))) := by
  obtain ⟨hidden, hhid, hhlen, hh⟩ := hs.layer (show L < topology.length by omega)
  obtain ⟨next, hnext, hnlen, hn⟩ := hs.layer hL
  have hop : ∀ n x, n < hidden.length → hidden[n]? = some x →
      x.calcHiddenGradients next = some (x.setGradient (hiddenVal topology net net L n)) := by
    intro n x hnlt hx
    obtain ⟨x', hx', _, hw⟩ := hh n (by omega)
    rw [hx] at hx'
    cases hx'
    have hxa : net.neuronAt L n = some x := by rw [neuronAt_of_layer hhid, hx]
    have hsum := Neuron.sumDOW_eq x next (fun k => net.weight L n k)
      (fun k => net.gradient (L + 1) k) (by omega) (by
        intro k hk
        obtain ⟨nx, hnx, _, _⟩ := hn k (by omega)
        have hkw : k < x.m_outputWeights.length := by omega
        refine ⟨x.m_outputWeights[k], nx, List.getElem?_eq_getElem hkw, hnx, ?_, ?_⟩
        · exact (weight_of_connection hxa (List.getElem?_eq_getElem hkw)).symm
        · have : net.neuronAt (L + 1) k = some nx := by rw [neuronAt_of_layer hnext, hnx]
          exact (gradient_of_neuronAt this).symm)
    unfold Neuron.calcHiddenGradients
    rw [hsum]
    simp only [Neuron.setGradient, hiddenVal, hnlen, Nat.add_sub_cancel,
      outputVal_of_neuronAt hxa]
  obtain ⟨net1, hr, he, hra, hsf, hother, hc, hsh⟩ :=
    withLayer_updateEach_ok hhid (Nat.le_refl hidden.length)
      (fun _ neuron => neuron.calcHiddenGradients next)
      (fun n x => x.setGradient (hiddenVal topology net net L n)) hop
  refine ⟨net1, ?_, he, hra, hsf, hsh (fun _ _ _ _ => rfl), hother, ?_⟩
  · unfold Net.backProp.hiddenLayer
    simp only [hhid, hnext]
    exact hr
  · intro n x hx
    have hnlt : n < hidden.length := by
      rw [neuronAt_of_layer hhid] at hx
      exact lt_length_of_getElem? hx
    rw [hc n x hx, if_pos hnlt]

theorem backProp.hidden_from {topology : List Nat} :
    ∀ (k : Nat) (net : Net α), WellShaped topology net → k + 1 < topology.length →
      ∃ net', (List.iota k).foldlM Net.backProp.hiddenLayer net = .ok net' ∧
        net'.m_error = net.m_error ∧
        net'.m_recentAverageError = net.m_recentAverageError ∧
        net'.m_recentAverageSmoothingFactor = net.m_recentAverageSmoothingFactor ∧
        net'.shape = net.shape ∧
        (∀ L, (L = 0 ∨ k < L) → net'.m_layers[L]? = net.m_layers[L]?) ∧
        (∀ L n x, 1 ≤ L → L ≤ k → net.neuronAt L n = some x →
          net'.neuronAt L n = some (x.setGradient (hiddenVal topology net net' L n))) := by
  intro k
  induction k with
  | zero =>
    intro net _ _
    refine ⟨net, rfl, rfl, rfl, rfl, rfl, fun _ _ => rfl, ?_⟩
    intro L n x h1 h2
    omega
  | succ k ih =>
    intro net hs hk
    obtain ⟨net1, hstep, he1, hra1, hsf1, hsh1, hother1, hc1⟩ :=
      backProp.hiddenLayer_ok hs (show (k + 1) + 1 < topology.length by omega)
    obtain ⟨net', hfold, he, hra, hsf, hsh, hframe, hc⟩ :=
      ih net1 (wellShaped_of_shape_eq hsh1 hs) (by omega)
    have hframe' : ∀ L, (L = 0 ∨ k + 1 < L) → net'.m_layers[L]? = net.m_layers[L]? := by
      intro L hL
      rw [hframe L (by omega), hother1 L (by omega)]
    refine ⟨net', ?_, he.trans he1, hra.trans hra1, hsf.trans hsf1, hsh.trans hsh1, hframe',
      ?_⟩
    · rw [List.iota_succ, List.foldlM_cons, hstep]
      exact hfold
    · intro L n x h1 h2 hx
      by_cases hLk : L = k + 1
      · subst hLk
        rw [neuronAt_congr (hframe (k + 1) (Or.inr (Nat.lt_succ_self k))), hc1 n x hx,
          hiddenVal_congr_G topology net (hframe' (k + 1 + 1) (Or.inr (Nat.lt_succ_self _)))]
      · have hx1 : net1.neuronAt L n = some x := by
          rw [neuronAt_congr (hother1 L hLk)]
          exact hx
        rw [hc L n x h1 (by omega) hx1, hiddenVal_congr_W topology net' (hother1 L hLk)]

theorem mapIdx_set_step (ws : List (Connection α)) (c : Nat) (hc : c < ws.length)
    (o : α) (g : Nat → α) :
    (ws.mapIdx (fun j k => if j < c then k.updated o (g j) else k)).set c
        (ws[c].updated o (g c))
      = ws.mapIdx (fun j k => if j < c + 1 then k.updated o (g j) else k) := by
  apply List.ext_getElem?
  intro j
  rw [List.getElem?_set, List.getElem?_mapIdx, List.getElem?_mapIdx, List.length_mapIdx]
  by_cases hj : c = j
  · subst hj
    simp [hc, List.getElem?_eq_getElem hc]
  · rw [if_neg hj]
    cases ws[j]? with
    | none => rfl
    | some k =>
      by_cases hjc : j < c
      · simp [hjc, Nat.lt_succ_of_lt hjc]
      · have : ¬ j < c + 1 := by omega
        simp [hjc, this]

theorem Neuron.updateInputWeights_eq (self : Neuron α) (prev : Layer α) (g : Nat → α)
    (hg : self.m_gradient = g self.m_myIndex)
    (hw : ∀ p, p ∈ prev → self.m_myIndex < p.m_outputWeights.length) :
    self.updateInputWeights (prev.map (updatedUpTo self.m_myIndex g))
      = .ok (prev.map (updatedUpTo (self.m_myIndex + 1) g)) := by
  have hop : ∀ n y, n < (prev.map (updatedUpTo self.m_myIndex g)).length →
      (prev.map (updatedUpTo self.m_myIndex g))[n]? = some y →
      ∃ p, prev[n]? = some p ∧ y = updatedUpTo self.m_myIndex g p ∧
        (match y.m_outputWeights[self.m_myIndex]? with
          | none => none
          | some c =>
            let oldDeltaWeight := c.deltaWeight
            let newDeltaWeight :=
              Neuron.eta * y.getOutputVal * self.m_gradient + Neuron.alpha * oldDeltaWeight
            some { y with
              m_outputWeights := y.m_outputWeights.set self.m_myIndex
                { weight := c.weight + newDeltaWeight, deltaWeight := newDeltaWeight } })
          = some (updatedUpTo (self.m_myIndex + 1) g p) := by
    intro n y _ hy
    rw [List.getElem?_map] at hy
    cases hp : prev[n]? with
    | none => rw [hp] at hy; cases hy
    | some p =>
      rw [hp] at hy
      cases hy
      refine ⟨p, rfl, rfl, ?_⟩
      have hc : self.m_myIndex < p.m_outputWeights.length :=
        hw p (List.getElem?_mem hp)
      have h1 : (updatedUpTo self.m_myIndex g p).m_outputWeights[self.m_myIndex]?
          = some p.m_outputWeights[self.m_myIndex] := by
        simp [updatedUpTo, Neuron.setOutputWeights, List.getElem?_mapIdx,
          List.getElem?_eq_getElem hc]
      rw [h1]
      simp only [hg]
      have h2 := mapIdx_set_step p.m_outputWeights self.m_myIndex hc p.m_outputVal g
      simp only [updatedUpTo, Neuron.setOutputWeights, Neuron.getOutputVal,
        Connection.updated] at h2 ⊢
      rw [h2]
  obtain ⟨prev', hprev'⟩ := updateEach_ok_of _ _ _ (Nat.le_refl _)
    (fun n y hn hy => by
      obtain ⟨p, _, _, h⟩ := hop n y hn hy
      exact ⟨_, h⟩)
  unfold Neuron.updateInputWeights
  rw [hprev']
  congr 1
  apply List.ext_getElem?
  intro n
  by_cases hn : n < (prev.map (updatedUpTo self.m_myIndex g)).length
  · obtain ⟨y, y', hy, hy', hget⟩ := updateEach_ok_lt hprev' hn
    obtain ⟨p, hp, _, h⟩ := hop n y hn hy
    rw [h] at hy'
    cases hy'
    rw [hget, List.getElem?_map, hp]
    rfl
  · have h1 : prev'.length ≤ n := by
      rw [updateEach_ok_length hprev']; omega
    have h2 : (prev.map (updatedUpTo (self.m_myIndex + 1) g)).length ≤ n := by
      rw [List.length_map] at hn ⊢; omega
    rw [List.getElem?_eq_none h1, List.getElem?_eq_none h2]

theorem updatedUpTo_zero (g : Nat → α) (p : Neuron α) : updatedUpTo 0 g p = p := by
  have : p.m_outputWeights.mapIdx
      (fun j k => if j < 0 then k.updated p.m_outputVal (g j) else k) = p.m_outputWeights := by
    apply List.ext_getElem?
    intro j
    rw [List.getElem?_mapIdx]
    cases p.m_outputWeights[j]? <;> simp
  unfold updatedUpTo Neuron.setOutputWeights
  rw [this]

theorem backProp.updateFrom_loop (layer prev : Layer α) (g : Nat → α) :
    ∀ (c : Nat), (∀ j, j < c → ∃ x, layer[j]? = some x ∧ x.m_myIndex = j ∧ x.m_gradient = g j) →
      (∀ p, p ∈ prev → c ≤ p.m_outputWeights.length) →
      (List.range c).foldlM (Net.backProp.updateFrom layer) prev
        = .ok (prev.map (updatedUpTo c g)) := by
  intro c
  induction c with
  | zero =>
    intro _ _
    have : prev.map (updatedUpTo 0 g) = prev := by
      conv_rhs => rw [← List.map_id prev]
      apply List.map_congr_left
      intro p _
      exact updatedUpTo_zero g p
    rw [this]
    rfl
  | succ c ih =>
    intro hlayer hw
    rw [List.range_succ, List.foldlM_append,
      ih (fun j hj => hlayer j (by omega)) (fun p hp => by have := hw p hp; omega)]
    obtain ⟨x, hx, hidx, hg⟩ := hlayer c (by omega)
    have key := Neuron.updateInputWeights_eq x prev g (by rw [hidx]; exact hg)
      (by intro p hp; have := hw p hp; omega)
    rw [hidx] at key
    simp only [ok_bind, List.foldlM_cons, List.foldlM_nil, Net.backProp.updateFrom, hx, key,
      bind_pure]

theorem updatedUpTo_fields (c : Nat) (g : Nat → α) (p : Neuron α) :
    (updatedUpTo c g p).m_outputVal = p.m_outputVal ∧
      (updatedUpTo c g p).m_myIndex = p.m_myIndex ∧
      (updatedUpTo c g p).m_gradient = p.m_gradient ∧
      (updatedUpTo c g p).shape = p.shape := by
  refine ⟨rfl, rfl, rfl, ?_⟩
  simp [updatedUpTo, Neuron.setOutputWeights, Neuron.shape]

theorem backProp.updateLayer_ok {topology : List Nat} {net : Net α}
    (hs : WellShaped topology net) {L : Nat} (h1 : 1 ≤ L) (hL : L < topology.length) :
    ∃ net1, Net.backProp.updateLayer net L = .ok net1 ∧
      net1.m_error = net.m_error ∧
      net1.m_recentAverageError = net.m_recentAverageError ∧
      net1.m_recentAverageSmoothingFactor = net.m_recentAverageSmoothingFactor ∧
      net1.shape = net.shape ∧
      (∀ L', L' ≠ L - 1 → net1.m_layers[L']? = net.m_layers[L']?) ∧
      (∀ n, net1.neuronAt (L - 1) n = (net.neuronAt (L - 1) n).map
        (updatedUpTo (topology.getD L 0) (fun j => net.gradient L j))) := by
  obtain ⟨prev, hprev, hplen, hp⟩ := hs.layer (show L - 1 < topology.length by omega)
  obtain ⟨layer, hlayer, hllen, hl⟩ := hs.layer hL
  have hne : ¬ layer.length = 0 := by omega
  have hLL : L - 1 + 1 = L := by omega
  rw [hLL] at hp
  have hloop := backProp.updateFrom_loop layer prev (fun j => net.gradient L j)
    (topology.getD L 0)
    (by
      intro j hj
      obtain ⟨x, hx, hidx, _⟩ := hl j (by omega)
      have : net.neuronAt L j = some x := by rw [neuronAt_of_layer hlayer, hx]
      exact ⟨x, hx, hidx, (gradient_of_neuronAt this).symm⟩)
    (by
      intro p hpm
      obtain ⟨n, hn⟩ := List.mem_iff_getElem?.mp hpm
      obtain ⟨p', hp', _, hw⟩ := hp n (by have := lt_length_of_getElem? hn; omega)
      rw [hn] at hp'
      cases hp'
      omega)
  obtain ⟨prev', hprev'⟩ : ∃ prev', prev' =
      prev.map (updatedUpTo (topology.getD L 0) (fun j => net.gradient L j)) := ⟨_, rfl⟩
  rw [← hprev'] at hloop
  have hL1 : ({ net with m_layers := net.m_layers.set (L - 1) prev' } : Net α).m_layers[L - 1]?
      = some prev' := getElem?_set_self_of_some hprev
  refine ⟨{ net with m_layers := net.m_layers.set (L - 1) prev' }, ?_,
    rfl, rfl, rfl, ?_, fun L' hne' => List.getElem?_set_ne (Ne.symm hne'), ?_⟩
  · unfold Net.backProp.updateLayer
    simp only [hlayer, hprev, hne, if_false]
    rw [hllen, Nat.add_sub_cancel, hloop]
    rfl
  · refine shape_eq_of_set hprev ?_ rfl
    rw [hprev', List.map_map]
    apply List.map_congr_left
    intro p _
    exact (updatedUpTo_fields _ _ p).2.2.2
  · intro n
    rw [neuronAt_of_layer hL1, neuronAt_of_layer hprev, hprev', List.getElem?_map]

theorem gradient_map_updatedUpTo {net net1 : Net α} {L : Nat} {c : Nat} {g : Nat → α}
    (h : ∀ n, net1.neuronAt L n = (net.neuronAt L n).map (updatedUpTo c g)) (n : Nat) :
    net1.gradient L n = net.gradient L n ∧ net1.outputVal L n = net.outputVal L n := by
  unfold Net.gradient Net.outputVal
  rw [h n]
  cases net.neuronAt L n with
  | none => exact ⟨rfl, rfl⟩
  | some x => exact ⟨rfl, rfl⟩

theorem backProp.update_from {topology : List Nat} :
    ∀ (k : Nat) (net : Net α), WellShaped topology net → k < topology.length →
      ∃ net', (List.iota k).foldlM Net.backProp.updateLayer net = .ok net' ∧
        net'.m_error = net.m_error ∧
        net'.m_recentAverageError = net.m_recentAverageError ∧
        net'.m_recentAverageSmoothingFactor = net.m_recentAverageSmoothingFactor ∧
        net'.shape = net.shape ∧
        (∀ L, k ≤ L → net'.m_layers[L]? = net.m_layers[L]?) ∧
        (∀ L n, L < k → net'.neuronAt L n = (net.neuronAt L n).map
          (updatedUpTo (topology.getD (L + 1) 0) (fun j => net.gradient (L + 1) j))) := by
  intro k
  induction k with
  | zero =>
    intro net _ _
    refine ⟨net, rfl, rfl, rfl, rfl, rfl, fun _ _ => rfl, ?_⟩
    intro L n h
    omega
  | succ k ih =>
    intro net hs hk
    obtain ⟨net1, hstep, he1, hra1, hsf1, hsh1, hother1, hc1⟩ :=
      backProp.updateLayer_ok hs (show 1 ≤ k + 1 by omega) hk
    rw [Nat.add_sub_cancel] at hother1 hc1
    obtain ⟨net', hfold, he, hra, hsf, hsh, hframe, hc⟩ :=
      ih net1 (wellShaped_of_shape_eq hsh1 hs) (by omega)
    refine ⟨net', ?_, he.trans he1, hra.trans hra1, hsf.trans hsf1, hsh.trans hsh1, ?_, ?_⟩
    · rw [List.iota_succ, List.foldlM_cons, hstep]
      exact hfold
    · intro L hL
      rw [hframe L (by omega), hother1 L (by omega)]
    · intro L n hLk
      by_cases hLeq : L = k
      · subst hLeq
        rw [neuronAt_congr (hframe L (Nat.le_refl L)), hc1 n]
      · have hLlt : L < k := by omega
        rw [hc L n hLlt, neuronAt_congr (hother1 L hLeq)]
        have hg : (fun j => net1.gradient (L + 1) j) = (fun j => net.gradient (L + 1) j) := by
          funext j
          by_cases hLk1 : L + 1 = k
          · rw [hLk1]
            exact (gradient_map_updatedUpTo hc1 j).1
          · exact gradient_congr (hother1 (L + 1) hLk1) j
        rw [hg]

theorem backProp_chain (m : Libm α) {topology : List Nat} {net : Net α}
    (hs : WellShaped topology net) (h2 : 2 ≤ topology.length) {targetVals : List α}
    (hlen : topology.getD (topology.length - 1) 0 ≤ targetVals.length) :
    ∃ net2 net3 net', net.backProp m targetVals = .ok net' ∧
      WellShaped topology net2 ∧ WellShaped topology net3 ∧ WellShaped topology net' ∧
      net'.m_error = m.sqrt (sumUpTo (topology.getD (topology.length - 1) 0)
        (fun n => (targetVals.getD n 0 - net.outputVal (topology.length - 1) n)
          * (targetVals.getD n 0 - net.outputVal (topology.length - 1) n))
        / ((topology.getD (topology.length - 1) 0 : Nat) : α)) ∧
      net'.m_recentAverageError =
        (net.m_recentAverageError * net.m_recentAverageSmoothingFactor + net'.m_error)
          / (net.m_recentAverageSmoothingFactor + 1) ∧
      (∀ L, L ≠ topology.length - 1 → net2.m_layers[L]? = net.m_layers[L]?) ∧
      (∀ n x, net.neuronAt (topology.length - 1) n = some x →
        net2.neuronAt (topology.length - 1) n =
          some (if n < topology.getD (topology.length - 1) 0
            then x.calcOutputGradients (targetVals.getD n 0) else x)) ∧
      (∀ L, (L = 0 ∨ topology.length - 2 < L) → net3.m_layers[L]? = net2.m_layers[L]?) ∧
      (∀ L n x, 1 ≤ L → L ≤ topology.length - 2 → net2.neuronAt L n = some x →
        net3.neuronAt L n = some (x.setGradient (hiddenVal topology net2 net3 L n))) ∧
      (∀ L, topology.length - 1 ≤ L → net'.m_layers[L]? = net3.m_layers[L]?) ∧
      (∀ L n, L < topology.length - 1 → net'.neuronAt L n = (net3.neuronAt L n).map
        (updatedUpTo (topology.getD (L + 1) 0) (fun j => net3.gradient (L + 1) j))) := by
  obtain ⟨outputLayer, net1, net2, hlast, hr1, hr2, he2, hra2, hsf2, hsh2, hother2, hc2⟩ :=
    backProp.output_ok m hs (show 0 < topology.length by omega) hlen
  have hs2 : WellShaped topology net2 := wellShaped_of_shape_eq hsh2 hs
  obtain ⟨net3, hr3, he3, hra3, hsf3, hsh3, hframe3, hc3⟩ :=
    backProp.hidden_from (topology.length - 2) net2 hs2 (by omega)
  have hs3 : WellShaped topology net3 := wellShaped_of_shape_eq hsh3 hs2
  obtain ⟨net', hr4, he4, hra4, hsf4, hsh4, hframe4, hc4⟩ :=
    backProp.update_from (topology.length - 1) net3 hs3 (by omega)
  have hs4 : WellShaped topology net' := wellShaped_of_shape_eq hsh4 hs3
  refine ⟨net2, net3, net', ?_, hs2, hs3, hs4, ?_, ?_, hother2, hc2, hframe3, hc3, hframe4,
    hc4⟩
  · unfold Net.backProp
    simp only [hlast, hr1, hr2, ok_bind]
    have hge : ¬ net2.m_layers.length < 2 := by rw [hs2.length_eq]; omega
    unfold Net.backProp.hiddenGradients
    simp only [hge, if_false]
    rw [hs2.length_eq, hr3, ok_bind]
    unfold Net.backProp.updateWeights
    rw [hs3.length_eq]
    exact hr4
  · rw [he4, he3, he2]
  · rw [hra4, hra3, hra2, he4, he3]

theorem hiddenVal_congr_grad (topology : List Nat) (netW : Net α) {netG netG' : Net α}
    {L : Nat} (h : ∀ k, netG'.gradient (L + 1) k = netG.gradient (L + 1) k) (n : Nat) :
    hiddenVal topology netW netG' L n = hiddenVal topology netW netG L n := by
  unfold hiddenVal
  congr 2
  funext k
  rw [h k]

theorem outputVal_of_fixed {net net' : Net α}
    (h : net'.m_layers.map (List.map Neuron.fixed) = net.m_layers.map (List.map Neuron.fixed))
    (L n : Nat) : net'.outputVal L n = net.outputVal L n := by
  have e : ∀ (k : Net α), k.outputVal L n
      = (((((k.m_layers.map (List.map Neuron.fixed))[L]?).bind (fun l => l[n]?)).map
          (fun t => t.1)).getD 0) := by
    intro k
    simp only [Net.outputVal, Net.neuronAt, List.getElem?_map]
    cases k.m_layers[L]? with
    | none => rfl
    | some l =>
      simp only [Option.map_some', Option.some_bind, List.getElem?_map]
      cases l[n]? with
      | none => rfl
      | some x => rfl
  rw [e, e, h]

theorem backProp_ok (m : Libm α) {topology : List Nat} {net : Net α}
    (hs : WellShaped topology net) (h2 : 2 ≤ topology.length) {targetVals : List α}
    (hlen : topology.getD (topology.length - 1) 0 ≤ targetVals.length) :
    ∃ net', net.backProp m targetVals = .ok net' ∧ WellShaped topology net' ∧
      net'.m_error = m.sqrt (sumUpTo (topology.getD (topology.length - 1) 0)
        (fun n => (targetVals.getD n 0 - net.outputVal (topology.length - 1) n)
          * (targetVals.getD n 0 - net.outputVal (topology.length - 1) n))
        / ((topology.getD (topology.length - 1) 0 : Nat) : α)) ∧
      net'.m_recentAverageError =
        (net.m_recentAverageError * net.m_recentAverageSmoothingFactor + net'.m_error)
          / (net.m_recentAverageSmoothingFactor + 1) ∧
      (∀ L n, net'.outputVal L n = net.outputVal L n) ∧
      (∀ n, n < topology.getD (topology.length - 1) 0 →
        net'.gradient (topology.length - 1) n =
          (targetVals.getD n 0 - net.outputVal (topology.length - 1) n)
            * Neuron.transferFunctionDerivative (net.outputVal (topology.length - 1) n)) ∧
      net'.gradient (topology.length - 1) (topology.getD (topology.length - 1) 0) =
        net.gradient (topology.length - 1) (topology.getD (topology.length - 1) 0) ∧
      (∀ n, net'.gradient 0 n = net.gradient 0 n) ∧
      (∀ L n, 1 ≤ L → L + 1 < topology.length → n < topology.getD L 0 + 1 →
        net'.gradient L n = hiddenVal topology net net' L n) ∧
      (∀ L p j, L + 1 < topology.length → p < topology.getD L 0 + 1 →
        j < topology.getD (L + 1) 0 →
        net'.deltaWeight L p j =
          Neuron.eta * net.outputVal L p * net'.gradient (L + 1) j
            + Neuron.alpha * net.deltaWeight L p j ∧
        net'.weight L p j = net.weight L p j + net'.deltaWeight L p j) := by
  obtain ⟨net2, net3, net', hok, hs2, hs3, hs4, he, hra, hother2, hc2, hframe3, hc3, hframe4,
    hc4⟩ := backProp_chain m hs h2 hlen
  have hgrad43 : ∀ L n, net'.gradient L n = net3.gradient L n := by
    intro L n
    by_cases hL : L < topology.length - 1
    · exact (gradient_map_updatedUpTo (hc4 L · hL) n).1
    · exact gradient_congr (hframe4 L (by omega)) n
  have hlast32 : net3.m_layers[topology.length - 1]? = net2.m_layers[topology.length - 1]? :=
    hframe3 _ (Or.inr (by omega))
  have hout := outputVal_of_fixed (backProp_keeps m hok).1
  refine ⟨net', hok, hs4, he, hra, hout, ?_, ?_, ?_, ?_, ?_⟩
  · intro n hn
    obtain ⟨x, hx, _, _⟩ := hs.neuronAt (show topology.length - 1 < topology.length by omega)
      (show n < topology.getD (topology.length - 1) 0 + 1 by omega)
    have h3 : net3.neuronAt (topology.length - 1) n
        = some (x.calcOutputGradients (targetVals.getD n 0)) := by
      rw [neuronAt_congr hlast32, hc2 n x hx, if_pos hn]
    rw [hgrad43, gradient_of_neuronAt h3, outputVal_of_neuronAt hx]
    rfl
  · obtain ⟨x, hx, _, _⟩ := hs.neuronAt (show topology.length - 1 < topology.length by omega)
      (show topology.getD (topology.length - 1) 0 < topology.getD (topology.length - 1) 0 + 1
        by omega)
    have h3 : net3.neuronAt (topology.length - 1) (topology.getD (topology.length - 1) 0)
        = some x := by
      rw [neuronAt_congr hlast32, hc2 _ x hx, if_neg (Nat.lt_irrefl _)]
    rw [hgrad43, gradient_of_neuronAt h3, gradient_of_neuronAt hx]
  · intro n
    rw [hgrad43, gradient_congr (hframe3 0 (Or.inl rfl)), gradient_congr (hother2 0 (by omega))]
  · intro L n h1 hL hn
    obtain ⟨x, hx, _, _⟩ := hs.neuronAt (show L < topology.length by omega) hn
    have hx2 : net2.neuronAt L n = some x := by
      rw [neuronAt_congr (hother2 L (by omega))]
      exact hx
    have h3 := hc3 L n x h1 (by omega) hx2
    rw [hgrad43, gradient_of_neuronAt h3]
    show hiddenVal topology net2 net3 L n = _
    rw [hiddenVal_congr_W topology net3 (hother2 L (by omega)),
      hiddenVal_congr_grad topology net (fun k => hgrad43 (L + 1) k)]
  · intro L p j hL hp hj
    obtain ⟨x, hx, _, hw⟩ := hs.neuronAt (show L < topology.length by omega) hp
    have hx2 : net2.neuronAt L p = some x := by
      rw [neuronAt_congr (hother2 L (by omega))]
      exact hx
    have hx3 : ∃ x3, net3.neuronAt L p = some x3 ∧ x3.m_outputWeights = x.m_outputWeights ∧
        x3.m_outputVal = x.m_outputVal := by
      by_cases hL0 : L = 0
      · refine ⟨x, ?_, rfl, rfl⟩
        rw [neuronAt_congr (hframe3 L (Or.inl hL0))]
        exact hx2
      · exact ⟨_, hc3 L p x (by omega) (by omega) hx2, rfl, rfl⟩
    obtain ⟨x3, hx3, hws, hxo⟩ := hx3
    have hjw : j < x.m_outputWeights.length := by omega
    have hx' := hc4 L p (show L < topology.length - 1 by omega)
    rw [hx3, Option.map_some'] at hx'
    have hcon : (updatedUpTo (topology.getD (L + 1) 0) (fun j => net3.gradient (L + 1) j)
        x3).m_outputWeights[j]? = some ((x.m_outputWeights[j]).updated x.m_outputVal
          (net3.gradient (L + 1) j)) := by
      unfold updatedUpTo Neuron.setOutputWeights
      simp only
      rw [List.getElem?_mapIdx, hws, List.getElem?_eq_getElem hjw, Option.map_some',
        if_pos hj, hxo]
    have hd : net'.deltaWeight L p j =
        Neuron.eta * net.outputVal L p * net'.gradient (L + 1) j
          + Neuron.alpha * net.deltaWeight L p j := by
      rw [deltaWeight_of_connection hx' hcon, hgrad43, outputVal_of_neuronAt hx,
        deltaWeight_of_connection hx (List.getElem?_eq_getElem hjw)]
      rfl
    refine ⟨hd, ?_⟩
    rw [hd, weight_of_connection hx' hcon, hgrad43, outputVal_of_neuronAt hx,
      weight_of_connection hx (List.getElem?_eq_getElem hjw),
      deltaWeight_of_connection hx (List.getElem?_eq_getElem hjw)]
    rfl

theorem backProp_short (m : Libm α) (net : Net α) (targetVals : List α)
    (h : net.m_layers.length < 2) (net' : Net α) : net.backProp m targetVals ≠ .ok net' := by
  intro hok
  unfold Net.backProp at hok
  split at hok
  · cases hok
  · rename_i outputLayer hlast
    cases h1 : Net.backProp.rmsError m net outputLayer targetVals with
    | error e => rw [h1] at hok; cases hok
    | ok net1 =>
      rw [h1, ok_bind] at hok
      obtain ⟨hl1, _⟩ := backProp.rmsError_keeps m h1
      cases h2 : Net.backProp.outputGradients net1 outputLayer targetVals with
      | error e => rw [h2] at hok; cases hok
      | ok net2 =>
        rw [h2, ok_bind] at hok
        obtain ⟨hl2, _⟩ := backProp.outputGradients_keeps (by rw [hl1]; exact hlast) h2
        have hlen2 : net2.m_layers.length < 2 := by
          have := congrArg List.length hl2
          rw [List.length_map, List.length_map, hl1] at this
          omega
        unfold Net.backProp.hiddenGradients at hok
        rw [if_pos hlen2] at hok
        cases hok

/-! ## Frames -/

theorem neuronAt_map_shape (net : Net α) (L n : Nat) :
    (net.neuronAt L n).map Neuron.shape = (net.shape[L]?).bind (fun l => l[n]?) := by
  simp only [Net.neuronAt, Net.shape, List.getElem?_map]
  cases net.m_layers[L]? <;> simp

theorem neuronAt_none_of_shape {net net' : Net α} (hsh : net'.shape = net.shape) {L n : Nat}
    (h : net.neuronAt L n = none) : net'.neuronAt L n = none := by
  have h1 : (net'.neuronAt L n).map Neuron.shape = (net.neuronAt L n).map Neuron.shape := by
    rw [neuronAt_map_shape, neuronAt_map_shape, hsh]
  rw [h] at h1
  cases h2 : net'.neuronAt L n with
  | none => rfl
  | some y => rw [h2] at h1; cases h1

theorem WellShaped.connectionAt_none {topology : List Nat} {net : Net α}
    (hs : WellShaped topology net) {L n c : Nat}
    (h : ¬ (L + 1 < topology.length ∧ c < topology.getD (L + 1) 0)) :
    net.connectionAt L n c = none := by
  unfold Net.connectionAt
  cases hx : net.neuronAt L n with
  | none => rfl
  | some x =>
    rw [Option.some_bind]
    have hL : L < topology.length := by
      by_contra hc
      have hnone : net.m_layers[L]? = none :=
        List.getElem?_eq_none (by rw [hs.length_eq]; omega)
      simp [Net.neuronAt, hnone] at hx
    obtain ⟨layer, hl, hlen, hn⟩ := hs.layer hL
    rw [neuronAt_of_layer hl] at hx
    obtain ⟨x', hx', _, hw⟩ := hn n (by have := lt_length_of_getElem? hx; omega)
    rw [hx] at hx'
    cases hx'
    apply List.getElem?_eq_none
    rw [hw]
    by_cases hL1 : L + 1 < topology.length
    · have : ¬ c < topology.getD (L + 1) 0 := fun hc => h ⟨hL1, hc⟩
      omega
    · rw [List.getD_eq_getElem?_getD, List.getElem?_eq_none (by omega)]
      exact Nat.zero_le c

theorem run_rightSized_ok (m : Libm α) {topology : List Nat} (h2 : 2 ≤ topology.length) :
    ∀ (calls : List (Call α)) (net : Net α), WellShaped topology net →
      (∀ c, c ∈ calls → c.RightSized topology) →
      ∃ net', net.run m calls = .ok net' ∧ WellShaped topology net' := by
  intro calls
  induction calls with
  | nil => intro net hs _; exact ⟨net, rfl, hs⟩
  | cons c calls ih =>
    intro net hs hall
    have hc := hall c (List.mem_cons_self c calls)
    have hstep : ∃ net1, net.call m c = .ok net1 ∧ WellShaped topology net1 := by
      cases c with
      | feedForward inputVals =>
        have hlen : topology[0]? = some inputVals.length := by
          have h : inputVals.length = topology.getD 0 0 := hc
          rw [h, List.getD_eq_getElem?_getD, List.getElem?_eq_getElem (by omega)]
          rfl
        obtain ⟨net1, hok, _, _, _, hsh, _⟩ := feedForward_ok m hs hlen
        exact ⟨net1, hok, wellShaped_of_shape_eq hsh hs⟩
      | backProp targetVals =>
        have hlen : targetVals.length = topology.getD (topology.length - 1) 0 := hc
        obtain ⟨net1, hok, hs1, _⟩ := backProp_ok m hs h2 (Nat.le_of_eq hlen.symm)
        exact ⟨net1, hok, hs1⟩
    obtain ⟨net1, hok1, hs1⟩ := hstep
    obtain ⟨net', hrun, hs'⟩ := ih net1 hs1 (fun c' hc' => hall c' (List.mem_cons_of_mem c hc'))
    refine ⟨net', ?_, hs'⟩
    unfold Net.run at hrun ⊢
    rw [List.foldlM_cons, hok1]
    exact hrun

/-! ## Repeating a forward pass -/

theorem sumUpTo_congr {n : Nat} {f g : Nat → α} (h : ∀ k, k < n → f k = g k) :
    sumUpTo n f = sumUpTo n g := by
  unfold sumUpTo
  induction n with
  | zero => rfl
  | succ n ih =>
    rw [List.range_succ, List.foldl_append, List.foldl_append,
      ih (fun k hk => h k (by omega))]
    simp only [List.foldl_cons, List.foldl_nil]
    rw [h n (Nat.lt_succ_self n)]

theorem layers_eq_of_neuronAt {net net' : Net α}
    (hlen : net'.m_layers.length = net.m_layers.length)
    (h : ∀ L n, net'.neuronAt L n = net.neuronAt L n) : net'.m_layers = net.m_layers := by
  apply List.ext_getElem?
  intro L
  by_cases hL : L < net.m_layers.length
  · have hL' : L < net'.m_layers.length := by omega
    rw [List.getElem?_eq_getElem hL, List.getElem?_eq_getElem hL']
    congr 1
    apply List.ext_getElem?
    intro n
    have := h L n
    rw [neuronAt_of_layer (List.getElem?_eq_getElem hL'),
      neuronAt_of_layer (List.getElem?_eq_getElem hL)] at this
    exact this
  · rw [List.getElem?_eq_none (by omega), List.getElem?_eq_none (by omega)]

theorem WellShaped.lt_of_neuronAt {topology : List Nat} {net : Net α}
    (hs : WellShaped topology net) {L n : Nat} {x : Neuron α}
    (hx : net.neuronAt L n = some x) : L < topology.length ∧ n < topology.getD L 0 + 1 := by
  have hL : L < topology.length := by
    by_contra hc
    have hnone : net.m_layers[L]? = none :=
      List.getElem?_eq_none (by rw [hs.length_eq]; omega)
    simp [Net.neuronAt, hnone] at hx
  obtain ⟨layer, hl, hlen, _⟩ := hs.layer hL
  rw [neuronAt_of_layer hl] at hx
  have := lt_length_of_getElem? hx
  exact ⟨hL, by omega⟩

theorem feedForward_twice (m : Libm α) {topology : List Nat} {net : Net α}
    (hs : WellShaped topology net) {inputVals : List α}
    (hlen : topology[0]? = some inputVals.length) :
    ∃ net', net.feedForward m inputVals = .ok net' ∧
      net'.feedForward m inputVals = .ok net' := by
  obtain ⟨net1, hok1, _, _, _, hsh1, _, hin1, hd1, _⟩ := feedForward_ok m hs hlen
  have hs1 : WellShaped topology net1 := wellShaped_of_shape_eq hsh1 hs
  obtain ⟨net2, hok2, he2, hra2, hsf2, hsh2, hc2, hin2, hd2, hb2⟩ := feedForward_ok m hs1 hlen
  have ht0 : topology.getD 0 0 = inputVals.length := by
    simp [List.getD_eq_getElem?_getD, hlen]
  have hout : ∀ L, L < topology.length → ∀ n, n < topology.getD L 0 + 1 →
      net2.outputVal L n = net1.outputVal L n := by
    intro L
    induction L with
    | zero =>
      intro hL n hn
      by_cases hn0 : n < topology.getD 0 0
      · have a := hin1 n (by omega)
        have b := hin2 n (by omega)
        rw [a] at b
        exact (Option.some.inj b).symm
      · have : n = topology.getD 0 0 := by omega
        rw [this]
        exact hb2 0 hL
    | succ L ih =>
      intro hL n hn
      by_cases hn0 : n < topology.getD (L + 1) 0
      · rw [hd2 (L + 1) n (by omega) hL hn0, hd1 (L + 1) n (by omega) hL hn0]
        unfold forwardVal
        rw [Nat.add_sub_cancel]
        congr 1
        apply sumUpTo_congr
        intro k hk
        rw [ih (by omega) k hk, ((frame_of_setOutputVal hsh2 hc2 L k).2 n).1]
      · have : n = topology.getD (L + 1) 0 := by omega
        rw [this]
        exact hb2 (L + 1) hL
  have hneuron : ∀ L n, net2.neuronAt L n = net1.neuronAt L n := by
    intro L n
    cases hx : net1.neuronAt L n with
    | none => exact neuronAt_none_of_shape hsh2 hx
    | some x =>
      obtain ⟨hL, hn⟩ := hs1.lt_of_neuronAt hx
      rw [hc2 L n x hx, hout L hL n hn, outputVal_of_neuronAt hx]
      rfl
  have hlayers : net2.m_layers = net1.m_layers :=
    layers_eq_of_neuronAt (by rw [← shape_length, ← shape_length, hsh2]) hneuron
  have heq : net2 = net1 := by
    cases net2
    cases net1
    simp only at hlayers he2 hra2 hsf2
    subst hlayers he2 hra2 hsf2
    rfl
  rw [heq] at hok2
  exact ⟨net1, hok1, hok2⟩

theorem connectionAt_ext {topology : List Nat} {net net' : Net α}
    (hs : WellShaped topology net) (hs' : WellShaped topology net')
    (hw : ∀ L p j, L + 1 < topology.length → p < topology.getD L 0 + 1 →
      j < topology.getD (L + 1) 0 →
      net'.weight L p j = net.weight L p j ∧ net'.deltaWeight L p j = net.deltaWeight L p j) :
    ∀ L p j, net'.connectionAt L p j = net.connectionAt L p j := by
  intro L p j
  by_cases h : L + 1 < topology.length ∧ j < topology.getD (L + 1) 0
  · by_cases hp : p < topology.getD L 0 + 1
    · obtain ⟨x, hx, _, hxl⟩ := hs.neuronAt (show L < topology.length by omega) hp
      obtain ⟨x', hx', _, hxl'⟩ := hs'.neuronAt (show L < topology.length by omega) hp
      have hk : x.m_outputWeights[j]? = some (x.m_outputWeights.getD j ⟨0, 0⟩) :=
        getElem?_eq_some_getD (by rw [hxl]; exact h.2) _
      have hk' : x'.m_outputWeights[j]? = some (x'.m_outputWeights.getD j ⟨0, 0⟩) :=
        getElem?_eq_some_getD (by rw [hxl']; exact h.2) _
      have heq := hw L p j h.1 hp h.2
      rw [weight_of_connection hx' hk', weight_of_connection hx hk,
        deltaWeight_of_connection hx' hk', deltaWeight_of_connection hx hk] at heq
      unfold Net.connectionAt
      rw [hx, hx', Option.some_bind, Option.some_bind, hk, hk']
      generalize x.m_outputWeights.getD j ⟨0, 0⟩ = k at heq
      generalize x'.m_outputWeights.getD j ⟨0, 0⟩ = k' at heq
      cases k
      cases k'
      simp only at heq
      rw [heq.1, heq.2]
    · have hn : ∀ {k : Net α}, WellShaped topology k → k.neuronAt L p = none := by
        intro k hk
        cases hx : k.neuronAt L p with
        | none => rfl
        | some x => exact absurd (hk.lt_of_neuronAt hx).2 hp
      unfold Net.connectionAt
      rw [hn hs, hn hs']
  · rw [hs'.connectionAt_none h, hs.connectionAt_none h]

/-! ## Arithmetic with laws

From here on the numbers form a field `F`; the real numbers are one. -/

theorem sumUpTo_zero {F : Type} [Field F] (n : Nat) (f : Nat → F) (h : ∀ k, k < n → f k = 0) :
    sumUpTo n f = 0 := by
  rw [sumUpTo_eq_sum]
  exact Finset.sum_eq_zero (fun k hk => h k (Finset.mem_range.mp hk))

theorem backProp_gradients_zero {F : Type} [Field F] {topology : List Nat}
    (G : Nat → Nat → F) (W : Nat → Nat → Nat → F) (D : Nat → Nat → F)
    (hlast : ∀ n, n < topology.getD (topology.length - 1) 0 → G (topology.length - 1) n = 0)
    (hhid : ∀ L n, 1 ≤ L → L + 1 < topology.length → n < topology.getD L 0 + 1 →
      G L n = sumUpTo (topology.getD (L + 1) 0) (fun k => W L n k * G (L + 1) k) * D L n) :
    ∀ k L, L + k + 1 = topology.length → 1 ≤ L →
      ∀ n, n < topology.getD L 0 + (if k = 0 then 0 else 1) → G L n = 0 := by
  intro k
  induction k with
  | zero =>
    intro L hL _ n hn
    have : L = topology.length - 1 := by omega
    subst this
    exact hlast n (by simpa using hn)
  | succ k ih =>
    intro L hL h1 n hn
    rw [hhid L n h1 (by omega) (by simpa using hn)]
    rw [sumUpTo_zero, zero_mul]
    intro j hj
    rw [ih (L + 1) (by omega) (by omega) j (by split <;> omega), mul_zero]

/-! ## The scenario of the specification, over the reals -/

theorem tanh_half_eq : Real.tanh (1 / 2) = (Real.exp 1 - 1) / (Real.exp 1 + 1) := by
  have hs : 0 < Real.exp (1 / 2) := Real.exp_pos _
  have he : Real.exp 1 = Real.exp (1 / 2) * Real.exp (1 / 2) := by
    rw [← Real.exp_add]
    norm_num
  rw [Real.tanh_eq_sinh_div_cosh, Real.sinh_eq, Real.cosh_eq, Real.exp_neg, he]
  field_simp

theorem tanh_half_bounds :
    (0.462117157 : ℝ) < Real.tanh (1 / 2) ∧ Real.tanh (1 / 2) < 0.462117158 := by
  have h1 := Real.exp_one_gt_d9
  have h2 := Real.exp_one_lt_d9
  have hpos : (0 : ℝ) < Real.exp 1 + 1 := by linarith
  rw [tanh_half_eq, lt_div_iff₀ hpos, div_lt_iff₀ hpos]
  constructor <;> norm_num at h1 h2 ⊢ <;> linarith

theorem scenario_weight_bounds (t : ℝ) (h1 : 0.462117157 < t) (h2 : t < 0.462117158) :
    (0.56345251 : ℝ) < 0.5 + 0.15 * ((1 - t) * (1 - t * t)) ∧
      0.5 + 0.15 * ((1 - t) * (1 - t * t)) < (0.56345252 : ℝ) := by
  have ht : t * t < 0.462117158 * 0.462117158 :=
    mul_self_lt_mul_self (by linarith) h2
  have ht' : 0.462117157 * 0.462117157 < t * t :=
    mul_self_lt_mul_self (by norm_num) h1
  have ha : (1 - 0.462117158) * (1 - 0.462117158 * 0.462117158) < (1 - t) * (1 - t * t) :=
    mul_lt_mul'' (by linarith) (by linarith) (by norm_num) (by norm_num)
  have hb : (1 - t) * (1 - t * t) < (1 - 0.462117157) * (1 - 0.462117157 * 0.462117157) :=
    mul_lt_mul'' (by linarith) (by linarith) (by linarith) (by nlinarith)
  constructor
  · have : (0.56345251 : ℝ)
        < 0.5 + 0.15 * ((1 - 0.462117158) * (1 - 0.462117158 * 0.462117158)) := by norm_num
    linarith
  · have : 0.5 + 0.15 * ((1 - 0.462117157) * (1 - 0.462117157 * 0.462117157))
        < (0.56345252 : ℝ) := by norm_num
    linarith

/-- The scenario of the specification, over the reals: a net of topology `[1, 1]` whose
input neuron has the connection weight 0.5, whose bias neuron has output 1 and the
connection weight 0, both `deltaWeight`s 0; `feedForward([1.0])`, then `backProp([1.0])`. -/
theorem scenario_run (sqrt : ℝ → ℝ) (net : Net ℝ) (hs : WellShaped [1, 1] net)
    (hw0 : net.weight 0 0 0 = 0.5) (hw1 : net.weight 0 1 0 = 0)
    (hd0 : net.deltaWeight 0 0 0 = 0) (hd1 : net.deltaWeight 0 1 0 = 0)
    (hb : net.outputVal 0 1 = 1) :
    ∃ net1 net2, net.feedForward ⟨Real.tanh, sqrt⟩ [1] = .ok net1 ∧
      net1.backProp ⟨Real.tanh, sqrt⟩ [1] = .ok net2 ∧
      net1.outputVal 1 0 = Real.tanh (1 / 2) ∧
      net2.gradient 1 0
        = (1 - Real.tanh (1 / 2)) * (1 - Real.tanh (1 / 2) * Real.tanh (1 / 2)) ∧
      net2.deltaWeight 0 0 0 = 0.15 * net2.gradient 1 0 ∧
      net2.deltaWeight 0 1 0 = 0.15 * net2.gradient 1 0 ∧
      net2.weight 0 1 0 = 0.15 * net2.gradient 1 0 ∧
      net2.weight 0 0 0 = 0.5 + 0.15 * net2.gradient 1 0 := by
  obtain ⟨net1, hok1, _, _, _, hsh, hn, hin, hfw, hbias⟩ :=
    feedForward_ok (⟨Real.tanh, sqrt⟩ : Libm ℝ) hs (show [1, 1][0]? = some [(1 : ℝ)].length from rfl)
  have hs1 : WellShaped [1, 1] net1 := wellShaped_of_shape_eq hsh hs
  have hcon : ∀ L n c, net1.connectionAt L n c = net.connectionAt L n c := by
    intro L n c
    unfold Net.connectionAt
    cases hx : net.neuronAt L n with
    | none => rw [neuronAt_none_of_shape hsh hx]
    | some x => rw [hn L n x hx]; rfl
  have hw0' : net1.weight 0 0 0 = 0.5 := by unfold Net.weight; rw [hcon]; exact hw0
  have hw1' : net1.weight 0 1 0 = 0 := by unfold Net.weight; rw [hcon]; exact hw1
  have hd0' : net1.deltaWeight 0 0 0 = 0 := by unfold Net.deltaWeight; rw [hcon]; exact hd0
  have hd1' : net1.deltaWeight 0 1 0 = 0 := by unfold Net.deltaWeight; rw [hcon]; exact hd1
  have ho0 : net1.outputVal 0 0 = 1 := by
    have := hin 0 (by decide)
    simpa using this.symm
  have ho1 : net1.outputVal 0 1 = 1 := by
    have := hbias 0 (by decide)
    simpa using this.trans hb
  have hout : net1.outputVal 1 0 = Real.tanh (1 / 2) := by
    rw [hfw 1 0 (by decide) (by decide) (by decide)]
    unfold forwardVal sumUpTo
    simp only [List.getD_cons_zero, Nat.sub_self, List.range_succ, List.range_zero,
      List.nil_append, List.cons_append, List.foldl_cons, List.foldl_nil, Nat.reduceAdd]
    rw [ho0, ho1, hw0', hw1']
    norm_num
  obtain ⟨net2, hok2, _, _, _, _, hg, _, _, _, hW⟩ :=
    backProp_ok (⟨Real.tanh, sqrt⟩ : Libm ℝ) hs1 (show 2 ≤ [1, 1].length by decide)
      (show [1, 1].getD ([1, 1].length - 1) 0 ≤ [(1 : ℝ)].length by decide)
  have hg0 : net2.gradient 1 0
      = (1 - Real.tanh (1 / 2)) * (1 - Real.tanh (1 / 2) * Real.tanh (1 / 2)) := by
    have := hg 0 (by decide)
    simp only [List.length_cons, List.length_nil, Nat.reduceAdd, Nat.add_one_sub_one,
      List.getD_cons_zero] at this
    rw [this, hout]
    rfl
  have hW0 := hW 0 0 0 (by decide) (by decide) (by decide)
  have hW1 := hW 0 1 0 (by decide) (by decide) (by decide)
  simp only [Nat.reduceAdd, ho0, ho1, hd0', hd1', hw0', hw1', Neuron.eta, Neuron.alpha] at hW0 hW1
  refine ⟨net1, net2, hok1, hok2, hout, hg0, ?_, ?_, ?_, ?_⟩
  · rw [hW0.1]; ring
  · rw [hW1.1]; ring
  · rw [hW1.2, hW1.1]; ring
  · rw [hW0.2, hW0.1]; ring

/-! ## The claims -/

/-- C1: on a well-shaped net, `Net::feedForward` with an input vector of length
`topology[0]` completes; afterwards neuron `i` of layer 0 holds `inputVals[i]`, and every
neuron `j` of a layer `L ≥ 1` other than its bias neuron holds `tanh` of the sum, over all
`topology[L-1] + 1` neurons `k` of layer `L - 1` (the bias neuron is the last of them), of
the output of `k` after this pass times the weight of the connection from `k` to `j`.
The weights are those the net had before the call, and the net keeps its shape. -/
theorem feedForward_outputs (m : Libm α) (topology : List Nat) (net : Net α)
    (inputVals : List α) (hs : WellShaped topology net)
    (hlen : topology[0]? = some inputVals.length) :
    ∃ net', net.feedForward m inputVals = .ok net' ∧
      WellShaped topology net' ∧
      (∀ L k j, net'.weight L k j = net.weight L k j) ∧
      (∀ i, i < inputVals.length → inputVals[i]? = some (net'.outputVal 0 i)) ∧
      (∀ L j, 1 ≤ L → L < topology.length → j < topology.getD L 0 →
        net'.outputVal L j =
          m.tanh (sumUpTo (topology.getD (L - 1) 0 + 1)
            (fun k => net'.outputVal (L - 1) k * net'.weight (L - 1) k j))) := by
  obtain ⟨net', hok, _, _, _, hsh, hc, hin, hd, _⟩ := feedForward_ok m hs hlen
  exact ⟨net', hok, wellShaped_of_shape_eq hsh hs,
    fun L k j => ((frame_of_setOutputVal hsh hc L k).2 j).1, hin, hd⟩

/-- C1 on the scenario net, over the rationals. -/
theorem feedForward_outputs_witness :
    WellShaped [1, 1] (scenarioNet : Net ℚ) ∧
      ([1, 1] : List Nat)[0]? = some ([1] : List ℚ).length ∧
      ∃ net', (scenarioNet : Net ℚ).feedForward sampleLibm [1] = .ok net' ∧
        net'.outputVal 1 0 = sampleLibm.tanh (sumUpTo 2
          (fun k => net'.outputVal 0 k * net'.weight 0 k 0)) := by
  refine ⟨by decide, rfl, ?_⟩
  obtain ⟨net', hok, _, _, _, hd⟩ :=
    feedForward_outputs sampleLibm [1, 1] scenarioNet [1] (by decide) rfl
  exact ⟨net', hok, hd 1 0 (by decide) (by decide) (by decide)⟩

/-- C2: on a well-shaped net and a target vector of the right length, whenever
`Net::backProp` completes (and it does as soon as the net has two layers), every connection
from a neuron `p` of layer `L - 1` (bias neuron included) to a neuron `j` of layer `L ≥ 1`
other than its bias neuron has
`deltaWeight_new = 0.15 * output(p) * gradient_new(j) + 0.5 * deltaWeight_old` and
`weight_new = weight_old + deltaWeight_new`. Both are stated against the values before the
call, so each connection has been updated once. -/
theorem backProp_weights (m : Libm α) (topology : List Nat) (net : Net α)
    (targetVals : List α) (hs : WellShaped topology net)
    (hlen : targetVals.length = topology.getD (topology.length - 1) 0) :
    (2 ≤ topology.length → ∃ net', net.backProp m targetVals = .ok net') ∧
    ∀ net', net.backProp m targetVals = .ok net' →
      ∀ L p j, 1 ≤ L → L < topology.length → p < topology.getD (L - 1) 0 + 1 →
        j < topology.getD L 0 →
        net'.deltaWeight (L - 1) p j =
          0.15 * net.outputVal (L - 1) p * net'.gradient L j
            + 0.5 * net.deltaWeight (L - 1) p j ∧
        net'.weight (L - 1) p j = net.weight (L - 1) p j + net'.deltaWeight (L - 1) p j := by
  constructor
  · intro h2
    obtain ⟨net', hok, _⟩ := backProp_ok m hs h2 (Nat.le_of_eq hlen.symm)
    exact ⟨net', hok⟩
  · intro net' hok L p j h1 hL hp hj
    have h2 : 2 ≤ topology.length := by
      by_contra hc
      exact backProp_short m net targetVals (by rw [hs.length_eq]; omega) net' hok
    obtain ⟨net'', hok', _, _, _, _, _, _, _, _, hW⟩ :=
      backProp_ok m hs h2 (Nat.le_of_eq hlen.symm)
    rw [hok] at hok'
    cases hok'
    have hLL : L - 1 + 1 = L := by omega
    exact hW (L - 1) p j (by omega) hp (by rw [hLL]; exact hj) |>.imp
      (fun h => by rw [hLL] at h; exact h) id

/-- C2 on the scenario net with the target 1. -/
theorem backProp_weights_witness :
    WellShaped [1, 1] (scenarioNet : Net ℚ) ∧
      ∃ net', (scenarioNet : Net ℚ).backProp sampleLibm [1] = .ok net' ∧
        net'.deltaWeight 0 1 0 =
          0.15 * (scenarioNet : Net ℚ).outputVal 0 1 * net'.gradient 1 0
            + 0.5 * (scenarioNet : Net ℚ).deltaWeight 0 1 0 := by
  have h := backProp_weights sampleLibm [1, 1] (scenarioNet : Net ℚ) [1] (by decide) rfl
  obtain ⟨net', hok⟩ := h.1 (by decide)
  exact ⟨by decide, net', hok,
    (h.2 net' hok 1 1 0 (by decide) (by decide) (by decide) (by decide)).1⟩

/-- C3: on a well-shaped net of at least three layers and a target vector of the right
length, `Net::backProp` completes, and afterwards every neuron `n` (bias neuron included)
of every hidden layer `L` has as gradient the sum, over the neurons `k` of layer `L + 1`
other than its bias neuron, of the weight of the connection from `n` to `k` as it was before
the call times the new gradient of `k`, multiplied by `1 - output(n) * output(n)`. -/
theorem backProp_hidden_gradients (m : Libm α) (topology : List Nat) (net : Net α)
    (targetVals : List α) (hs : WellShaped topology net) (h3 : 3 ≤ topology.length)
    (hlen : targetVals.length = topology.getD (topology.length - 1) 0) :
    ∃ net', net.backProp m targetVals = .ok net' ∧
      ∀ L n, 1 ≤ L → L + 1 < topology.length → n < topology.getD L 0 + 1 →
        net'.gradient L n =
          sumUpTo (topology.getD (L + 1) 0)
              (fun k => net.weight L n k * net'.gradient (L + 1) k)
            * (1 - net.outputVal L n * net.outputVal L n) := by
  obtain ⟨net', hok, _, _, _, _, _, _, _, hG, _⟩ :=
    backProp_ok m hs (by omega) (Nat.le_of_eq hlen.symm)
  exact ⟨net', hok, hG⟩

/-- C3 on the net built for the topology `[2, 2, 1]`. -/
theorem backProp_hidden_gradients_witness :
    ∃ net net', Net.new sampleHost [2, 2, 1] = .ok net ∧
      net.backProp sampleLibm [1] = .ok net' ∧
      net'.gradient 1 2 =
        sumUpTo 1 (fun k => net.weight 1 2 k * net'.gradient 2 k)
          * (1 - net.outputVal 1 2 * net.outputVal 1 2) := by
  obtain ⟨net', hok, h⟩ := backProp_hidden_gradients sampleLibm [2, 2, 1] _ [1]
    (Net.new_wellShaped sampleHost [2, 2, 1] _ rfl) (by decide) rfl
  exact ⟨_, net', rfl, hok, h 1 2 (by decide) (by decide) (by decide)⟩

/-- C4: on a well-shaped net and a target vector of the right length, whenever
`Net::backProp` completes (and it does as soon as the net has two layers), every neuron `n`
of the last layer other than its bias neuron has the gradient
`(targetVals[n] - output(n)) * (1 - output(n) * output(n))`. -/
theorem backProp_output_gradients (m : Libm α) (topology : List Nat) (net : Net α)
    (targetVals : List α) (hs : WellShaped topology net)
    (hlen : targetVals.length = topology.getD (topology.length - 1) 0) :
    (2 ≤ topology.length → ∃ net', net.backProp m targetVals = .ok net') ∧
    ∀ net', net.backProp m targetVals = .ok net' →
      ∀ n, n < topology.getD (topology.length - 1) 0 →
        net'.gradient (topology.length - 1) n =
          (targetVals.getD n 0 - net.outputVal (topology.length - 1) n)
            * (1 - net.outputVal (topology.length - 1) n
                * net.outputVal (topology.length - 1) n) := by
  constructor
  · intro h2
    obtain ⟨net', hok, _⟩ := backProp_ok m hs h2 (Nat.le_of_eq hlen.symm)
    exact ⟨net', hok⟩
  · intro net' hok
    have h2 : 2 ≤ topology.length := by
      by_contra hc
      exact backProp_short m net targetVals (by rw [hs.length_eq]; omega) net' hok
    obtain ⟨net'', hok', _, _, _, _, hG, _⟩ := backProp_ok m hs h2 (Nat.le_of_eq hlen.symm)
    rw [hok] at hok'
    cases hok'
    exact hG

/-- C4 on the scenario net with the target 1. -/
theorem backProp_output_gradients_witness :
    WellShaped [1, 1] (scenarioNet : Net ℚ) ∧
      ∃ net', (scenarioNet : Net ℚ).backProp sampleLibm [1] = .ok net' ∧
        net'.gradient 1 0 =
          (1 - (scenarioNet : Net ℚ).outputVal 1 0)
            * (1 - (scenarioNet : Net ℚ).outputVal 1 0 * (scenarioNet : Net ℚ).outputVal 1 0) := by
  have h := backProp_output_gradients sampleLibm [1, 1] (scenarioNet : Net ℚ) [1]
    (by decide) rfl
  obtain ⟨net', hok⟩ := h.1 (by decide)
  exact ⟨by decide, net', hok, h.2 net' hok 0 (by decide)⟩

/-- C5: on a well-shaped net and a target vector of the right length, whenever
`Net::backProp` completes (and it does as soon as the net has two layers), `m_error` is the
square root of the sum, over the neurons `n` of the last layer other than its bias neuron,
of the square of `targetVals[n] - output(n)`, divided by the number of these neurons; and
`m_recentAverageError` is
`(old m_recentAverageError * smoothing factor + new m_error) / (smoothing factor + 1)`. -/
theorem backProp_error (m : Libm α) (topology : List Nat) (net : Net α)
    (targetVals : List α) (hs : WellShaped topology net)
    (hlen : targetVals.length = topology.getD (topology.length - 1) 0) :
    (2 ≤ topology.length → ∃ net', net.backProp m targetVals = .ok net') ∧
    ∀ net', net.backProp m targetVals = .ok net' →
      net'.m_error =
        m.sqrt (sumUpTo (topology.getD (topology.length - 1) 0)
            (fun n => (targetVals.getD n 0 - net.outputVal (topology.length - 1) n)
              * (targetVals.getD n 0 - net.outputVal (topology.length - 1) n))
          / ((topology.getD (topology.length - 1) 0 : Nat) : α)) ∧
      net'.m_recentAverageError =
        (net.m_recentAverageError * net.m_recentAverageSmoothingFactor + net'.m_error)
          / (net.m_recentAverageSmoothingFactor + 1) := by
  constructor
  · intro h2
    obtain ⟨net', hok, _⟩ := backProp_ok m hs h2 (Nat.le_of_eq hlen.symm)
    exact ⟨net', hok⟩
  · intro net' hok
    have h2 : 2 ≤ topology.length := by
      by_contra hc
      exact backProp_short m net targetVals (by rw [hs.length_eq]; omega) net' hok
    obtain ⟨net'', hok', _, hE, hRA, _⟩ := backProp_ok m hs h2 (Nat.le_of_eq hlen.symm)
    rw [hok] at hok'
    cases hok'
    exact ⟨hE, hRA⟩

/-- C5 on the scenario net with the target 1. -/
theorem backProp_error_witness :
    WellShaped [1, 1] (scenarioNet : Net ℚ) ∧
      ∃ net', (scenarioNet : Net ℚ).backProp sampleLibm [1] = .ok net' ∧
        net'.m_recentAverageError =
          ((scenarioNet : Net ℚ).m_recentAverageError
              * (scenarioNet : Net ℚ).m_recentAverageSmoothingFactor + net'.m_error)
            / ((scenarioNet : Net ℚ).m_recentAverageSmoothingFactor + 1) := by
  have h := backProp_error sampleLibm [1, 1] (scenarioNet : Net ℚ) [1] (by decide) rfl
  obtain ⟨net', hok⟩ := h.1 (by decide)
  exact ⟨by decide, net', hok, (h.2 net' hok).2⟩

/-- C6: the net `Net::Net` builds has one layer per entry of `topology`; layer `i` has
`topology[i] + 1` neurons; the neuron at place `n` has index `n`; every neuron of layer `i`
(its bias neuron too) has `topology[i+1]` outgoing connections when `i` is not the last
layer and none when it is. The constructor does build a net whenever every entry is below
`UINT_MAX`, the one value at which its inner loop cannot end. -/
theorem new_shape (host : Host α) (topology : List Nat) :
    (∀ net, Net.new host topology = .ok net →
      net.m_layers.length = topology.length ∧
      ∀ i, i < topology.length →
        ∃ layer, net.m_layers[i]? = some layer ∧ layer.length = topology.getD i 0 + 1 ∧
          ∀ n, n < layer.length →
            ∃ neuron, layer[n]? = some neuron ∧ neuron.m_myIndex = n ∧
              neuron.m_outputWeights.length =
                if i + 1 < topology.length then topology.getD (i + 1) 0 else 0) ∧
    ((∀ t, t ∈ topology → t < UINT_MAX) → ∃ net, Net.new host topology = .ok net) := by
  constructor
  · intro net h
    have hs := Net.new_wellShaped host topology net h
    refine ⟨hs.length_eq, ?_⟩
    intro i hi
    obtain ⟨layer, hl, hlen, hn⟩ := hs.layer hi
    refine ⟨layer, hl, hlen, ?_⟩
    intro n hnlt
    obtain ⟨x, hx, hidx, hw⟩ := hn n (by omega)
    refine ⟨x, hx, hidx, ?_⟩
    rw [hw]
    split
    · rfl
    · rename_i hlast
      rw [List.getD_eq_getElem?_getD, List.getElem?_eq_none (by omega)]
      rfl
  · intro hall
    refine ⟨⟨(List.range topology.length).map (Net.new.layerAt host topology), host.error,
      host.recentAverageError, host.recentAverageSmoothingFactor⟩,
      (Net.new_ok_iff host topology _).mpr ⟨?_, rfl, rfl, rfl, rfl⟩⟩
    intro i hi
    apply hall
    rw [List.getD_eq_getElem?_getD, List.getElem?_eq_getElem hi]
    exact List.getElem_mem hi

/-- C6 for the topology `[2, 2, 1]`: the constructor returns a net of that shape. -/
theorem new_shape_witness :
    ∃ net, Net.new sampleHost [2, 2, 1] = .ok net ∧ net.m_layers.length = 3 := by
  obtain ⟨net, h⟩ := (new_shape sampleHost [2, 2, 1]).2 (by decide)
  exact ⟨net, h, ((new_shape sampleHost [2, 2, 1]).1 net h).1⟩

/-- C7: in the net `Net::Net` returns, the last neuron of every layer has output 1, and
so it has in every state reached from there by a sequence of `Net::feedForward` and
`Net::backProp` calls that all complete. -/
theorem bias_stays_one (host : Host α) (m : Libm α) (topology : List Nat) (net : Net α)
    (hnew : Net.new host topology = .ok net) (calls : List (Call α)) (net' : Net α)
    (hrun : net.run m calls = .ok net') :
    (∀ layer, layer ∈ net.m_layers → (layer.getLast?).map Neuron.getOutputVal = some 1) ∧
      ∀ layer, layer ∈ net'.m_layers → (layer.getLast?).map Neuron.getOutputVal = some 1 := by
  have h0 := Net.new_biasOutputs host topology net hnew
  have h1 : ∀ o, o ∈ net'.biasOutputs → o = some 1 := by
    rw [(run_keeps m hrun).2]
    exact h0
  constructor
  · intro layer hl
    exact h0 _ (List.mem_map_of_mem _ hl)
  · intro layer hl
    exact h1 _ (List.mem_map_of_mem _ hl)

/-- C7 for the topology `[1, 1]`, a forward pass followed by a backward pass. -/
theorem bias_stays_one_witness :
    ∃ net net', Net.new sampleHost [1, 1] = .ok net ∧
      net.run sampleLibm [.feedForward [1], .backProp [1]] = .ok net' ∧
      ∀ layer, layer ∈ net'.m_layers → (layer.getLast?).map Neuron.getOutputVal = some 1 :=
  ⟨_, _, rfl, rfl,
    (bias_stays_one sampleHost sampleLibm [1, 1] _ rfl
      [.feedForward [1], .backProp [1]] _ rfl).2⟩

/-- C8: on the net `Net::Net` built from `topology`, `Net::feedForward` with an input
vector of length `topology[0]` completes, and `Net::getResults` afterwards completes with
exactly `topology[last]` values, the `i`-th being the output of neuron `i` of the last
layer, whatever `resultVals` held before. -/
theorem feedForward_then_getResults (host : Host α) (m : Libm α) (topology : List Nat)
    (net : Net α) (inputVals resultVals : List α)
    (hnew : Net.new host topology = .ok net)
    (hlen : topology[0]? = some inputVals.length) :
    ∃ net' results, net.feedForward m inputVals = .ok net' ∧
      net'.getResults resultVals = .ok results ∧
      results.length = topology.getD (topology.length - 1) 0 ∧
      ∀ i, i < results.length →
        results[i]? = some (net'.outputVal (topology.length - 1) i) := by
  have hs := Net.new_wellShaped host topology net hnew
  obtain ⟨net', hok, _, _, _, hsh, _⟩ := feedForward_ok m hs hlen
  have hs' : WellShaped topology net' := wellShaped_of_shape_eq hsh hs
  refine ⟨net', _, hok, getResults_ok hs' (lt_length_of_getElem? hlen) resultVals, ?_, ?_⟩
  · rw [List.length_map, List.length_range]
  · intro i hi
    rw [List.length_map, List.length_range] at hi
    rw [List.getElem?_map, List.getElem?_range hi]
    rfl

/-- C8 for the topology `[2, 2, 1]`, over a result vector that held three values. -/
theorem feedForward_then_getResults_witness :
    ∃ net net' results, Net.new sampleHost [2, 2, 1] = .ok net ∧
      net.feedForward sampleLibm [1, 2] = .ok net' ∧
      net'.getResults [7, 8, 9] = .ok results ∧ results.length = 1 := by
  obtain ⟨net', results, h1, h2, h3, _⟩ :=
    feedForward_then_getResults sampleHost sampleLibm [2, 2, 1] _ [1, 2] [7, 8, 9] rfl rfl
  exact ⟨_, net', results, rfl, h1, h2, h3⟩

/-- C9: when layer 0 exists and the input vector's length differs from the number of its
neurons besides the bias neuron, `Net::feedForward` stops at its `assert`, and the state it
stops in is the net as it was: no output value (nor anything else) has been written. -/
theorem feedForward_wrong_size (m : Libm α) (net : Net α) (inputVals : List α)
    (layer0 : Layer α) (h0 : net.m_layers[0]? = some layer0)
    (hne : inputVals.length ≠ layer0.length - 1) :
    net.feedForward m inputVals = .error (Fault.assertion, net) := by
  have h : inputVals.length + 1 ≠ layer0.length := by omega
  unfold Net.feedForward
  simp only [h0, ne_eq, h, not_false_eq_true, if_true]

/-- C9 on the scenario net: two input values where layer 0 takes one. -/
theorem feedForward_wrong_size_witness :
    (scenarioNet : Net ℚ).m_layers[0]? = some ((scenarioNet : Net ℚ).m_layers.headD []) ∧
      ([3, 4] : List ℚ).length ≠ ((scenarioNet : Net ℚ).m_layers.headD []).length - 1 ∧
      (scenarioNet : Net ℚ).feedForward sampleLibm [3, 4]
        = .error (Fault.assertion, scenarioNet) :=
  ⟨rfl, by decide, feedForward_wrong_size sampleLibm scenarioNet [3, 4] _ rfl (by decide)⟩

/-- C10: `Net::backProp` has no test of the length of `targetVals`. Take the net built
for the topology `[1, 1]`, which expects one target value, after a forward pass on the input
1 (all weights 0, so the output neuron holds `tanh 0 = 0`; `m_error` holds 5). With two
target values the call completes and has rewritten `m_error` (now 1) and the weights (the
first one now `3/20`). With no target value the call puts `m_error` to 0 and then stops on
reading `targetVals[0]` outside the vector, not on a test of the sizes. -/
theorem backProp_unchecked_targets :
    ∃ net0 net1 : Net ℚ, Net.new quietHost [1, 1] = .ok net0 ∧
      net0.feedForward sampleLibm [1] = .ok net1 ∧
      net1.m_error = 5 ∧ net1.weight 0 0 0 = 0 ∧
      (∃ net', net1.backProp sampleLibm [1, 2] = .ok net' ∧ net'.m_error = 1 ∧
        net'.weight 0 0 0 = 3 / 20) ∧
      net1.backProp sampleLibm [] = .error (Fault.outOfRange, { net1 with m_error := 0 }) :=
  ⟨_, _, rfl, rfl, by decide!, by decide!, ⟨_, rfl, by decide!, by decide!⟩, rfl⟩

/-- C11, as the claim states it, fails: `Net::Net` has no test of the topology. It returns
a net for the empty topology, for a topology of one entry, and for one with a zero entry. -/
theorem new_accepts_any_topology :
    (∃ net, Net.new sampleHost [] = .ok net) ∧ (∃ net, Net.new sampleHost [3] = .ok net) ∧
      ∃ net, Net.new sampleHost [2, 0, 1] = .ok net :=
  ⟨⟨_, rfl⟩, ⟨_, rfl⟩, ⟨_, rfl⟩⟩

/-- C11, amended: for a topology that has fewer than two layers or an entry of zero (every
entry below `UINT_MAX`), `Net::Net` raises nothing: it returns a net with one layer per
entry, layer `i` holding `topology[i] + 1` neurons. -/
theorem new_without_validation (host : Host α) (topology : List Nat)
    (hfit : ∀ t, t ∈ topology → t < UINT_MAX) :
    topology.length < 2 ∨ 0 ∈ topology →
      ∃ net, Net.new host topology = .ok net ∧ WellShaped topology net := by
  intro _
  have h : Net.new host topology = .ok
      ⟨(List.range topology.length).map (Net.new.layerAt host topology), host.error,
        host.recentAverageError, host.recentAverageSmoothingFactor⟩ := by
    refine (Net.new_ok_iff host topology _).mpr ⟨?_, rfl, rfl, rfl, rfl⟩
    intro i hi
    apply hfit
    rw [List.getD_eq_getElem?_getD, List.getElem?_eq_getElem hi]
    exact List.getElem_mem hi
  exact ⟨_, h, Net.new_wellShaped host topology _ h⟩

/-- C11 amended, on the topology `[2, 0, 1]`. -/
theorem new_without_validation_witness :
    (([2, 0, 1] : List Nat).length < 2 ∨ 0 ∈ ([2, 0, 1] : List Nat)) ∧
      ∃ net, Net.new sampleHost [2, 0, 1] = .ok net ∧ WellShaped [2, 0, 1] net :=
  ⟨by decide, new_without_validation sampleHost [2, 0, 1] (by decide) (by decide)⟩

/-- C12: on a well-shaped net and an input vector of length `topology[0]`,
`Net::feedForward` completes and writes output values only: every neuron is the neuron that
was at its place with, at most, another `m_outputVal`; so the connections (weight and
`deltaWeight`), the gradients and the indices are the same after the call, and so are
`m_error`, `m_recentAverageError` and the smoothing factor. -/
theorem feedForward_frame (m : Libm α) (topology : List Nat) (net : Net α)
    (inputVals : List α) (hs : WellShaped topology net)
    (hlen : topology[0]? = some inputVals.length) :
    ∃ net', net.feedForward m inputVals = .ok net' ∧
      (∀ L n, net'.neuronAt L n =
        (net.neuronAt L n).map (fun x => x.setOutputVal (net'.outputVal L n))) ∧
      (∀ L n c, net'.connectionAt L n c = net.connectionAt L n c) ∧
      (∀ L n c, net'.weight L n c = net.weight L n c ∧
        net'.deltaWeight L n c = net.deltaWeight L n c) ∧
      (∀ L n, net'.gradient L n = net.gradient L n) ∧
      (∀ L n, (net'.neuronAt L n).map Neuron.m_myIndex
        = (net.neuronAt L n).map Neuron.m_myIndex) ∧
      net'.m_error = net.m_error ∧
      net'.m_recentAverageError = net.m_recentAverageError ∧
      net'.m_recentAverageSmoothingFactor = net.m_recentAverageSmoothingFactor := by
  obtain ⟨net', hok, he, hra, hsf, hsh, hc, _⟩ := feedForward_ok m hs hlen
  have hmap : ∀ L n, net'.neuronAt L n =
      (net.neuronAt L n).map (fun x => x.setOutputVal (net'.outputVal L n)) := by
    intro L n
    cases hx : net.neuronAt L n with
    | none => rw [neuronAt_none_of_shape hsh hx]; rfl
    | some x => rw [hc L n x hx]; rfl
  refine ⟨net', hok, hmap, ?_, fun L n c => (frame_of_setOutputVal hsh hc L n).2 c,
    fun L n => (frame_of_setOutputVal hsh hc L n).1, ?_, he, hra, hsf⟩
  · intro L n c
    unfold Net.connectionAt
    rw [hmap L n]
    cases net.neuronAt L n <;> rfl
  · intro L n
    rw [hmap L n]
    cases net.neuronAt L n <;> rfl

/-- C12 on the scenario net with the input 1. -/
theorem feedForward_frame_witness :
    WellShaped [1, 1] (scenarioNet : Net ℚ) ∧
      ∃ net', (scenarioNet : Net ℚ).feedForward sampleLibm [1] = .ok net' ∧
        ∀ L n c, net'.connectionAt L n c = (scenarioNet : Net ℚ).connectionAt L n c := by
  obtain ⟨net', hok, _, hcon, _⟩ :=
    feedForward_frame sampleLibm [1, 1] (scenarioNet : Net ℚ) [1] (by decide) rfl
  exact ⟨by decide, net', hok, hcon⟩

/-- C13: on a well-shaped net and a target vector of the right length, whenever
`Net::backProp` completes (and it does as soon as the net has two layers), every output
value is what it was, so that `Net::getResults` returns the same values before and after;
no gradient of layer 0 has been written; and no connection has been written other than
those into a neuron of a layer `L + 1 ≥ 1` that is not its bias neuron. -/
theorem backProp_frame (m : Libm α) (topology : List Nat) (net : Net α)
    (targetVals resultVals : List α) (hs : WellShaped topology net)
    (hlen : targetVals.length = topology.getD (topology.length - 1) 0) :
    (2 ≤ topology.length → ∃ net', net.backProp m targetVals = .ok net') ∧
    ∀ net', net.backProp m targetVals = .ok net' →
      (∀ L n, net'.outputVal L n = net.outputVal L n) ∧
      net'.getResults resultVals = net.getResults resultVals ∧
      (∀ n, net'.gradient 0 n = net.gradient 0 n) ∧
      (∀ L n c, ¬ (L + 1 < topology.length ∧ c < topology.getD (L + 1) 0) →
        net'.connectionAt L n c = net.connectionAt L n c) := by
  constructor
  · intro h2
    obtain ⟨net', hok, _⟩ := backProp_ok m hs h2 (Nat.le_of_eq hlen.symm)
    exact ⟨net', hok⟩
  · intro net' hok
    have h2 : 2 ≤ topology.length := by
      by_contra hc
      exact backProp_short m net targetVals (by rw [hs.length_eq]; omega) net' hok
    obtain ⟨net'', hok', hs', _, _, hout, _, _, hG0, _⟩ :=
      backProp_ok m hs h2 (Nat.le_of_eq hlen.symm)
    rw [hok] at hok'
    cases hok'
    refine ⟨hout, ?_, hG0, ?_⟩
    · rw [getResults_ok hs' (by omega), getResults_ok hs (by omega)]
      congr 2
      funext i
      exact hout _ i
    · intro L n c h
      rw [hs'.connectionAt_none h, hs.connectionAt_none h]

/-- C13 on the scenario net with the target 1. -/
theorem backProp_frame_witness :
    WellShaped [1, 1] (scenarioNet : Net ℚ) ∧
      ∃ net', (scenarioNet : Net ℚ).backProp sampleLibm [1] = .ok net' ∧
        net'.getResults [] = (scenarioNet : Net ℚ).getResults [] := by
  have h := backProp_frame sampleLibm [1, 1] (scenarioNet : Net ℚ) [1] [] (by decide) rfl
  obtain ⟨net', hok⟩ := h.1 (by decide)
  exact ⟨by decide, net', hok, (h.2 net' hok).2.1⟩

/-- C14: the net `Net::Net` returns is well-shaped for its topology (one layer per entry,
`topology[i] + 1` neurons in layer `i`, the neuron at place `n` with index `n` and with as
many outgoing connections as layer `i + 1` has neurons besides its bias neuron, none for the
last layer), and a well-shaped net is still well-shaped after any sequence of
`Net::feedForward` and `Net::backProp` calls that all complete. -/
theorem shape_is_invariant (host : Host α) (m : Libm α) (topology : List Nat) :
    (∀ net, Net.new host topology = .ok net → WellShaped topology net) ∧
    ∀ (net : Net α) (calls : List (Call α)) (net' : Net α), WellShaped topology net →
      net.run m calls = .ok net' → WellShaped topology net' :=
  ⟨Net.new_wellShaped host topology,
    fun _ _ _ hs hrun => wellShaped_of_shape_eq (run_keeps m hrun).1 hs⟩

/-- C14 for the topology `[1, 1]`, a forward pass followed by a backward pass. -/
theorem shape_is_invariant_witness :
    ∃ net net', Net.new sampleHost [1, 1] = .ok net ∧
      net.run sampleLibm [.feedForward [1], .backProp [1]] = .ok net' ∧
      WellShaped [1, 1] net' := by
  refine ⟨_, _, rfl, rfl, ?_⟩
  have h := shape_is_invariant sampleHost sampleLibm [1, 1]
  exact h.2 _ [.feedForward [1], .backProp [1]] _ (h.1 _ rfl) rfl

/-- C15, as the claim states it, fails in its last part: in the scenario, over the reals,
`w0` after `feedForward([1.0])` and `backProp([1.0])` is further than 1e-6 from
0.5634332 (it is above 0.56345251). -/
theorem scenario_weight_off :
    ∃ net1 net2,
      (scenarioNet : Net ℝ).feedForward ⟨Real.tanh, Real.sqrt⟩ [1] = .ok net1 ∧
      net1.backProp ⟨Real.tanh, Real.sqrt⟩ [1] = .ok net2 ∧
      ¬ |net2.weight 0 0 0 - 0.5634332| ≤ 1e-6 := by
  obtain ⟨net1, net2, hok1, hok2, _, hg, _, _, _, hw⟩ :=
    scenario_run Real.sqrt scenarioNet (by decide) rfl rfl rfl rfl rfl
  refine ⟨net1, net2, hok1, hok2, ?_⟩
  have hb := (scenario_weight_bounds _ tanh_half_bounds.1 tanh_half_bounds.2).1
  rw [← hg, ← hw] at hb
  intro h
  have h2 := (abs_le.mp h).2
  norm_num at h2
  linarith

/-- C15, amended: in the scenario (topology `[1, 1]`, `w0 = 0.5`, `w1 = 0`, both
`deltaWeight`s 0, bias output 1, `tanh` the real hyperbolic tangent), `feedForward([1.0])`
sets the output neuron to `tanh(0.5)`; then `backProp([1.0])` gives the output neuron the
gradient `(1 - tanh(0.5)) * (1 - tanh(0.5)^2)`, applies the same delta `0.15 * gradient` to
both connections, so that `w1_new = 0.15 * gradient` and `w0_new = 0.5 + 0.15 * gradient`,
and `w0_new` is within 1e-6 of 0.5634525. -/
theorem scenario_weights (m : Libm ℝ) (net : Net ℝ) (htanh : m.tanh = Real.tanh)
    (hs : WellShaped [1, 1] net)
    (hw0 : net.weight 0 0 0 = 0.5) (hw1 : net.weight 0 1 0 = 0)
    (hd0 : net.deltaWeight 0 0 0 = 0) (hd1 : net.deltaWeight 0 1 0 = 0)
    (hb : net.outputVal 0 1 = 1) :
    ∃ net1 net2, net.feedForward m [1.0] = .ok net1 ∧ net1.backProp m [1.0] = .ok net2 ∧
      net1.outputVal 1 0 = Real.tanh 0.5 ∧
      net2.gradient 1 0 = (1 - Real.tanh 0.5) * (1 - Real.tanh 0.5 ^ 2) ∧
      net2.deltaWeight 0 0 0 = 0.15 * net2.gradient 1 0 ∧
      net2.deltaWeight 0 1 0 = 0.15 * net2.gradient 1 0 ∧
      net2.weight 0 1 0 = 0.15 * net2.gradient 1 0 ∧
      net2.weight 0 0 0 = 0.5 + 0.15 * net2.gradient 1 0 ∧
      |net2.weight 0 0 0 - 0.5634525| ≤ 1e-6 := by
  obtain ⟨tanh, sqrt⟩ := m
  simp only at htanh
  subst htanh
  obtain ⟨net1, net2, hok1, hok2, hout, hg, hD0, hD1, hW1, hW0⟩ :=
    scenario_run sqrt net hs hw0 hw1 hd0 hd1 hb
  have h1 : ([1.0] : List ℝ) = [1] := by norm_num
  have h5 : (0.5 : ℝ) = 1 / 2 := by norm_num
  refine ⟨net1, net2, by rw [h1]; exact hok1, by rw [h1]; exact hok2, by rw [h5]; exact hout,
    by rw [h5, hg]; ring, hD0, hD1, hW1, hW0, ?_⟩
  have hb := scenario_weight_bounds _ tanh_half_bounds.1 tanh_half_bounds.2
  rw [← hg, ← hW0] at hb
  rw [abs_le]
  constructor <;> norm_num <;> linarith [hb.1, hb.2]

/-- C15 amended, on the scenario net with the real `tanh` and `sqrt`. -/
theorem scenario_weights_witness :
    WellShaped [1, 1] (scenarioNet : Net ℝ) ∧
      ∃ net1 net2,
        (scenarioNet : Net ℝ).feedForward ⟨Real.tanh, Real.sqrt⟩ [1.0] = .ok net1 ∧
        net1.backProp ⟨Real.tanh, Real.sqrt⟩ [1.0] = .ok net2 ∧
        |net2.weight 0 0 0 - 0.5634525| ≤ 1e-6 := by
  obtain ⟨net1, net2, hok1, hok2, _, _, _, _, _, _, hw⟩ :=
    scenario_weights ⟨Real.tanh, Real.sqrt⟩ scenarioNet rfl (by decide) rfl rfl rfl rfl rfl
  exact ⟨by decide, net1, net2, hok1, hok2, hw⟩

/-- C16, as the claim states it, fails: when `rand()` returns `RAND_MAX` (here 32767, a
value it may return), `Neuron::randomWeight` gives exactly 1, which is not below 1. -/
theorem randomWeight_reaches_one :
    (32767 : Nat) ≤ 32767 ∧ ¬ ((Neuron.randomWeight 32767 32767 : ℝ) < 1) := by
  refine ⟨Nat.le_refl _, ?_⟩
  unfold Neuron.randomWeight
  norm_num

/-- C16, amended: for every value `r` that `rand()` can return, `0 ≤ r ≤ RAND_MAX`, the
weight `r / RAND_MAX` that `Neuron::randomWeight` gives lies in the closed interval from 0
to 1; it is below 1 exactly when `r` is below `RAND_MAX`. -/
theorem randomWeight_range {F : Type} [LinearOrderedField F] (RAND_MAX r : Nat)
    (hpos : 0 < RAND_MAX) (hr : r ≤ RAND_MAX) :
    0 ≤ (Neuron.randomWeight RAND_MAX r : F) ∧ (Neuron.randomWeight RAND_MAX r : F) ≤ 1 ∧
      ((Neuron.randomWeight RAND_MAX r : F) < 1 ↔ r < RAND_MAX) := by
  have hM : (0 : F) < (RAND_MAX : F) := by exact_mod_cast hpos
  unfold Neuron.randomWeight
  refine ⟨div_nonneg (Nat.cast_nonneg r) hM.le, ?_, ?_⟩
  · rw [div_le_one hM]
    exact_mod_cast hr
  · rw [div_lt_one hM]
    exact Nat.cast_lt

/-- C16 amended, at `RAND_MAX = 32767` and `r = 16384`, over the reals. -/
theorem randomWeight_range_witness :
    (0 : Nat) < 32767 ∧ (16384 : Nat) ≤ 32767 ∧
      0 ≤ (Neuron.randomWeight 32767 16384 : ℝ) ∧ (Neuron.randomWeight 32767 16384 : ℝ) ≤ 1 :=
  ⟨by decide, by decide, (randomWeight_range 32767 16384 (by decide) (by decide)).1,
    (randomWeight_range 32767 16384 (by decide) (by decide)).2.1⟩

/-- C17: on the net `Net::Net` built for a topology of at least two entries, every sequence
of `Net::feedForward` calls with `topology[0]` input values and `Net::backProp` calls with
`topology[last]` target values runs to completion, and so does `Net::getResults`
afterwards: no call stops on an index outside a vector (nor on anything else), whatever
calls were made before. The entries need not even be positive. -/
theorem calls_stay_in_range (host : Host α) (m : Libm α) (topology : List Nat)
    (net : Net α) (calls : List (Call α)) (resultVals : List α)
    (h2 : 2 ≤ topology.length) (hnew : Net.new host topology = .ok net)
    (hcalls : ∀ c, c ∈ calls → c.RightSized topology) :
    ∃ net' results, net.run m calls = .ok net' ∧
      net'.getResults resultVals = .ok results := by
  obtain ⟨net', hrun, hs'⟩ := run_rightSized_ok m h2 calls net
    (Net.new_wellShaped host topology net hnew) hcalls
  exact ⟨net', _, hrun, getResults_ok hs' (by omega) resultVals⟩

/-- C17 for the topology `[2, 2, 1]`: a forward pass, a backward pass, a forward pass. -/
theorem calls_stay_in_range_witness :
    ∃ net net' results, Net.new sampleHost [2, 2, 1] = .ok net ∧
      net.run sampleLibm [.feedForward [1, 2], .backProp [1], .feedForward [3, 4]] = .ok net' ∧
      net'.getResults [] = .ok results := by
  obtain ⟨net', results, h1, h2⟩ := calls_stay_in_range sampleHost sampleLibm [2, 2, 1] _
    [.feedForward [1, 2], .backProp [1], .feedForward [3, 4]] [] (by decide) rfl (by decide)
  exact ⟨_, net', results, rfl, h1, h2⟩

/-- C18: over a field (the reals are one), on a well-shaped net of at least three layers
whose bias neurons all have output 1, and a target vector of the right length,
`Net::backProp` completes and leaves the gradient of the bias neuron of every hidden layer
at 0: its sum of weighted gradients is multiplied by `1 - 1 * 1`. -/
theorem bias_gradient_zero {F : Type} [Field F] (m : Libm F) (topology : List Nat)
    (net : Net F) (targetVals : List F) (hs : WellShaped topology net)
    (h3 : 3 ≤ topology.length)
    (hlen : targetVals.length = topology.getD (topology.length - 1) 0)
    (hbias : ∀ L, L < topology.length → net.outputVal L (topology.getD L 0) = 1) :
    ∃ net', net.backProp m targetVals = .ok net' ∧
      ∀ L, 1 ≤ L → L + 1 < topology.length → net'.gradient L (topology.getD L 0) = 0 := by
  obtain ⟨net', hok, _, _, _, _, _, _, _, hG, _⟩ :=
    backProp_ok m hs (by omega) (Nat.le_of_eq hlen.symm)
  refine ⟨net', hok, ?_⟩
  intro L h1 hL
  rw [hG L _ h1 hL (Nat.lt_succ_self _)]
  unfold hiddenVal Neuron.transferFunctionDerivative
  rw [hbias L (by omega)]
  ring

/-- C18 on the net built for the topology `[2, 2, 1]`, over the rationals. -/
theorem bias_gradient_zero_witness :
    ∃ net net', Net.new sampleHost [2, 2, 1] = .ok net ∧
      net.backProp sampleLibm [1] = .ok net' ∧ net'.gradient 1 2 = 0 := by
  obtain ⟨net', hok, h⟩ := bias_gradient_zero sampleLibm [2, 2, 1] _ [1]
    (Net.new_wellShaped sampleHost [2, 2, 1] _ rfl) (by decide) rfl (by decide)
  exact ⟨_, net', rfl, hok, h 1 (by decide) (by decide)⟩

/-- C19, as the claim states it, fails in the arithmetic of `double`, where `0.0 / 0` and
`inf * 0` are NaN. The net built for the topology `[1, 0]` is well-shaped, has no
connection and no output neuron besides the bias neuron, and `backProp({})` leaves
`m_error = sqrt(0.0 / 0)`, which is NaN. On a well-shaped net of topology `[1, 1, 1]` with
every `deltaWeight` 0, the output equal to the target, and the weight `+inf` from the
hidden neuron to the output neuron, `backProp({1.0})` gives the hidden neuron the gradient
`inf * 0`, and the connection from the input neuron a `deltaWeight` and a weight that are
NaN. -/
theorem backProp_nan_in_double :
    (∃ net net', Net.new doubleHost [1, 0] = .ok net ∧ WellShaped [1, 0] net ∧
        (∀ L p j, net.deltaWeight L p j = 0) ∧
        (∀ n, n < ([1, 0] : List Nat).getD 1 0 →
          ([] : List Double)[n]? = some (net.outputVal 1 n)) ∧
        net.backProp doubleLibm [] = .ok net' ∧
        net'.m_error = Double.nan ∧ net'.m_error ≠ 0) ∧
      WellShaped [1, 1, 1] infWeightNet ∧
      (∀ L p j, infWeightNet.deltaWeight L p j = 0) ∧
      (∀ n, n < ([1, 1, 1] : List Nat).getD 2 0 →
        ([1] : List Double)[n]? = some (infWeightNet.outputVal 2 n)) ∧
      ∃ net', infWeightNet.backProp doubleLibm [1] = .ok net' ∧
        net'.gradient 1 0 = Double.nan ∧ net'.gradient 1 0 ≠ 0 ∧
        net'.deltaWeight 0 0 0 = Double.nan ∧
        net'.deltaWeight 0 0 0 ≠ Neuron.alpha * infWeightNet.deltaWeight 0 0 0 ∧
        net'.weight 0 0 0 = Double.nan ∧ net'.weight 0 0 0 ≠ infWeightNet.weight 0 0 0 := by
  refine ⟨⟨_, _, rfl, by decide, ?_, ?_, rfl, by decide!, by decide!⟩, by decide, ?_, ?_,
    _, rfl, by decide!, by decide!, by decide!, by decide!, by decide!, by decide!⟩
  · intro L p j
    rcases L with _ | _ | L <;> rcases p with _ | _ | p <;> rcases j with _ | j <;> rfl
  · intro n hn
    exact (Nat.not_lt_zero n hn).elim
  · intro L p j
    rcases L with _ | _ | _ | L <;> rcases p with _ | _ | p <;> rcases j with _ | j <;> rfl
  · intro n hn
    have hn0 : n = 0 := by
      have : n < 1 := hn
      omega
    subst hn0
    rfl

/-- C19, amended: in real arithmetic (a field, the reals being one, with `sqrt 0 = 0`), on
a well-shaped net whose non-bias outputs of the last layer equal the corresponding targets,
whenever `Net::backProp` completes (and it does as soon as the net has two layers),
`m_error` is 0 if the last layer has a neuron besides its bias neuron, every gradient the
call computes is 0, and every connection's new `deltaWeight` is `alpha` times its old one;
if moreover every `deltaWeight` was 0, every connection is what it was, weight and
`deltaWeight`. -/
theorem backProp_fixed_point {F : Type} [Field F] (m : Libm F) (topology : List Nat)
    (net : Net F) (targetVals : List F) (hs : WellShaped topology net)
    (hsqrt : m.sqrt 0 = 0)
    (htarget : ∀ n, n < topology.getD (topology.length - 1) 0 →
      targetVals[n]? = some (net.outputVal (topology.length - 1) n)) :
    (2 ≤ topology.length → ∃ net', net.backProp m targetVals = .ok net') ∧
    ∀ net', net.backProp m targetVals = .ok net' →
      (0 < topology.getD (topology.length - 1) 0 → net'.m_error = 0) ∧
      (∀ n, n < topology.getD (topology.length - 1) 0 →
        net'.gradient (topology.length - 1) n = 0) ∧
      (∀ L n, 1 ≤ L → L + 1 < topology.length → n < topology.getD L 0 + 1 →
        net'.gradient L n = 0) ∧
      (∀ L p j, L + 1 < topology.length → p < topology.getD L 0 + 1 →
        j < topology.getD (L + 1) 0 →
        net'.deltaWeight L p j = Neuron.alpha * net.deltaWeight L p j) ∧
      ((∀ L p j, net.deltaWeight L p j = 0) →
        ∀ L p j, net'.connectionAt L p j = net.connectionAt L p j) := by
  have hlen : topology.getD (topology.length - 1) 0 ≤ targetVals.length := by
    by_contra hc
    have h1 := htarget targetVals.length (by omega)
    rw [List.getElem?_eq_none (Nat.le_refl _)] at h1
    cases h1
  have hdiff : ∀ n, n < topology.getD (topology.length - 1) 0 →
      targetVals.getD n 0 - net.outputVal (topology.length - 1) n = 0 := by
    intro n hn
    rw [List.getD_eq_getElem?_getD, htarget n hn, Option.getD_some, sub_self]
  constructor
  · intro h2
    obtain ⟨net', hok, _⟩ := backProp_ok m hs h2 hlen
    exact ⟨net', hok⟩
  · intro net' hok
    have h2 : 2 ≤ topology.length := by
      by_contra hc
      exact backProp_short m net targetVals (by rw [hs.length_eq]; omega) net' hok
    obtain ⟨net'', hok', hs', he, _, hout, hg, _, _, hG, hW⟩ := backProp_ok m hs h2 hlen
    rw [hok] at hok'
    cases hok'
    have hlast : ∀ n, n < topology.getD (topology.length - 1) 0 →
        net'.gradient (topology.length - 1) n = 0 := by
      intro n hn
      rw [hg n hn, hdiff n hn, zero_mul]
    have hzero := backProp_gradients_zero (fun L n => net'.gradient L n)
      (fun L n k => net.weight L n k)
      (fun L n => Neuron.transferFunctionDerivative (net.outputVal L n)) hlast hG
    have hnext : ∀ L j, L + 1 < topology.length → j < topology.getD (L + 1) 0 →
        net'.gradient (L + 1) j = 0 := by
      intro L j hL hj
      exact hzero (topology.length - (L + 2)) (L + 1) (by omega) (by omega) j
        (by split <;> omega)
    have hdelta : ∀ L p j, L + 1 < topology.length → p < topology.getD L 0 + 1 →
        j < topology.getD (L + 1) 0 →
        net'.deltaWeight L p j = Neuron.alpha * net.deltaWeight L p j := by
      intro L p j hL hp hj
      rw [(hW L p j hL hp hj).1, hnext L j hL hj, mul_zero, zero_add]
    refine ⟨?_, hlast, ?_, hdelta, ?_⟩
    · intro _
      rw [he, sumUpTo_zero, zero_div, hsqrt]
      intro n hn
      rw [hdiff n hn, mul_zero]
    · intro L n h1 hL hn
      exact hzero (topology.length - (L + 1)) L (by omega) h1 n (by split <;> omega)
    · intro hd
      apply connectionAt_ext hs hs'
      intro L p j hL hp hj
      have hd' := hdelta L p j hL hp hj
      rw [hd L p j, mul_zero] at hd'
      rw [(hW L p j hL hp hj).2, hd', add_zero, hd L p j]
      exact ⟨rfl, rfl⟩

/-- C19 amended, on the scenario net, whose output neuron has output 0, with the target 0. -/
theorem backProp_fixed_point_witness :
    WellShaped [1, 1] (scenarioNet : Net ℚ) ∧ sampleLibm.sqrt 0 = 0 ∧
      ∃ net', (scenarioNet : Net ℚ).backProp sampleLibm [0] = .ok net' ∧
        net'.m_error = 0 ∧ net'.gradient 1 0 = 0 ∧
        ∀ L p j, net'.connectionAt L p j = (scenarioNet : Net ℚ).connectionAt L p j := by
  have h := backProp_fixed_point sampleLibm [1, 1] (scenarioNet : Net ℚ) [0] (by decide)
    (by decide!) (by
      intro n hn
      have hn0 : n = 0 := by
        have : n < 1 := hn
        omega
      subst hn0
      rfl)
  obtain ⟨net', hok⟩ := h.1 (by decide)
  obtain ⟨he, hg, _, _, hc⟩ := h.2 net' hok
  refine ⟨by decide, by decide!, net', hok, he (by decide), hg 0 (by decide), hc ?_⟩
  intro L p j
  rcases L with _ | _ | L <;> rcases p with _ | _ | p <;> rcases j with _ | j <;> rfl

/-- C20: on a well-shaped net and an input vector of length `topology[0]`, a second
`Net::feedForward` with the same input returns the state the first one left, field for
field; two calls in a row are one call, and `Net::getResults` afterwards is the same. No law
of arithmetic is used: the second pass reads the same inputs and the same weights. -/
theorem feedForward_idempotent (m : Libm α) (topology : List Nat) (net : Net α)
    (inputVals resultVals : List α) (hs : WellShaped topology net)
    (hlen : topology[0]? = some inputVals.length) :
    ∃ net', net.feedForward m inputVals = .ok net' ∧
      net'.feedForward m inputVals = .ok net' ∧
      net.run m [.feedForward inputVals, .feedForward inputVals]
        = net.run m [.feedForward inputVals] ∧
      ((net.run m [.feedForward inputVals, .feedForward inputVals]).toOption).map
          (fun k => k.getResults resultVals)
        = ((net.run m [.feedForward inputVals]).toOption).map
          (fun k => k.getResults resultVals) := by
  obtain ⟨net', h1, h2⟩ := feedForward_twice m hs hlen
  have hrun : net.run m [.feedForward inputVals, .feedForward inputVals]
      = net.run m [.feedForward inputVals] := by
    unfold Net.run
    simp only [List.foldlM_cons, List.foldlM_nil, Net.call, h1, ok_bind, h2]
  exact ⟨net', h1, h2, hrun, by rw [hrun]⟩

/-- C20 on the scenario net with the input 1. -/
theorem feedForward_idempotent_witness :
    WellShaped [1, 1] (scenarioNet : Net ℚ) ∧
      ∃ net', (scenarioNet : Net ℚ).feedForward sampleLibm [1] = .ok net' ∧
        net'.feedForward sampleLibm [1] = .ok net' := by
  obtain ⟨net', h1, h2, _⟩ :=
    feedForward_idempotent sampleLibm [1, 1] (scenarioNet : Net ℚ) [1] [] (by decide) rfl
  exact ⟨by decide, net', h1, h2⟩

end NeuralNet
